import Mathlib

/-!
Shallow embedding of the left-leaning red-black tree from
`src/tree/red_black_tree.rs` (repository `nanlong/arithmetic_rs`).

A `Link<K, V>` (that is, `Option<Box<Node<K, V>>>`) is modelled by the
inductive `Tree`; the absent link `None` is `Tree.nil`.  Keys and values are
`Int`, instantiating the generic `K : PartialOrd`, `V` of the source with the
totally ordered key type the repository's own test exercises.

The accessors `left()` and `right()` in the source call `Option::unwrap` and
therefore panic on an absent link; every operation that can reach such a
panic is embedded as an `Option Tree`-valued function where `none` means
"the Rust code panics on this input".  Operations that cannot panic
(`get`, `size`, `min`, `select`, `rank`, `floor`, `ceiling`, traversals)
are total.
-/

namespace RBT

inductive Color where
  | red : Color
  | black : Color
deriving DecidableEq, Repr

inductive Tree where
  | nil : Tree
  | node (key : Int) (val : Int) (n : Nat) (color : Color) (left right : Tree) : Tree
deriving DecidableEq, Repr

open Tree

/-- Link::size: stored subtree count, 0 for the absent link. -/
def size : Tree → Nat
  | nil => 0
  | node _ _ n _ _ _ => n

/-- Link::is_red: an absent link counts as black. -/
def is_red : Tree → Bool
  | node _ _ _ .red _ _ => true
  | _ => false

/-- Link::update_size: n = size(left) + size(right) + 1 (no-op on absent). -/
def update_size : Tree → Tree
  | nil => nil
  | node k v _ c l r => node k v (size l + size r + 1) c l r

/-- Color assignment through as_mut().map (no-op on the absent link). -/
def set_color : Tree → Color → Tree
  | nil, _ => nil
  | node k v n _ l r, c => node k v n c l r

/-- Link::new: fresh RED leaf with n = 1. -/
def new_link (key val : Int) : Tree := node key val 1 .red nil nil

/-- Link::rotate_left.  The former right child x becomes the subtree root,
inheriting h's color and h's pre-rotation size; h becomes RED, takes x's left
child as its right child and recomputes its own size.  Panics (none) when the
receiver or its right child is absent. -/
def rotate_left : Tree → Option Tree
  | node hk hv hn hc hl (node xk xv _ _ xl xr) =>
      some (node xk xv hn hc (node hk hv (size hl + size xl + 1) .red hl xl) xr)
  | _ => none

/-- Link::rotate_right, mirror of rotate_left. -/
def rotate_right : Tree → Option Tree
  | node hk hv hn hc (node xk xv _ _ xl xr) hr =>
      some (node xk xv hn hc xl (node hk hv (size xr + size hr + 1) .red xr hr))
  | _ => none

inductive FlipType where
  | up : FlipType
  | down : FlipType

/-- Link::flip_colors: UP makes the node RED and both children BLACK,
DOWN the inverse; a no-op on the absent link. -/
def flip_colors : Tree → FlipType → Tree
  | nil, _ => nil
  | node k v n _ l r, .up => node k v n .red (set_color l .black) (set_color r .black)
  | node k v n _ l r, .down => node k v n .black (set_color l .red) (set_color r .red)

/-- Link::balance: left rotation when the right link is red and the left is
not, right rotation when left and left-left are red, color flip when both
children are red, then update_size.  Panics on the absent link (left()). -/
def balance (t : Tree) : Option Tree :=
  match t with
  | nil => none
  | node k v n c l r =>
    match (if !(is_red l) && is_red r
           then rotate_left (node k v n c l r)
           else some (node k v n c l r)) with
    | none => none
    | some nil => none
    | some (node k1 v1 n1 c1 l1 r1) =>
      match (match l1 with
             | node _ _ _ .red ll _ =>
               if is_red ll then rotate_right (node k1 v1 n1 c1 l1 r1)
               else some (node k1 v1 n1 c1 l1 r1)
             | _ => some (node k1 v1 n1 c1 l1 r1)) with
      | none => none
      | some nil => none
      | some (node k2 v2 n2 c2 l2 r2) =>
        some (update_size
          (if is_red l2 && is_red r2
           then flip_colors (node k2 v2 n2 c2 l2 r2) .up
           else node k2 v2 n2 c2 l2 r2))

/-- Link::put: recursive descent by comparison, inserting a RED leaf at an
absent position or overwriting the value on an equal key, followed by an
unconditional balance on the way back up. -/
def put (t : Tree) (key val : Int) : Option Tree :=
  match t with
  | nil => balance (new_link key val)
  | node k v n c l r =>
    if key < k then
      match put l key val with
      | none => none
      | some l2 => balance (node k v n c l2 r)
    else if key > k then
      match put r key val with
      | none => none
      | some r2 => balance (node k v n c l r2)
    else balance (node k val n c l r)

/-- Link::get: read-only descent by comparison. -/
def get (t : Tree) (key : Int) : Option Int :=
  match t with
  | nil => none
  | node k v _ _ l r =>
    if key < k then get l key else if key > k then get r key else some v

/-- Link::min: descend left to the end; the empty link is its own minimum. -/
def min : Tree → Tree
  | nil => nil
  | node k v n c nil r => node k v n c nil r
  | node _ _ _ _ (node lk lv ln lc ll lr) _ => min (node lk lv ln lc ll lr)

/-- Link::max: descend right to the end. -/
def max : Tree → Tree
  | nil => nil
  | node k v n c l nil => node k v n c l nil
  | node _ _ _ _ _ (node rk rv rn rc rl rr) => max (node rk rv rn rc rl rr)

/-- Link::move_red_left: flip DOWN, then if h.right.left is red borrow from
the sibling via rotate_right on the right child, rotate_left and flip UP.
Panics when the receiver or its right child is absent. -/
def move_red_left (t : Tree) : Option Tree :=
  match flip_colors t .down with
  | nil => none
  | node k v n c l r =>
    match r with
    | nil => none
    | node rk rv rn rc rl rr =>
      if is_red rl then
        match rotate_right (node rk rv rn rc rl rr) with
        | none => none
        | some r2 =>
          match rotate_left (node k v n c l r2) with
          | none => none
          | some t2 => some (flip_colors t2 .up)
      else some (node k v n c l r)

/-- Link::move_red_right: flip DOWN, then if h.left.left is red rotate_right
and flip UP.  Panics when the receiver or its left child is absent. -/
def move_red_right (t : Tree) : Option Tree :=
  match flip_colors t .down with
  | nil => none
  | node k v n c l r =>
    match l with
    | nil => none
    | node lk lv ln lc ll lr =>
      if is_red ll then
        match rotate_right (node k v n c (node lk lv ln lc ll lr) r) with
        | none => none
        | some t2 => some (flip_colors t2 .up)
      else some (node k v n c (node lk lv ln lc ll lr) r)

/-- Number of nodes actually present in the subtree (not the stored field). -/
def real_size : Tree → Nat
  | nil => 0
  | node _ _ _ _ l r => real_size l + real_size r + 1

theorem real_size_set_color (t : Tree) (c : Color) :
    real_size (set_color t c) = real_size t := by
  cases t <;> simp [set_color, real_size]

theorem real_size_flip_colors (t : Tree) (ft : FlipType) :
    real_size (flip_colors t ft) = real_size t := by
  cases t <;> cases ft <;> simp [flip_colors, real_size, real_size_set_color]

theorem real_size_rotate_left {t t2 : Tree} (h : rotate_left t = some t2) :
    real_size t2 = real_size t := by
  cases t with
  | nil => simp [rotate_left] at h
  | node k v n c l r =>
    cases r with
    | nil => simp [rotate_left] at h
    | node rk rv rn rc rl rr =>
      simp [rotate_left] at h
      subst h
      simp [real_size]
      omega

theorem real_size_rotate_right {t t2 : Tree} (h : rotate_right t = some t2) :
    real_size t2 = real_size t := by
  cases t with
  | nil => simp [rotate_right] at h
  | node k v n c l r =>
    cases l with
    | nil => simp [rotate_right] at h
    | node lk lv ln lc ll lr =>
      simp [rotate_right] at h
      subst h
      simp [real_size]
      omega

theorem real_size_move_red_left {t t2 : Tree} (h : move_red_left t = some t2) :
    real_size t2 = real_size t := by
  unfold move_red_left at h
  split at h
  · exact absurd h (by simp)
  · rename_i k v n c l r heq
    have hsz : real_size (node k v n c l r) = real_size t := by
      rw [← heq, real_size_flip_colors]
    split at h
    · exact absurd h (by simp)
    · rename_i rk rv rn rc rl rr
      split at h
      · split at h
        · exact absurd h (by simp)
        · rename_i r2 hr2
          split at h
          · exact absurd h (by simp)
          · rename_i t3 ht3
            simp at h
            subst h
            rw [real_size_flip_colors, real_size_rotate_left ht3, ← hsz]
            simp [real_size, real_size_rotate_right hr2]
      · simp at h
        subst h
        exact hsz

theorem real_size_move_red_right {t t2 : Tree} (h : move_red_right t = some t2) :
    real_size t2 = real_size t := by
  unfold move_red_right at h
  split at h
  · exact absurd h (by simp)
  · rename_i k v n c l r heq
    have hsz : real_size (node k v n c l r) = real_size t := by
      rw [← heq, real_size_flip_colors]
    split at h
    · exact absurd h (by simp)
    · rename_i lk lv ln lc ll lr
      split at h
      · split at h
        · exact absurd h (by simp)
        · rename_i t3 ht3
          simp at h
          subst h
          rw [real_size_flip_colors, real_size_rotate_right ht3]
          exact hsz
      · simp at h
        subst h
        exact hsz

/-- Physical exchange of key and value between a node and the minimum of a
subtree (the mem::swap pair in Link::delete): the leftmost node of the
subtree receives the pair (nk, nv). -/
def swap_min_kv : Tree → Int → Int → Tree
  | nil, _, _ => nil
  | node _ _ n c nil r, nk, nv => node nk nv n c nil r
  | node k v n c (node lk lv ln lc ll lr) r, nk, nv =>
      node k v n c (swap_min_kv (node lk lv ln lc ll lr) nk nv) r

/-- Link::delete_min: the node without a left child is the minimum and is
replaced by None (discarding its right link, as the source does); otherwise
ensure the left side is red-descendable via move_red_left, recurse left and
balance.  Panics (none) on the absent link. -/
def delete_min (t : Tree) : Option Tree :=
  match t with
  | nil => none
  | node _ _ _ _ nil _ => some nil
  | node k v n c (node lk lv ln lc ll lr) r =>
    match h1 : (if !(is_red (node lk lv ln lc ll lr)) && !(is_red ll)
                then move_red_left (node k v n c (node lk lv ln lc ll lr) r)
                else some (node k v n c (node lk lv ln lc ll lr) r)) with
    | none => none
    | some nil => none
    | some (node k1 v1 n1 c1 l1 r1) =>
      match delete_min l1 with
      | none => none
      | some l2 => balance (node k1 v1 n1 c1 l2 r1)
  termination_by real_size t
  decreasing_by
    split at h1
    · have := real_size_move_red_left h1
      simp [real_size] at this ⊢
      omega
    · simp at h1
      obtain ⟨rfl, rfl, rfl, rfl, rfl, rfl⟩ := h1
      simp [real_size]
      omega

/-- Link::delete_max: clear a left-leaning red link from the path via
rotate_right, remove the node whose right link is absent, otherwise ensure
the right side is red-descendable via move_red_right, recurse right and
balance.  Panics (none) on the absent link. -/
def delete_max (t : Tree) : Option Tree :=
  match t with
  | nil => none
  | node k v n c l r =>
    match h1 : (if is_red l then rotate_right (node k v n c l r)
                else some (node k v n c l r)) with
    | none => none
    | some nil => none
    | some (node k1 v1 n1 c1 l1 nil) => some nil
    | some (node k1 v1 n1 c1 l1 (node rk rv rn rc rl rr)) =>
      match h2 : (if !(is_red (node rk rv rn rc rl rr)) && !(is_red rl)
                  then move_red_right (node k1 v1 n1 c1 l1 (node rk rv rn rc rl rr))
                  else some (node k1 v1 n1 c1 l1 (node rk rv rn rc rl rr))) with
      | none => none
      | some nil => none
      | some (node k2 v2 n2 c2 l2 r2) =>
        match delete_max r2 with
        | none => none
        | some r3 => balance (node k2 v2 n2 c2 l2 r3)
  termination_by real_size t
  decreasing_by
    split at h2
    · have hs2 := real_size_move_red_right h2
      split at h1
      · have hs1 := real_size_rotate_right h1
        simp [real_size] at hs1 hs2 ⊢
        omega
      · simp at h1
        obtain ⟨rfl, rfl, rfl, rfl, rfl, rfl⟩ := h1
        simp [real_size] at hs2 ⊢
        omega
    · simp at h2
      obtain ⟨rfl, rfl, rfl, rfl, rfl, rfl⟩ := h2
      split at h1
      · have hs1 := real_size_rotate_right h1
        simp [real_size] at hs1 ⊢
        omega
      · simp at h1
        obtain ⟨rfl, rfl, rfl, rfl, rfl, rfl⟩ := h1
        simp [real_size]
        omega

/-- Link::delete, written with an explicit recursion budget `fuel` because
the recursive calls descend into children of rotated trees: a budget
strictly above the node count never runs out (theorem delete_go_fuel), so
the budget is an artifact of the embedding, not of the source.  On the less
side ensure the left is red-descendable and recurse; otherwise rotate a red
left link away, remove an equal node with an absent right link outright,
ensure the right is red-descendable, then either swap with the minimum of
the right subtree and delete_min there (equal), or recurse right; balance on
every return path that did not remove the node.  Panics (none) wherever the
source unwraps an absent link. -/
def delete_body (recur : Tree → Int → Option Tree) (t : Tree) (key : Int) :
    Option Tree :=
  match t with
  | nil => none
  | node hk hv hn hc hl hr =>
    if key < hk then
      match (match hl with
             | nil => none
             | node lk lv ln lc ll lr =>
               if !(is_red (node lk lv ln lc ll lr)) && !(is_red ll)
               then move_red_left (node hk hv hn hc hl hr)
               else some (node hk hv hn hc hl hr)) with
      | none => none
      | some nil => none
      | some (node k1 v1 n1 c1 l1 r1) =>
        match recur l1 key with
        | none => none
        | some l2 => balance (node k1 v1 n1 c1 l2 r1)
    else
      match (if is_red hl then rotate_right (node hk hv hn hc hl hr)
             else some (node hk hv hn hc hl hr)) with
      | none => none
      | some nil => none
      | some (node k1 v1 n1 c1 l1 r1) =>
        if key == k1 && r1 == nil then some nil
        else
          match (match r1 with
                 | nil => none
                 | node rk rv rn rc rl rr =>
                   if !(is_red (node rk rv rn rc rl rr)) && !(is_red rl)
                   then move_red_right (node k1 v1 n1 c1 l1 r1)
                   else some (node k1 v1 n1 c1 l1 r1)) with
          | none => none
          | some nil => none
          | some (node k2 v2 n2 c2 l2 r2) =>
            if key == k2 then
              match min r2 with
              | nil => none
              | node mk mv _ _ _ _ =>
                match delete_min (swap_min_kv r2 k2 v2) with
                | none => none
                | some r3 => balance (node mk mv n2 c2 l2 r3)
            else
              match recur r2 key with
              | none => none
              | some r3 => balance (node k2 v2 n2 c2 l2 r3)

/-- The recursion of Link::delete over the budget. -/
def delete_go : Nat → Tree → Int → Option Tree
  | 0, _, _ => none
  | fuel + 1, t, key => delete_body (delete_go fuel) t key

/-- Link::delete: run the recursion with a budget that is provably never
exhausted. -/
def delete (t : Tree) (key : Int) : Option Tree :=
  delete_go (real_size t + 1) t key

/-- Link::select, 0-indexed, driven by the stored left-subtree sizes. -/
def select (t : Tree) (k : Nat) : Tree :=
  match t with
  | nil => nil
  | node key v n c l r =>
    if size l ≠ k then
      if k < size l then select l k else select r (k - size l - 1)
    else node key v n c l r

/-- Link::rank: count of keys reported smaller, via stored sizes. -/
def rank (t : Tree) (key : Int) : Nat :=
  match t with
  | nil => 0
  | node k _ _ _ l r =>
    if key < k then rank l key
    else if key > k then size l + rank r key + 1
    else size l

/-- Link::floor: descend left on less; on greater take the right subtree's
floor when present, otherwise the current node; on equal return the absent
link (the source's Equal arm returns None). -/
def floor (t : Tree) (key : Int) : Tree :=
  match t with
  | nil => nil
  | node k v n c l r =>
    if key < k then floor l key
    else if key > k then
      match floor r key with
      | nil => node k v n c l r
      | node fk fv fn fc fl fr => node fk fv fn fc fl fr
    else nil

/-- Link::ceiling: mirror of floor (left and right swapped). -/
def ceiling (t : Tree) (key : Int) : Tree :=
  match t with
  | nil => nil
  | node k v n c l r =>
    if key < k then
      match ceiling l key with
      | nil => node k v n c l r
      | node fk fv fn fc fl fr => node fk fv fn fc fl fr
    else if key > k then ceiling r key
    else nil

/-- The in-order sequence of (key, value) entries of a subtree, by the
natural recursion.  Reference semantics for the traversal claims. -/
def in_pairs : Tree → List (Int × Int)
  | nil => []
  | node k v _ _ l r => in_pairs l ++ (k, v) :: in_pairs r

/-- The in-order sequence of keys. -/
def in_keys (t : Tree) : List Int := (in_pairs t).map Prod.fst

/-- Link::in_order: the explicit-stack loop of the source.  The stack holds,
for each pushed node, its entry and its right subtree (all the loop reads
from a popped node). -/
def in_order_go : Tree → List (Int × Int × Tree) → List (Int × Int) → List (Int × Int)
  | node k v _ _ l r, stack, res => in_order_go l ((k, v, r) :: stack) res
  | nil, [], res => res
  | nil, (k, v, cr) :: stack, res => in_order_go cr stack (res ++ [(k, v)])
  termination_by t stack _ =>
    2 * real_size t + (stack.map (fun s => 1 + 2 * real_size s.2.2)).sum
  decreasing_by
    all_goals (simp [real_size]; try omega)

/-- Entries visited by the standard comparison descent towards a key, in
visiting order (the search path). -/
def search_nodes (t : Tree) (key : Int) : List (Int × Int) :=
  match t with
  | nil => []
  | node k v _ _ l r =>
    if key < k then (k, v) :: search_nodes l key
    else if key > k then (k, v) :: search_nodes r key
    else [(k, v)]

/-- The RedBlackTree facade: owns the root link. -/
structure Facade where
  root : Tree
deriving DecidableEq, Repr

namespace Facade

/-- RedBlackTree::new. -/
def new : Facade := ⟨nil⟩

/-- RedBlackTree::put — no root recoloring around Link::put. -/
def put (t : Facade) (key val : Int) : Option Facade :=
  match RBT.put t.root key val with
  | none => none
  | some r => some ⟨r⟩

/-- RedBlackTree::get. -/
def get (t : Facade) (key : Int) : Option Int := RBT.get t.root key

/-- RedBlackTree::size: the root's stored n. -/
def size (t : Facade) : Nat := RBT.size t.root

/-- RedBlackTree::delete: color the root RED when both its children are
black (panicking on the empty root as the source's root.left() does), run
Link::delete, then recolor a size-positive root BLACK. -/
def delete (t : Facade) (key : Int) : Option Facade :=
  match t.root with
  | nil => none
  | node k v n c l r =>
    match RBT.delete (if !(is_red l) && !(is_red r)
                      then node k v n .red l r
                      else node k v n c l r) key with
    | none => none
    | some root2 =>
      some ⟨if RBT.size root2 > 0 then set_color root2 .black else root2⟩

/-- RedBlackTree::delete_min with the same root-color bookkeeping. -/
def delete_min (t : Facade) : Option Facade :=
  match t.root with
  | nil => none
  | node k v n c l r =>
    match RBT.delete_min (if !(is_red l) && !(is_red r)
                          then node k v n .red l r
                          else node k v n c l r) with
    | none => none
    | some root2 =>
      some ⟨if RBT.size root2 > 0 then set_color root2 .black else root2⟩

/-- RedBlackTree::delete_max with the same root-color bookkeeping. -/
def delete_max (t : Facade) : Option Facade :=
  match t.root with
  | nil => none
  | node k v n c l r =>
    match RBT.delete_max (if !(is_red l) && !(is_red r)
                          then node k v n .red l r
                          else node k v n c l r) with
    | none => none
    | some root2 =>
      some ⟨if RBT.size root2 > 0 then set_color root2 .black else root2⟩

/-- RedBlackTree::min. -/
def min (t : Facade) : Tree := RBT.min t.root

/-- RedBlackTree::max. -/
def max (t : Facade) : Tree := RBT.max t.root

/-- RedBlackTree::select. -/
def select (t : Facade) (k : Nat) : Tree := RBT.select t.root k

/-- RedBlackTree::rank. -/
def rank (t : Facade) (key : Int) : Nat := RBT.rank t.root key

/-- RedBlackTree::floor. -/
def floor (t : Facade) (key : Int) : Tree := RBT.floor t.root key

/-- RedBlackTree::ceiling. -/
def ceiling (t : Facade) (key : Int) : Tree := RBT.ceiling t.root key

/-- RedBlackTree::in_order (entries as key-value pairs). -/
def in_order (t : Facade) : List (Int × Int) := in_order_go t.root [] []

end Facade

/-- A public mutating operation of the facade. -/
inductive Op where
  | put (key val : Int) : Op
  | delete (key : Int) : Op
  | delete_min : Op
  | delete_max : Op
deriving DecidableEq, Repr

/-- One facade call; none when the source would panic. -/
def apply_op (t : Facade) : Op → Option Facade
  | .put k v => t.put k v
  | .delete k => t.delete k
  | .delete_min => t.delete_min
  | .delete_max => t.delete_max

/-- A sequence of facade calls, propagating a panic. -/
def apply_ops (t : Facade) : List Op → Option Facade
  | [] => some t
  | op :: ops =>
    match apply_op t op with
    | none => none
    | some t2 => apply_ops t2 ops

/-- BST order as stated by the spec: the in-order key sequence is strictly
ascending. -/
def sorted (t : Tree) : Prop := List.Chain' (· < ·) (in_keys t)

instance (t : Tree) : Decidable (sorted t) :=
  inferInstanceAs (Decidable (List.Chain' (· < ·) (in_keys t)))

/-- Size consistency: every present node stores n = size(left) + size(right) + 1. -/
def size_ok : Tree → Bool
  | nil => true
  | node _ _ n _ l r => size_ok l && size_ok r && (n == size l + size r + 1)

/-- Black height when every root-to-null path has the same count of black
links, none otherwise. -/
def bh : Tree → Option Nat
  | nil => some 0
  | node _ _ _ c l r =>
    match bh l, bh r with
    | some a, some b =>
      if a = b then some (a + (if c == Color.black then 1 else 0)) else none
    | _, _ => none

/-- Perfect black balance: all root-to-null paths carry equally many black
links. -/
def black_balanced (t : Tree) : Bool := (bh t).isSome

/-- The spec's second invariant-oracle clause: no node has a red right link
while its left link is black. -/
def left_lean_ok : Tree → Bool
  | nil => true
  | node _ _ _ _ l r =>
    (!(is_red r) || is_red l) && left_lean_ok l && left_lean_ok r

/-- The key and value of the root of a link, when present. -/
def root_entry : Tree → Option (Int × Int)
  | nil => none
  | node k v _ _ _ _ => some (k, v)

/-- Whether the root of a facade is a BLACK node. -/
def root_black (t : Facade) : Bool :=
  match t.root with
  | nil => false
  | node _ _ _ c _ _ => c == Color.black

/-! ### Color-invariant predicates for the C5 oracle -/

/-- No red node anywhere has a red child. -/
def no_red_red : Tree → Bool
  | nil => true
  | node _ _ _ c l r =>
    (c == Color.black || (!(is_red l) && !(is_red r))) && no_red_red l && no_red_red r

/-- Red-red pairs confined to the root: both children are clean inside. -/
def no_red_red_below : Tree → Bool
  | nil => true
  | node _ _ _ _ l r => no_red_red l && no_red_red r

/-- No node anywhere has a red right child. -/
def no_red_right : Tree → Bool
  | nil => true
  | node _ _ _ _ l r => !(is_red r) && no_red_right l && no_red_right r

/-- Both children are internally free of red right links; the root's own
right link is unconstrained (a transient state of the delete descent). -/
def nrr_children : Tree → Bool
  | nil => true
  | node _ _ _ _ l r => no_red_right l && no_red_right r

/-- The left link of a node (absent for the absent link). -/
def left_of : Tree → Tree
  | nil => nil
  | node _ _ _ _ l _ => l

/-- The right link of a node. -/
def right_of : Tree → Tree
  | nil => nil
  | node _ _ _ _ _ r => r

/-- The root key is at most the argument (vacuous for the absent link). -/
def root_le (t : Tree) (key : Int) : Bool :=
  match t with
  | nil => true
  | node k _ _ _ _ _ => decide (k ≤ key)

/-! ### In-order sequence preservation by the balance engine -/

@[simp] theorem in_pairs_nil : in_pairs nil = [] := rfl

@[simp] theorem in_pairs_node (k v : Int) (n : Nat) (c : Color) (l r : Tree) :
    in_pairs (node k v n c l r) = in_pairs l ++ (k, v) :: in_pairs r := rfl

@[simp] theorem in_pairs_set_color (t : Tree) (c : Color) :
    in_pairs (set_color t c) = in_pairs t := by
  cases t <;> simp [set_color]

@[simp] theorem in_pairs_update_size (t : Tree) :
    in_pairs (update_size t) = in_pairs t := by
  cases t <;> simp [update_size]

@[simp] theorem in_pairs_flip_colors (t : Tree) (ft : FlipType) :
    in_pairs (flip_colors t ft) = in_pairs t := by
  cases t <;> cases ft <;> simp [flip_colors]

theorem in_pairs_rotate_left {t u : Tree} (h : rotate_left t = some u) :
    in_pairs u = in_pairs t := by
  cases t with
  | nil => simp [rotate_left] at h
  | node k v n c l r =>
    cases r with
    | nil => simp [rotate_left] at h
    | node rk rv rn rc rl rr =>
      simp [rotate_left] at h
      subst h
      simp

theorem in_pairs_rotate_right {t u : Tree} (h : rotate_right t = some u) :
    in_pairs u = in_pairs t := by
  cases t with
  | nil => simp [rotate_right] at h
  | node k v n c l r =>
    cases l with
    | nil => simp [rotate_right] at h
    | node lk lv ln lc ll lr =>
      simp [rotate_right] at h
      subst h
      simp

theorem in_pairs_balance {t u : Tree} (h : balance t = some u) :
    in_pairs u = in_pairs t := by
  unfold balance at h
  split at h
  · exact absurd h (by simp)
  · rename_i k v n c l r
    split at h
    · exact absurd h (by simp)
    · exact absurd h (by simp)
    · rename_i k1 v1 n1 c1 l1 r1 h1
      have e1 : in_pairs (node k1 v1 n1 c1 l1 r1) = in_pairs (node k v n c l r) := by
        split at h1
        · exact in_pairs_rotate_left h1
        · simp at h1; obtain ⟨rfl, rfl, rfl, rfl, rfl, rfl⟩ := h1; rfl
      split at h
      · exact absurd h (by simp)
      · exact absurd h (by simp)
      · rename_i k2 v2 n2 c2 l2 r2 h2
        have e2 : in_pairs (node k2 v2 n2 c2 l2 r2)
            = in_pairs (node k1 v1 n1 c1 l1 r1) := by
          split at h2
          · rename_i heq
            split at h2
            · exact in_pairs_rotate_right h2
            · simp at h2; obtain ⟨rfl, rfl, rfl, rfl, rfl, rfl⟩ := h2; rfl
          · simp at h2; obtain ⟨rfl, rfl, rfl, rfl, rfl, rfl⟩ := h2; rfl
        simp at h
        subst h
        split <;> simp [e1, e2]

theorem in_pairs_move_red_left {t u : Tree} (h : move_red_left t = some u) :
    in_pairs u = in_pairs t := by
  unfold move_red_left at h
  split at h
  · exact absurd h (by simp)
  · rename_i k v n c l r heq
    have e0 : in_pairs (node k v n c l r) = in_pairs t := by
      rw [← heq]; simp
    split at h
    · exact absurd h (by simp)
    · rename_i rk rv rn rc rl rr
      split at h
      · split at h
        · exact absurd h (by simp)
        · rename_i r2 hr2
          split at h
          · exact absurd h (by simp)
          · rename_i t2 ht2
            simp at h
            subst h
            rw [in_pairs_flip_colors, in_pairs_rotate_left ht2, ← e0]
            simp [in_pairs_rotate_right hr2]
      · simp at h
        subst h
        exact e0

theorem in_pairs_move_red_right {t u : Tree} (h : move_red_right t = some u) :
    in_pairs u = in_pairs t := by
  unfold move_red_right at h
  split at h
  · exact absurd h (by simp)
  · rename_i k v n c l r heq
    have e0 : in_pairs (node k v n c l r) = in_pairs t := by
      rw [← heq]; simp
    split at h
    · exact absurd h (by simp)
    · rename_i lk lv ln lc ll lr
      split at h
      · split at h
        · exact absurd h (by simp)
        · rename_i t2 ht2
          simp at h
          subst h
          rw [in_pairs_flip_colors, in_pairs_rotate_right ht2]
          exact e0
      · simp at h
        subst h
        exact e0

/-! ### Sorted association lists: the functional model of the map -/

/-- Insert-or-overwrite into a key-sorted association list. -/
def insert_pair (k v : Int) : List (Int × Int) → List (Int × Int)
  | [] => [(k, v)]
  | (a, b) :: rest =>
    if k < a then (k, v) :: (a, b) :: rest
    else if k > a then (a, b) :: insert_pair k v rest
    else (k, v) :: rest

/-- First-match lookup in an association list. -/
def lookup_kv (L : List (Int × Int)) (k : Int) : Option Int :=
  match L with
  | [] => none
  | (a, b) :: rest => if k = a then some b else lookup_kv rest k

theorem lookup_insert_self (k v : Int) (L : List (Int × Int)) :
    lookup_kv (insert_pair k v L) k = some v := by
  induction L with
  | nil => simp [insert_pair, lookup_kv]
  | cons p rest ih =>
    obtain ⟨a, b⟩ := p
    by_cases h1 : k < a
    · simp [insert_pair, h1, lookup_kv]
    · by_cases h2 : k > a
      · have hne : k ≠ a := by omega
        simp [insert_pair, h1, h2, lookup_kv, hne, ih]
      · simp [insert_pair, h1, h2, lookup_kv]

theorem lookup_insert_other {k k2 : Int} (hne : k2 ≠ k) (v : Int)
    (L : List (Int × Int)) :
    lookup_kv (insert_pair k v L) k2 = lookup_kv L k2 := by
  induction L with
  | nil => simp [insert_pair, lookup_kv, hne]
  | cons p rest ih =>
    obtain ⟨a, b⟩ := p
    by_cases h1 : k < a
    · simp [insert_pair, h1, lookup_kv, hne]
    · by_cases h2 : k > a
      · simp [insert_pair, h1, h2, lookup_kv, ih]
      · have hka : k = a := by omega
        subst hka
        simp [insert_pair, h1, h2, lookup_kv, hne]

/-- The key sequence of an association list. -/
def keys_of : List (Int × Int) → List Int
  | [] => []
  | (a, _) :: rest => a :: keys_of rest

@[simp] theorem keys_of_nil : keys_of [] = [] := rfl

@[simp] theorem keys_of_cons (a b : Int) (rest : List (Int × Int)) :
    keys_of ((a, b) :: rest) = a :: keys_of rest := rfl

@[simp] theorem keys_of_append (A B : List (Int × Int)) :
    keys_of (A ++ B) = keys_of A ++ keys_of B := by
  induction A with
  | nil => rfl
  | cons p rest ih => obtain ⟨a, b⟩ := p; simp [ih]

@[simp] theorem length_keys_of (L : List (Int × Int)) :
    (keys_of L).length = L.length := by
  induction L with
  | nil => rfl
  | cons p rest ih => obtain ⟨a, b⟩ := p; simp [ih]

theorem keys_of_eq_map (L : List (Int × Int)) : keys_of L = L.map Prod.fst := by
  induction L with
  | nil => rfl
  | cons p rest ih => obtain ⟨a, b⟩ := p; simp [ih]

theorem lookup_absent {L : List (Int × Int)} {k : Int}
    (h : k ∉ keys_of L) : lookup_kv L k = none := by
  induction L with
  | nil => rfl
  | cons p rest ih =>
    obtain ⟨a, b⟩ := p
    simp at h
    simp [lookup_kv, h.1, ih h.2]

/-- Insertion of a key into a key list, mirroring insert_pair. -/
def insert_key (k : Int) : List Int → List Int
  | [] => [k]
  | a :: rest =>
    if k < a then k :: a :: rest
    else if k > a then a :: insert_key k rest
    else k :: rest

theorem keys_of_insert_pair (k v : Int) (L : List (Int × Int)) :
    keys_of (insert_pair k v L) = insert_key k (keys_of L) := by
  induction L with
  | nil => rfl
  | cons p rest ih =>
    obtain ⟨a, b⟩ := p
    by_cases h1 : k < a
    · simp [insert_pair, insert_key, h1]
    · by_cases h2 : k > a
      · simp [insert_pair, insert_key, h1, h2, ih]
      · simp [insert_pair, insert_key, h1, h2]

theorem mem_insert_key {x k : Int} {L : List Int} (h : x ∈ insert_key k L) :
    x = k ∨ x ∈ L := by
  induction L with
  | nil => simpa [insert_key] using h
  | cons a rest ih =>
    by_cases h1 : k < a
    · simp [insert_key, h1] at h
      rcases h with h | h | h
      · exact Or.inl h
      · exact Or.inr (by simp [h])
      · exact Or.inr (by simp [h])
    · by_cases h2 : k > a
      · simp [insert_key, h1, h2] at h
        rcases h with h | h
        · exact Or.inr (by simp [h])
        · rcases ih h with h | h
          · exact Or.inl h
          · exact Or.inr (by simp [h])
      · simp [insert_key, h1, h2] at h
        rcases h with h | h
        · exact Or.inl h
        · exact Or.inr (by simp [h])

theorem pairwise_insert_key {k : Int} {L : List Int}
    (h : L.Pairwise (· < ·)) : (insert_key k L).Pairwise (· < ·) := by
  induction L with
  | nil => simp [insert_key]
  | cons a rest ih =>
    rw [List.pairwise_cons] at h
    by_cases h1 : k < a
    · rw [insert_key]
      simp only [if_pos h1]
      rw [List.pairwise_cons]
      refine ⟨?_, List.Pairwise.cons h.1 h.2⟩
      intro q hq
      simp at hq
      rcases hq with hq | hq
      · omega
      · have := h.1 q hq
        omega
    · by_cases h2 : k > a
      · rw [insert_key]
        simp only [if_neg h1, if_pos h2]
        rw [List.pairwise_cons]
        refine ⟨?_, ih h.2⟩
        intro q hq
        rcases mem_insert_key hq with hh | hh
        · omega
        · exact h.1 q hh
      · have hka : k = a := by omega
        subst hka
        rw [insert_key]
        simp only [if_neg h1, if_neg h2]
        rw [List.pairwise_cons]
        exact ⟨h.1, h.2⟩

theorem insert_key_mem {k : Int} {L : List Int}
    (hs : L.Pairwise (· < ·)) (hmem : k ∈ L) : insert_key k L = L := by
  induction L with
  | nil => simp at hmem
  | cons a rest ih =>
    rw [List.pairwise_cons] at hs
    simp at hmem
    by_cases h1 : k < a
    · exfalso
      rcases hmem with h | h
      · omega
      · have := hs.1 k h
        omega
    · by_cases h2 : k > a
      · have hmr : k ∈ rest := by
          rcases hmem with h | h
          · omega
          · exact h
        simp [insert_key, h1, h2, ih hs.2 hmr]
      · have hka : k = a := by omega
        subst hka
        simp [insert_key, h1, h2]

theorem lookup_append (A B : List (Int × Int)) (k : Int) :
    lookup_kv (A ++ B) k
      = match lookup_kv A k with
        | some v => some v
        | none => lookup_kv B k := by
  induction A with
  | nil => simp [lookup_kv]
  | cons p rest ih =>
    obtain ⟨a, b⟩ := p
    by_cases h : k = a <;> simp [lookup_kv, h, ih]

theorem insert_pair_append_lt {key : Int} (val : Int) {k : Int}
    (h : key < k) (v : Int) (A B : List (Int × Int)) :
    insert_pair key val (A ++ (k, v) :: B) = insert_pair key val A ++ (k, v) :: B := by
  induction A with
  | nil => simp [insert_pair, h]
  | cons p rest ih =>
    obtain ⟨a, b⟩ := p
    by_cases h1 : key < a
    · simp [insert_pair, h1]
    · by_cases h2 : key > a
      · simp [insert_pair, h1, h2, ih]
      · simp [insert_pair, h1, h2]

theorem insert_pair_append_gt {key : Int} (val : Int) {k : Int}
    (h : key > k) (v : Int) {A : List (Int × Int)} (B : List (Int × Int))
    (hA : ∀ x ∈ keys_of A, x < key) :
    insert_pair key val (A ++ (k, v) :: B) = A ++ (k, v) :: insert_pair key val B := by
  induction A with
  | nil => simp [insert_pair, h, show ¬(key < k) by omega]
  | cons p rest ih =>
    obtain ⟨a, b⟩ := p
    have ha : a < key := hA a (by simp)
    have ih2 := ih (fun x hx => hA x (by simp [hx]))
    simp [insert_pair, show ¬(key < a) by omega, show key > a from ha, ih2]

theorem insert_pair_append_eq {key : Int} (val v : Int) {A : List (Int × Int)}
    (B : List (Int × Int)) (hA : ∀ x ∈ keys_of A, x < key) :
    insert_pair key val (A ++ (key, v) :: B) = A ++ (key, val) :: B := by
  induction A with
  | nil => simp [insert_pair]
  | cons p rest ih =>
    obtain ⟨a, b⟩ := p
    have ha : a < key := hA a (by simp)
    have ih2 := ih (fun x hx => hA x (by simp [hx]))
    simp [insert_pair, show ¬(key < a) by omega, show key > a from ha, ih2]

/-! ### Sorted trees: decomposition, put, get -/

@[simp] theorem in_keys_nil : in_keys nil = [] := rfl

@[simp] theorem in_keys_node (k v : Int) (n : Nat) (c : Color) (l r : Tree) :
    in_keys (node k v n c l r) = in_keys l ++ k :: in_keys r := by
  simp [in_keys]

theorem in_keys_eq_keys_of (t : Tree) : in_keys t = keys_of (in_pairs t) := by
  simp [in_keys, keys_of_eq_map]

theorem sorted_iff_pairwise (t : Tree) :
    sorted t ↔ (in_keys t).Pairwise (· < ·) := by
  exact List.chain'_iff_pairwise

theorem sorted_node_iff (k v : Int) (n : Nat) (c : Color) (l r : Tree) :
    sorted (node k v n c l r)
      ↔ sorted l ∧ sorted r ∧ (∀ x ∈ in_keys l, x < k) ∧ (∀ y ∈ in_keys r, k < y) := by
  simp only [sorted_iff_pairwise, in_keys_node, List.pairwise_append,
    List.pairwise_cons]
  constructor
  · rintro ⟨hA, ⟨hkB, hB⟩, hcross⟩
    exact ⟨hA, hB, fun x hx => hcross x hx k (List.mem_cons_self k _), hkB⟩
  · rintro ⟨hA, hB, hAk, hkB⟩
    refine ⟨hA, ⟨hkB, hB⟩, ?_⟩
    intro x hx y hy
    rcases List.mem_cons.mp hy with rfl | hy
    · exact hAk x hx
    · exact lt_trans (hAk x hx) (hkB y hy)

theorem put_in_pairs {t u : Tree} {key val : Int} (hs : sorted t)
    (h : put t key val = some u) :
    in_pairs u = insert_pair key val (in_pairs t) := by
  induction t generalizing u with
  | nil =>
    have : u = node key val 1 .red nil nil := by
      rw [put] at h
      have : balance (new_link key val) = some (node key val 1 .red nil nil) := rfl
      rw [this] at h
      exact (Option.some_inj.mp h).symm
    subst this
    simp [insert_pair]
  | node k v n c l r ihl ihr =>
    rw [sorted_node_iff] at hs
    obtain ⟨hsl, hsr, hlk, hkr⟩ := hs
    rw [put] at h
    by_cases h1 : key < k
    · rw [if_pos h1] at h
      split at h
      · exact absurd h (by simp)
      · rename_i l2 hl2
        rw [in_pairs_balance h]
        simp only [in_pairs_node]
        rw [ihl hsl hl2, insert_pair_append_lt val h1 v]
    · rw [if_neg h1] at h
      have hA : ∀ x ∈ keys_of (in_pairs l), x < key := by
        intro x hx
        rw [← in_keys_eq_keys_of] at hx
        have := hlk x hx
        omega
      by_cases h2 : key > k
      · rw [if_pos h2] at h
        split at h
        · exact absurd h (by simp)
        · rename_i r2 hr2
          rw [in_pairs_balance h]
          simp only [in_pairs_node]
          rw [ihr hsr hr2, insert_pair_append_gt val h2 v (in_pairs r) hA]
      · rw [if_neg h2] at h
        have hkey : key = k := by omega
        subst hkey
        rw [in_pairs_balance h]
        simp only [in_pairs_node]
        rw [insert_pair_append_eq val v (in_pairs r) hA]

theorem sorted_put {t u : Tree} {key val : Int} (hs : sorted t)
    (h : put t key val = some u) : sorted u := by
  rw [sorted_iff_pairwise, in_keys_eq_keys_of, put_in_pairs hs h,
    keys_of_insert_pair, ← in_keys_eq_keys_of]
  exact pairwise_insert_key ((sorted_iff_pairwise t).mp hs)

theorem get_eq_lookup {t : Tree} (hs : sorted t) (key : Int) :
    get t key = lookup_kv (in_pairs t) key := by
  induction t with
  | nil => rfl
  | node k v n c l r ihl ihr =>
    rw [sorted_node_iff] at hs
    obtain ⟨hsl, hsr, hlk, hkr⟩ := hs
    rw [get, in_pairs_node, lookup_append]
    by_cases h1 : key < k
    · rw [if_pos h1, ihl hsl]
      have hB : lookup_kv ((k, v) :: in_pairs r) key = none := by
        rw [lookup_kv, if_neg (by omega)]
        apply lookup_absent
        rw [← in_keys_eq_keys_of]
        intro hmem
        have := hkr key hmem
        omega
      rw [hB]
      cases lookup_kv (in_pairs l) key <;> rfl
    · have hA : lookup_kv (in_pairs l) key = none := by
        apply lookup_absent
        rw [← in_keys_eq_keys_of]
        intro hmem
        have := hlk key hmem
        omega
      rw [if_neg h1, hA]
      by_cases h2 : key > k
      · rw [if_pos h2, lookup_kv, if_neg (by omega), ihr hsr]
      · rw [if_neg h2, lookup_kv, if_pos (by omega)]

theorem get_absent {t : Tree} {key : Int} (h : key ∉ in_keys t) :
    get t key = none := by
  induction t with
  | nil => rfl
  | node k v n c l r ihl ihr =>
    rw [in_keys_node] at h
    simp at h
    obtain ⟨hl, hk, hr⟩ := h
    rw [get]
    by_cases h1 : key < k
    · rw [if_pos h1]
      exact ihl hl
    · rw [if_neg h1]
      by_cases h2 : key > k
      · rw [if_pos h2]
        exact ihr hr
      · exact absurd (by omega : key = k) hk

/-! ### Deletion: sublist and key-removal lemmas -/

theorem in_pairs_eq_nil {t : Tree} : in_pairs t = [] ↔ t = nil := by
  cases t <;> simp

theorem sorted_congr {t u : Tree} (h : in_pairs t = in_pairs u) :
    sorted t ↔ sorted u := by
  unfold sorted
  rw [in_keys_eq_keys_of, in_keys_eq_keys_of, h]

theorem sorted_of_sublist {t u : Tree} (hsub : List.Sublist (in_pairs u) (in_pairs t))
    (hs : sorted t) : sorted u := by
  rw [sorted_iff_pairwise, in_keys_eq_keys_of, keys_of_eq_map] at hs ⊢
  exact hs.sublist (hsub.map Prod.fst)

theorem min_in_pairs {t : Tree} {mk mv : Int} {mn : Nat} {mc : Color} {ml mr : Tree} :
    min t = node mk mv mn mc ml mr → ∃ rest, in_pairs t = (mk, mv) :: rest := by
  induction t with
  | nil => intro h; exact absurd h (by simp [min])
  | node k v n c l r ihl ihr =>
    intro h
    cases l with
    | nil =>
      rw [min] at h
      injection h with e1 e2 e3 e4 e5 e6
      subst e1; subst e2
      exact ⟨in_pairs r, by simp⟩
    | node lk lv ln lc ll lr =>
      rw [min] at h
      obtain ⟨rest, hrest⟩ := ihl h
      exact ⟨rest ++ (k, v) :: in_pairs r, by simp [hrest]⟩

theorem swap_min_in_pairs {t : Tree} (h : t ≠ nil) (nk nv : Int) :
    in_pairs (swap_min_kv t nk nv) = (nk, nv) :: (in_pairs t).tail := by
  induction t with
  | nil => exact absurd rfl h
  | node k v n c l r ihl ihr =>
    cases l with
    | nil => simp [swap_min_kv]
    | node lk lv ln lc ll lr =>
      rw [swap_min_kv]
      have hl2 := ihl (by simp)
      cases hpl : in_pairs (node lk lv ln lc ll lr) with
      | nil => simp at hpl
      | cons p A =>
        rw [hpl] at hl2
        simp only [in_pairs_node, hl2, hpl]
        simp

theorem delete_min_nil : delete_min nil = none := by simp [delete_min]

theorem delete_min_sublist_aux : ∀ {n : Nat} {t u : Tree}, real_size t ≤ n →
    delete_min t = some u → List.Sublist (in_pairs u) ((in_pairs t).tail) := by
  intro n
  induction n with
  | zero =>
    intro t u hsz h
    cases t with
    | nil => exact absurd h (by simp [delete_min])
    | node k v n0 c l r => simp [real_size] at hsz
  | succ n IH =>
    intro t u hsz h
    cases t with
    | nil => exact absurd h (by simp [delete_min])
    | node k v n0 c l r =>
      cases l with
      | nil =>
        rw [delete_min] at h
        simp at h
        subst h
        simp
      | node lk lv ln lc ll lr =>
        rw [delete_min] at h
        split at h
        · exact absurd h (by simp)
        · exact absurd h (by simp)
        · rename_i k1 v1 n1 c1 l1 r1 heq
          split at h
          · exact absurd h (by simp)
          · rename_i l2 hl2
            have e0 : in_pairs (node k1 v1 n1 c1 l1 r1)
                = in_pairs (node k v n0 c (node lk lv ln lc ll lr) r) := by
              split at heq
              · exact in_pairs_move_red_left heq
              · simp at heq; obtain ⟨rfl, rfl, rfl, rfl, rfl, rfl⟩ := heq; rfl
            have esz : real_size (node k1 v1 n1 c1 l1 r1)
                = real_size (node k v n0 c (node lk lv ln lc ll lr) r) := by
              split at heq
              · exact real_size_move_red_left heq
              · simp at heq; obtain ⟨rfl, rfl, rfl, rfl, rfl, rfl⟩ := heq; rfl
            have hl1 : real_size l1 ≤ n := by
              simp [real_size] at esz hsz ⊢
              omega
            have IHl := IH hl1 hl2
            rw [in_pairs_balance h, ← e0]
            have hl1ne : l1 ≠ nil := by
              intro hh
              rw [hh] at hl2
              exact absurd hl2 (by simp [delete_min])
            obtain ⟨p, A, hpA⟩ : ∃ p A, in_pairs l1 = p :: A := by
              cases hpl : in_pairs l1 with
              | nil => exact absurd (in_pairs_eq_nil.mp hpl) hl1ne
              | cons p A => exact ⟨p, A, rfl⟩
            simp only [in_pairs_node, hpA]
            rw [hpA] at IHl
            simp only [List.tail_cons] at IHl
            simp only [List.cons_append, List.tail_cons]
            exact List.Sublist.append IHl (List.Sublist.refl _)

theorem delete_min_sublist {t u : Tree} (h : delete_min t = some u) :
    List.Sublist (in_pairs u) ((in_pairs t).tail) :=
  delete_min_sublist_aux (Nat.le_refl _) h

theorem rotate_right_root_key {hk hv : Int} {hn : Nat} {hc : Color} {hl hr : Tree}
    {k1 v1 : Int} {n1 : Nat} {c1 : Color} {l1 r1 : Tree}
    (h : rotate_right (node hk hv hn hc hl hr) = some (node k1 v1 n1 c1 l1 r1)) :
    k1 ∈ in_keys hl := by
  cases hl with
  | nil => simp [rotate_right] at h
  | node lk lv ln lc ll lr =>
    simp [rotate_right] at h
    simp [h.1]

theorem move_red_left_root_key {hk hv : Int} {hn : Nat} {hc : Color} {hl hr : Tree}
    {k1 v1 : Int} {n1 : Nat} {c1 : Color} {l1 r1 : Tree}
    (h : move_red_left (node hk hv hn hc hl hr) = some (node k1 v1 n1 c1 l1 r1)) :
    k1 = hk ∨ k1 ∈ in_keys hr := by
  unfold move_red_left at h
  simp only [flip_colors] at h
  cases hr with
  | nil => simp [set_color] at h
  | node rk rv rn rc rl rr =>
    simp only [set_color] at h
    cases rl with
    | nil =>
      simp [is_red] at h
      exact Or.inl h.1.symm
    | node rlk rlv rln rlc rll rlr =>
      cases rlc with
      | black =>
        simp [is_red] at h
        exact Or.inl h.1.symm
      | red =>
        simp [is_red, rotate_right, rotate_left, flip_colors] at h
        right
        simp [h.1]

theorem move_red_right_root_key {hk hv : Int} {hn : Nat} {hc : Color} {hl hr : Tree}
    {k1 v1 : Int} {n1 : Nat} {c1 : Color} {l1 r1 : Tree}
    (h : move_red_right (node hk hv hn hc hl hr) = some (node k1 v1 n1 c1 l1 r1)) :
    k1 = hk ∨ k1 ∈ in_keys hl := by
  unfold move_red_right at h
  simp only [flip_colors] at h
  cases hl with
  | nil => simp [set_color] at h
  | node lk lv ln lc ll lr =>
    simp only [set_color] at h
    cases ll with
    | nil =>
      simp [is_red] at h
      exact Or.inl h.1.symm
    | node llk llv lln llc lll llr =>
      cases llc with
      | black =>
        simp [is_red] at h
        exact Or.inl h.1.symm
      | red =>
        simp [is_red, rotate_right, flip_colors] at h
        right
        simp [h.1]

theorem mem_in_keys_of_sublist {t u : Tree}
    (hsub : List.Sublist (in_pairs u) (in_pairs t)) {x : Int}
    (hx : x ∈ in_keys u) : x ∈ in_keys t := by
  rw [in_keys_eq_keys_of, keys_of_eq_map] at hx ⊢
  exact (hsub.map Prod.fst).subset hx
theorem delete_nil (key : Int) : delete nil key = none := by
  simp [delete, delete_go, delete_body, real_size]

theorem delete_go_props : ∀ {fuel : Nat} {t u : Tree} {key : Int},
    sorted t → delete_go fuel t key = some u →
    List.Sublist (in_pairs u) (in_pairs t) ∧ key ∉ in_keys u := by
  intro fuel
  induction fuel with
  | zero =>
    intro t u key hs h
    exact absurd h (by simp [delete_go])
  | succ n IH =>
    intro t u key hs h
    cases t with
    | nil => exact absurd h (by simp [delete_go, delete_body])
    | node hk hv hn hc hl hr =>
      rw [sorted_node_iff] at hs
      obtain ⟨hsl, hsr, hlk, hkr⟩ := hs
      rw [delete_go] at h
      by_cases hlt : key < hk
      · cases hl with
        | nil =>
          simp only [delete_body, if_pos hlt] at h
          exact absurd h (by simp)
        | node lk lv ln lc ll lr =>
          simp only [delete_body, if_pos hlt] at h
          split at h
          · exact absurd h (by simp)
          · exact absurd h (by simp)
          · rename_i k1 v1 n1 c1 l1 r1 heq
            split at h
            · exact absurd h (by simp)
            · rename_i l2 hl2
              have e0 : in_pairs (node k1 v1 n1 c1 l1 r1)
                  = in_pairs (node hk hv hn hc (node lk lv ln lc ll lr) hr) := by
                split at heq
                · exact in_pairs_move_red_left heq
                · simp at heq; obtain ⟨rfl, rfl, rfl, rfl, rfl, rfl⟩ := heq; rfl
              have hkk1 : hk ≤ k1 := by
                rcases (by
                  split at heq
                  · exact move_red_left_root_key heq
                  · simp at heq
                    exact Or.inl heq.1.symm : k1 = hk ∨ k1 ∈ in_keys hr) with hh | hh
                · omega
                · have := hkr k1 hh; omega
              have hst1 : sorted (node k1 v1 n1 c1 l1 r1) := by
                rw [sorted_congr e0]
                rw [sorted_node_iff]
                exact ⟨hsl, hsr, hlk, hkr⟩
              rw [sorted_node_iff] at hst1
              obtain ⟨hsl1, hsr1, hl1k, hk1r⟩ := hst1
              obtain ⟨IH1, IH2⟩ := IH hsl1 hl2
              have hpu : in_pairs u = in_pairs l2 ++ (k1, v1) :: in_pairs r1 := by
                rw [in_pairs_balance h]; rfl
              constructor
              · rw [hpu, ← e0]
                exact List.Sublist.append IH1 (List.Sublist.refl _)
              · intro hmem
                rw [in_keys_eq_keys_of, hpu] at hmem
                simp at hmem
                rcases hmem with hm | hm | hm
                · exact IH2 (by rw [in_keys_eq_keys_of]; exact hm)
                · omega
                · have := hk1r key (by rw [in_keys_eq_keys_of]; exact hm)
                  omega
      · simp only [delete_body, if_neg hlt] at h
        split at h
        · exact absurd h (by simp)
        · exact absurd h (by simp)
        · rename_i k1 v1 n1 c1 l1 r1 heq1
          have e1 : in_pairs (node k1 v1 n1 c1 l1 r1)
              = in_pairs (node hk hv hn hc hl hr) := by
            split at heq1
            · exact in_pairs_rotate_right heq1
            · simp at heq1; obtain ⟨rfl, rfl, rfl, rfl, rfl, rfl⟩ := heq1; rfl
          have hk1hk : k1 ≤ hk := by
            rcases (by
              split at heq1
              · exact Or.inr (rotate_right_root_key heq1)
              · simp at heq1
                exact Or.inl heq1.1.symm : k1 = hk ∨ k1 ∈ in_keys hl) with hh | hh
            · omega
            · have := hlk k1 hh; omega
          have hst1 : sorted (node k1 v1 n1 c1 l1 r1) := by
            rw [sorted_congr e1, sorted_node_iff]
            exact ⟨hsl, hsr, hlk, hkr⟩
          rw [sorted_node_iff] at hst1
          obtain ⟨hsl1, hsr1, hl1k, hk1r⟩ := hst1
          split at h
          · -- early removal: key equals the root and the right link is absent
            simp at h
            subst h
            exact ⟨by simp, by simp⟩
          · rename_i hne1
            cases r1 with
            | nil => exact absurd h (by simp)
            | node rk rv rn rc rl rr =>
              dsimp only [] at h
              split at h
              · exact absurd h (by simp)
              · exact absurd h (by simp)
              · rename_i k2 v2 n2 c2 l2 r2 heq2
                have e2 : in_pairs (node k2 v2 n2 c2 l2 r2)
                    = in_pairs (node k1 v1 n1 c1 l1 (node rk rv rn rc rl rr)) := by
                  split at heq2
                  · exact in_pairs_move_red_right heq2
                  · simp at heq2; obtain ⟨rfl, rfl, rfl, rfl, rfl, rfl⟩ := heq2; rfl
                have hk2k1 : k2 ≤ k1 := by
                  rcases (by
                    split at heq2
                    · exact move_red_right_root_key heq2
                    · simp at heq2
                      exact Or.inl heq2.1.symm : k2 = k1 ∨ k2 ∈ in_keys l1) with hh | hh
                  · omega
                  · have := hl1k k2 hh; omega
                have hst2 : sorted (node k2 v2 n2 c2 l2 r2) := by
                  rw [sorted_congr e2, sorted_node_iff]
                  exact ⟨hsl1, hsr1, hl1k, hk1r⟩
                rw [sorted_node_iff] at hst2
                obtain ⟨hsl2, hsr2, hl2k, hk2r⟩ := hst2
                have hkey2 : ¬ key < k2 := by omega
                split at h
                · rename_i hkeq
                  simp at hkeq
                  split at h
                  · exact absurd h (by simp)
                  · rename_i mk mv mn mc ml mr heqm
                    split at h
                    · exact absurd h (by simp)
                    · rename_i r3 heq3
                      obtain ⟨rest, hrest⟩ := min_in_pairs heqm
                      have hr2ne : r2 ≠ nil := by
                        intro hh
                        rw [hh] at heqm
                        simp [min] at heqm
                      have hswap := swap_min_in_pairs hr2ne k2 v2
                      rw [hrest] at hswap
                      simp only [List.tail_cons] at hswap
                      have hsub3 := delete_min_sublist heq3
                      rw [hswap] at hsub3
                      simp only [List.tail_cons] at hsub3
                      have hpu : in_pairs u = in_pairs l2 ++ (mk, mv) :: in_pairs r3 := by
                        rw [in_pairs_balance h]; rfl
                      have hmkr2 : mk ∈ in_keys r2 := by
                        rw [in_keys_eq_keys_of, hrest]
                        simp
                      have hk2mk : k2 < mk := hk2r mk hmkr2
                      constructor
                      · rw [hpu, ← e1, ← e2]
                        simp only [in_pairs_node, hrest]
                        exact List.Sublist.append (List.Sublist.refl _)
                          (List.Sublist.cons _ (List.Sublist.cons₂ _ hsub3))
                      · subst hkeq
                        intro hmem
                        rw [in_keys_eq_keys_of, hpu] at hmem
                        simp at hmem
                        rcases hmem with hm | hm | hm
                        · have := hl2k key (by rw [in_keys_eq_keys_of]; exact hm)
                          omega
                        · omega
                        · have hmem2 : key ∈ keys_of rest := by
                            rw [keys_of_eq_map] at hm ⊢
                            exact ((hsub3.map Prod.fst).subset) hm
                          have : key ∈ in_keys r2 := by
                            rw [in_keys_eq_keys_of, hrest]
                            simp [hmem2]
                          have := hk2r key this
                          omega
                · rename_i hkne
                  simp at hkne
                  split at h
                  · exact absurd h (by simp)
                  · rename_i r3 heq3
                    obtain ⟨IH1, IH2⟩ := IH hsr2 heq3
                    have hpu : in_pairs u = in_pairs l2 ++ (k2, v2) :: in_pairs r3 := by
                      rw [in_pairs_balance h]; rfl
                    constructor
                    · rw [hpu, ← e1, ← e2]
                      simp only [in_pairs_node]
                      exact List.Sublist.append (List.Sublist.refl _)
                        (List.Sublist.cons₂ _ IH1)
                    · intro hmem
                      rw [in_keys_eq_keys_of, hpu] at hmem
                      simp at hmem
                      rcases hmem with hm | hm | hm
                      · have := hl2k key (by rw [in_keys_eq_keys_of]; exact hm)
                        omega
                      · exact hkne hm
                      · exact IH2 (by rw [in_keys_eq_keys_of]; exact hm)

theorem delete_props {t u : Tree} {key : Int} (hs : sorted t)
    (h : delete t key = some u) :
    List.Sublist (in_pairs u) (in_pairs t) ∧ key ∉ in_keys u :=
  delete_go_props hs h

theorem delete_go_fuel_aux : ∀ {n f1 f2 : Nat} {t : Tree} {key : Int},
    real_size t ≤ n → real_size t < f1 → real_size t < f2 →
    delete_go f1 t key = delete_go f2 t key := by
  intro n
  induction n with
  | zero =>
    intro f1 f2 t key hsz h1 h2
    cases t with
    | nil =>
      cases f1 with
      | zero => omega
      | succ f1 =>
        cases f2 with
        | zero => omega
        | succ f2 => rfl
    | node a b c d e f => simp [real_size] at hsz
  | succ n IH =>
    intro f1 f2 t key hsz h1 h2
    cases t with
    | nil =>
      cases f1 with
      | zero => omega
      | succ f1 =>
        cases f2 with
        | zero => omega
        | succ f2 => rfl
    | node hk hv hn hc hl hr =>
      cases f1 with
      | zero => omega
      | succ f1 =>
        cases f2 with
        | zero => omega
        | succ f2 =>
          simp only [delete_go]
          by_cases hlt : key < hk
          · cases hl with
            | nil => simp [delete_body, hlt]
            | node lk lv ln lc ll lr =>
              simp only [delete_body, if_pos hlt]
              split
              · rfl
              · rfl
              · rename_i k1 v1 n1 c1 l1 r1 heq
                have esz : real_size (node k1 v1 n1 c1 l1 r1)
                    = real_size (node hk hv hn hc (node lk lv ln lc ll lr) hr) := by
                  split at heq
                  · exact real_size_move_red_left heq
                  · simp at heq; obtain ⟨rfl, rfl, rfl, rfl, rfl, rfl⟩ := heq; rfl
                rw [IH (show real_size l1 ≤ n by
                      simp [real_size] at esz hsz ⊢; omega)
                    (show real_size l1 < f1 by
                      simp [real_size] at esz h1 ⊢; omega)
                    (show real_size l1 < f2 by
                      simp [real_size] at esz h2 ⊢; omega)]
          · simp only [delete_body, if_neg hlt]
            split
            · rfl
            · rfl
            · rename_i k1 v1 n1 c1 l1 r1 heq1
              have esz1 : real_size (node k1 v1 n1 c1 l1 r1)
                  = real_size (node hk hv hn hc hl hr) := by
                split at heq1
                · exact real_size_rotate_right heq1
                · simp at heq1; obtain ⟨rfl, rfl, rfl, rfl, rfl, rfl⟩ := heq1; rfl
              split
              · rfl
              · cases r1 with
                | nil => rfl
                | node rk rv rn rc rl rr =>
                  dsimp only []
                  split
                  · rfl
                  · rfl
                  · rename_i k2 v2 n2 c2 l2 r2 heq2
                    have esz2 : real_size (node k2 v2 n2 c2 l2 r2)
                        = real_size (node k1 v1 n1 c1 l1 (node rk rv rn rc rl rr)) := by
                      split at heq2
                      · exact real_size_move_red_right heq2
                      · simp at heq2
                        obtain ⟨rfl, rfl, rfl, rfl, rfl, rfl⟩ := heq2; rfl
                    split
                    · rfl
                    · rw [IH (show real_size r2 ≤ n by
                            simp [real_size] at esz1 esz2 hsz ⊢; omega)
                          (show real_size r2 < f1 by
                            simp [real_size] at esz1 esz2 h1 ⊢; omega)
                          (show real_size r2 < f2 by
                            simp [real_size] at esz1 esz2 h2 ⊢; omega)]

/-- Any budget strictly above the node count computes the same result as the
canonical one: the budget never runs out, so delete_go is a faithful
rendering of the source's recursion. -/
theorem delete_go_fuel {f : Nat} {t : Tree} {key : Int} (hf : real_size t < f) :
    delete_go f t key = delete t key :=
  delete_go_fuel_aux (Nat.le_refl _) hf (Nat.lt_succ_of_le (Nat.le_refl _))

/-! ### Size-field consistency -/

theorem size_ok_set_color (t : Tree) (c : Color) :
    size_ok (set_color t c) = size_ok t := by
  cases t <;> simp [set_color, size_ok]

theorem size_set_color (t : Tree) (c : Color) : size (set_color t c) = size t := by
  cases t <;> simp [set_color, size]

theorem size_ok_flip_colors (t : Tree) (ft : FlipType) :
    size_ok (flip_colors t ft) = size_ok t := by
  cases t <;> cases ft <;>
    simp [flip_colors, size_ok, size_ok_set_color, size_set_color]

theorem size_flip_colors (t : Tree) (ft : FlipType) :
    size (flip_colors t ft) = size t := by
  cases t <;> cases ft <;> simp [flip_colors, size]

theorem size_eq_real_of_size_ok {t : Tree} (h : size_ok t = true) :
    size t = real_size t := by
  induction t with
  | nil => rfl
  | node k v n c l r ihl ihr =>
    simp only [size_ok, Bool.and_eq_true, beq_iff_eq] at h
    obtain ⟨⟨hl, hr⟩, hn⟩ := h
    simp only [size, real_size]
    rw [hn, ihl hl, ihr hr]

theorem length_in_pairs (t : Tree) : (in_pairs t).length = real_size t := by
  induction t with
  | nil => rfl
  | node k v n c l r ihl ihr => simp [real_size, ihl, ihr]; omega

theorem rotate_left_size_ok {t u : Tree} (ht : size_ok t = true)
    (h : rotate_left t = some u) : size_ok u = true := by
  cases t with
  | nil => simp [rotate_left] at h
  | node k v n c l r =>
    cases r with
    | nil => simp [rotate_left] at h
    | node rk rv rn rc rl rr =>
      simp [rotate_left] at h
      subst h
      simp only [size_ok, size, Bool.and_eq_true, beq_iff_eq] at ht ⊢
      obtain ⟨⟨h1, ⟨⟨h2, h3⟩, h4⟩⟩, h5⟩ := ht
      exact ⟨⟨⟨⟨h1, h2⟩, trivial⟩, h3⟩, by omega⟩

theorem rotate_right_size_ok {t u : Tree} (ht : size_ok t = true)
    (h : rotate_right t = some u) : size_ok u = true := by
  cases t with
  | nil => simp [rotate_right] at h
  | node k v n c l r =>
    cases l with
    | nil => simp [rotate_right] at h
    | node lk lv ln lc ll lr =>
      simp [rotate_right] at h
      subst h
      simp only [size_ok, size, Bool.and_eq_true, beq_iff_eq] at ht ⊢
      obtain ⟨⟨⟨⟨h1, h2⟩, h3⟩, h4⟩, h5⟩ := ht
      exact ⟨⟨h1, ⟨⟨h2, h4⟩, trivial⟩⟩, by omega⟩

/-- Children-level size consistency: both subtrees are internally
consistent; the root's own stored n may be stale (as it is mid-balance). -/
def size_ok_c : Tree → Bool
  | nil => true
  | node _ _ _ _ l r => size_ok l && size_ok r

theorem size_ok_c_of_size_ok {t : Tree} (h : size_ok t = true) :
    size_ok_c t = true := by
  cases t with
  | nil => rfl
  | node k v n c l r =>
    simp only [size_ok, Bool.and_eq_true, beq_iff_eq] at h
    simp [size_ok_c, h.1.1, h.1.2]

theorem rotate_left_size_ok_c {k v : Int} {n : Nat} {c : Color} {l r u : Tree}
    (hl : size_ok l = true) (hr : size_ok r = true)
    (h : rotate_left (node k v n c l r) = some u) : size_ok_c u = true := by
  cases r with
  | nil => simp [rotate_left] at h
  | node rk rv rn rc rl rr =>
    simp [rotate_left] at h
    subst h
    simp only [size_ok, Bool.and_eq_true, beq_iff_eq] at hr
    simp [size_ok_c, size_ok, hl, hr.1.1, hr.1.2]

theorem rotate_right_size_ok_c {k v : Int} {n : Nat} {c : Color} {l r u : Tree}
    (hl : size_ok l = true) (hr : size_ok r = true)
    (h : rotate_right (node k v n c l r) = some u) : size_ok_c u = true := by
  cases l with
  | nil => simp [rotate_right] at h
  | node lk lv ln lc ll lr =>
    simp [rotate_right] at h
    subst h
    simp only [size_ok, Bool.and_eq_true, beq_iff_eq] at hl
    simp [size_ok_c, size_ok, hr, hl.1.1, hl.1.2]

theorem update_size_size_ok {t : Tree} (h : size_ok_c t = true) :
    size_ok (update_size t) = true := by
  cases t with
  | nil => rfl
  | node k v n c l r =>
    simp [size_ok_c] at h
    simp [update_size, size_ok, h.1, h.2]

theorem balance_size_ok {k v : Int} {n : Nat} {c : Color} {l r u : Tree}
    (hl : size_ok l = true) (hr : size_ok r = true)
    (h : balance (node k v n c l r) = some u) : size_ok u = true := by
  rw [balance] at h
  split at h
  · exact absurd h (by simp)
  · exact absurd h (by simp)
  · rename_i k1 v1 n1 c1 l1 r1 heq1
    have hc1 : size_ok l1 = true ∧ size_ok r1 = true := by
      have : size_ok_c (node k1 v1 n1 c1 l1 r1) = true := by
        split at heq1
        · exact rotate_left_size_ok_c hl hr heq1
        · simp at heq1
          obtain ⟨rfl, rfl, rfl, rfl, rfl, rfl⟩ := heq1
          simp [size_ok_c, hl, hr]
      simp [size_ok_c] at this
      exact this
    split at h
    · exact absurd h (by simp)
    · exact absurd h (by simp)
    · rename_i k2 v2 n2 c2 l2 r2 heq2
      have hc2 : size_ok l2 = true ∧ size_ok r2 = true := by
        have : size_ok_c (node k2 v2 n2 c2 l2 r2) = true := by
          split at heq2
          · rename_i hll
            split at heq2
            · exact rotate_right_size_ok_c hc1.1 hc1.2 heq2
            · simp at heq2
              obtain ⟨rfl, rfl, rfl, rfl, rfl, rfl⟩ := heq2
              simp [size_ok_c, hc1.1, hc1.2]
          · simp at heq2
            obtain ⟨rfl, rfl, rfl, rfl, rfl, rfl⟩ := heq2
            simp [size_ok_c, hc1.1, hc1.2]
        simp [size_ok_c] at this
        exact this
      simp at h
      subst h
      split
      · apply update_size_size_ok
        cases l2 <;> cases r2 <;>
          simp_all [flip_colors, size_ok_c, size_ok_set_color]
      · apply update_size_size_ok
        simp [size_ok_c, hc2.1, hc2.2]

theorem size_rotate_left {t u : Tree} (h : rotate_left t = some u) :
    size u = size t := by
  cases t with
  | nil => simp [rotate_left] at h
  | node k v n c l r =>
    cases r with
    | nil => simp [rotate_left] at h
    | node rk rv rn rc rl rr =>
      simp [rotate_left] at h
      subst h
      rfl

theorem size_rotate_right {t u : Tree} (h : rotate_right t = some u) :
    size u = size t := by
  cases t with
  | nil => simp [rotate_right] at h
  | node k v n c l r =>
    cases l with
    | nil => simp [rotate_right] at h
    | node lk lv ln lc ll lr =>
      simp [rotate_right] at h
      subst h
      rfl

theorem move_red_left_size_ok {t u : Tree} (ht : size_ok t = true)
    (h : move_red_left t = some u) : size_ok u = true := by
  unfold move_red_left at h
  split at h
  · exact absurd h (by simp)
  · rename_i k v n c l r heq
    have h0 : size_ok (node k v n c l r) = true := by
      rw [← size_ok_flip_colors t .down, heq] at ht
      exact ht
    split at h
    · exact absurd h (by simp)
    · rename_i rk rv rn rc rl rr
      split at h
      · split at h
        · exact absurd h (by simp)
        · rename_i r2 hr2
          split at h
          · exact absurd h (by simp)
          · rename_i t2 ht2
            simp at h
            subst h
            rw [size_ok_flip_colors]
            apply rotate_left_size_ok _ ht2
            simp only [size_ok, Bool.and_eq_true, beq_iff_eq] at h0 ⊢
            obtain ⟨⟨hol, hor⟩, hon⟩ := h0
            have hr2ok : size_ok r2 = true := rotate_right_size_ok
              (show size_ok (node rk rv rn rc rl rr) = true by
                simp only [size_ok, Bool.and_eq_true, beq_iff_eq]
                exact hor) hr2
            have hr2sz : size r2 = rn := by
              rw [size_rotate_right hr2]; rfl
            refine ⟨⟨hol, hr2ok⟩, ?_⟩
            rw [hr2sz]
            simpa [size] using hon
      · simp at h
        subst h
        exact h0

theorem move_red_right_size_ok {t u : Tree} (ht : size_ok t = true)
    (h : move_red_right t = some u) : size_ok u = true := by
  unfold move_red_right at h
  split at h
  · exact absurd h (by simp)
  · rename_i k v n c l r heq
    have h0 : size_ok (node k v n c l r) = true := by
      rw [← size_ok_flip_colors t .down, heq] at ht
      exact ht
    split at h
    · exact absurd h (by simp)
    · rename_i lk lv ln lc ll lr
      split at h
      · split at h
        · exact absurd h (by simp)
        · rename_i t2 ht2
          simp at h
          subst h
          rw [size_ok_flip_colors]
          exact rotate_right_size_ok h0 ht2
      · simp at h
        subst h
        exact h0

theorem size_swap_min_kv (t : Tree) (nk nv : Int) :
    size (swap_min_kv t nk nv) = size t := by
  cases t with
  | nil => rfl
  | node k v n c l r => cases l <;> rfl

theorem size_ok_swap_min_kv {t : Tree} (ht : size_ok t = true) (nk nv : Int) :
    size_ok (swap_min_kv t nk nv) = true := by
  induction t with
  | nil => rfl
  | node k v n c l r ihl ihr =>
    cases l with
    | nil =>
      simp only [size_ok, Bool.and_eq_true, beq_iff_eq] at ht
      simp [swap_min_kv, size_ok, ht.1.2, ht.2]
    | node lk lv ln lc ll lr =>
      simp only [size_ok, Bool.and_eq_true, beq_iff_eq] at ht
      rw [swap_min_kv]
      simp only [size_ok, Bool.and_eq_true, beq_iff_eq]
      refine ⟨⟨ihl (by
        simp only [size_ok, Bool.and_eq_true, beq_iff_eq]
        exact ht.1.1), ht.1.2⟩, ?_⟩
      rw [size_swap_min_kv]
      exact ht.2

theorem delete_min_size_ok_aux : ∀ {n : Nat} {t u : Tree}, real_size t ≤ n →
    size_ok t = true → delete_min t = some u → size_ok u = true := by
  intro n
  induction n with
  | zero =>
    intro t u hsz ht h
    cases t with
    | nil => exact absurd h (by simp [delete_min])
    | node k v n0 c l r => simp [real_size] at hsz
  | succ n IH =>
    intro t u hsz ht h
    cases t with
    | nil => exact absurd h (by simp [delete_min])
    | node k v n0 c l r =>
      cases l with
      | nil =>
        rw [delete_min] at h
        simp at h
        subst h
        rfl
      | node lk lv ln lc ll lr =>
        rw [delete_min] at h
        split at h
        · exact absurd h (by simp)
        · exact absurd h (by simp)
        · rename_i k1 v1 n1 c1 l1 r1 heq
          split at h
          · exact absurd h (by simp)
          · rename_i l2 hl2
            have h1 : size_ok (node k1 v1 n1 c1 l1 r1) = true := by
              split at heq
              · exact move_red_left_size_ok ht heq
              · simp at heq; obtain ⟨rfl, rfl, rfl, rfl, rfl, rfl⟩ := heq
                exact ht
            have esz : real_size (node k1 v1 n1 c1 l1 r1)
                = real_size (node k v n0 c (node lk lv ln lc ll lr) r) := by
              split at heq
              · exact real_size_move_red_left heq
              · simp at heq; obtain ⟨rfl, rfl, rfl, rfl, rfl, rfl⟩ := heq; rfl
            simp only [size_ok, Bool.and_eq_true, beq_iff_eq] at h1
            exact balance_size_ok
              (IH (by simp [real_size] at esz hsz ⊢; omega) h1.1.1 hl2)
              h1.1.2 h

theorem delete_min_size_ok {t u : Tree} (ht : size_ok t = true)
    (h : delete_min t = some u) : size_ok u = true :=
  delete_min_size_ok_aux (Nat.le_refl _) ht h

theorem delete_max_size_ok_aux : ∀ {n : Nat} {t u : Tree}, real_size t ≤ n →
    size_ok t = true → delete_max t = some u → size_ok u = true := by
  intro n
  induction n with
  | zero =>
    intro t u hsz ht h
    cases t with
    | nil => exact absurd h (by simp [delete_max])
    | node k v n0 c l r => simp [real_size] at hsz
  | succ n IH =>
    intro t u hsz ht h
    cases t with
    | nil => exact absurd h (by simp [delete_max])
    | node k v n0 c l r =>
      rw [delete_max] at h
      split at h
      · exact absurd h (by simp)
      · exact absurd h (by simp)
      · simp at h
        subst h
        rfl
      · rename_i k1 v1 n1 c1 l1 rk rv rn rc rl rr heq1
        have h1 : size_ok (node k1 v1 n1 c1 l1 (node rk rv rn rc rl rr)) = true := by
          split at heq1
          · exact rotate_right_size_ok ht heq1
          · simp at heq1; obtain ⟨rfl, rfl, rfl, rfl, rfl, rfl⟩ := heq1
            exact ht
        have esz1 : real_size (node k1 v1 n1 c1 l1 (node rk rv rn rc rl rr))
            = real_size (node k v n0 c l r) := by
          split at heq1
          · exact real_size_rotate_right heq1
          · simp at heq1; obtain ⟨rfl, rfl, rfl, rfl, rfl, rfl⟩ := heq1; rfl
        split at h
        · exact absurd h (by simp)
        · exact absurd h (by simp)
        · rename_i k2 v2 n2 c2 l2 r2 heq2
          have h2 : size_ok (node k2 v2 n2 c2 l2 r2) = true := by
            split at heq2
            · exact move_red_right_size_ok h1 heq2
            · simp at heq2; obtain ⟨rfl, rfl, rfl, rfl, rfl, rfl⟩ := heq2
              exact h1
          have esz2 : real_size (node k2 v2 n2 c2 l2 r2)
              = real_size (node k1 v1 n1 c1 l1 (node rk rv rn rc rl rr)) := by
            split at heq2
            · exact real_size_move_red_right heq2
            · simp at heq2; obtain ⟨rfl, rfl, rfl, rfl, rfl, rfl⟩ := heq2; rfl
          split at h
          · exact absurd h (by simp)
          · rename_i r3 hr3
            simp only [size_ok, Bool.and_eq_true, beq_iff_eq] at h2
            exact balance_size_ok h2.1.1
              (IH (by simp [real_size] at esz1 esz2 hsz ⊢; omega) h2.1.2 hr3) h

theorem delete_max_size_ok {t u : Tree} (ht : size_ok t = true)
    (h : delete_max t = some u) : size_ok u = true :=
  delete_max_size_ok_aux (Nat.le_refl _) ht h

theorem put_size_ok : ∀ {t u : Tree} {key val : Int}, size_ok t = true →
    put t key val = some u → size_ok u = true := by
  intro t
  induction t with
  | nil =>
    intro u key val ht h
    simp only [put, new_link] at h
    exact balance_size_ok (show size_ok nil = true from rfl)
      (show size_ok nil = true from rfl) h
  | node k v n c l r ihl ihr =>
    intro u key val ht h
    simp only [size_ok, Bool.and_eq_true, beq_iff_eq] at ht
    rw [put] at h
    split at h
    · split at h
      · exact absurd h (by simp)
      · rename_i l2 hl2
        exact balance_size_ok (ihl ht.1.1 hl2) ht.1.2 h
    · split at h
      · split at h
        · exact absurd h (by simp)
        · rename_i r2 hr2
          exact balance_size_ok ht.1.1 (ihr ht.1.2 hr2) h
      · exact balance_size_ok ht.1.1 ht.1.2 h

theorem delete_go_size_ok : ∀ {fuel : Nat} {t u : Tree} {key : Int},
    size_ok t = true → delete_go fuel t key = some u → size_ok u = true := by
  intro fuel
  induction fuel with
  | zero =>
    intro t u key ht h
    exact absurd h (by simp [delete_go])
  | succ n IH =>
    intro t u key ht h
    cases t with
    | nil => exact absurd h (by simp [delete_go, delete_body])
    | node hk hv hn hc hl hr =>
      rw [delete_go] at h
      by_cases hlt : key < hk
      · cases hl with
        | nil =>
          simp only [delete_body, if_pos hlt] at h
          exact absurd h (by simp)
        | node lk lv ln lc ll lr =>
          simp only [delete_body, if_pos hlt] at h
          split at h
          · exact absurd h (by simp)
          · exact absurd h (by simp)
          · rename_i k1 v1 n1 c1 l1 r1 heq
            split at h
            · exact absurd h (by simp)
            · rename_i l2 hl2
              have h1 : size_ok (node k1 v1 n1 c1 l1 r1) = true := by
                split at heq
                · exact move_red_left_size_ok ht heq
                · simp at heq; obtain ⟨rfl, rfl, rfl, rfl, rfl, rfl⟩ := heq
                  exact ht
              simp only [size_ok, Bool.and_eq_true, beq_iff_eq] at h1
              exact balance_size_ok (IH h1.1.1 hl2) h1.1.2 h
      · simp only [delete_body, if_neg hlt] at h
        split at h
        · exact absurd h (by simp)
        · exact absurd h (by simp)
        · rename_i k1 v1 n1 c1 l1 r1 heq1
          have h1 : size_ok (node k1 v1 n1 c1 l1 r1) = true := by
            split at heq1
            · exact rotate_right_size_ok ht heq1
            · simp at heq1; obtain ⟨rfl, rfl, rfl, rfl, rfl, rfl⟩ := heq1
              exact ht
          split at h
          · simp at h
            subst h
            rfl
          · rename_i hne1
            cases r1 with
            | nil => exact absurd h (by simp)
            | node rk rv rn rc rl rr =>
              dsimp only [] at h
              split at h
              · exact absurd h (by simp)
              · exact absurd h (by simp)
              · rename_i k2 v2 n2 c2 l2 r2 heq2
                have h2 : size_ok (node k2 v2 n2 c2 l2 r2) = true := by
                  split at heq2
                  · exact move_red_right_size_ok h1 heq2
                  · simp at heq2; obtain ⟨rfl, rfl, rfl, rfl, rfl, rfl⟩ := heq2
                    exact h1
                simp only [size_ok, Bool.and_eq_true, beq_iff_eq] at h2
                split at h
                · split at h
                  · exact absurd h (by simp)
                  · rename_i mk mv mn mc ml mr heqm
                    split at h
                    · exact absurd h (by simp)
                    · rename_i r3 heq3
                      exact balance_size_ok h2.1.1
                        (delete_min_size_ok
                          (size_ok_swap_min_kv h2.1.2 k2 v2) heq3) h
                · split at h
                  · exact absurd h (by simp)
                  · rename_i r3 heq3
                    exact balance_size_ok h2.1.1 (IH h2.1.2 heq3) h

theorem delete_size_ok {t u : Tree} {key : Int} (ht : size_ok t = true)
    (h : delete t key = some u) : size_ok u = true :=
  delete_go_size_ok ht h

/-! ### The stack-based in-order traversal agrees with the recursive one -/

theorem in_order_go_spec : ∀ (t : Tree) (stack : List (Int × Int × Tree))
    (res : List (Int × Int)),
    in_order_go t stack res
      = res ++ in_pairs t
          ++ (stack.map (fun s => (s.1, s.2.1) :: in_pairs s.2.2)).flatten := by
  intro t stack res
  induction t, stack, res using in_order_go.induct with
  | case1 k v n c l r stack res ih =>
    rw [in_order_go, ih]
    simp
  | case2 res => simp [in_order_go]
  | case3 k v cr stack res ih =>
    rw [in_order_go, ih]
    simp

theorem in_order_eq_in_pairs (t : Facade) : t.in_order = in_pairs t.root := by
  rw [Facade.in_order, in_order_go_spec]
  simp

/-! ### Order statistics: select and rank -/

theorem select_entry : ∀ {t : Tree} {k : Nat}, size_ok t = true →
    k < real_size t →
    ∃ key2 v2 n2 c2 l2 r2, select t k = node key2 v2 n2 c2 l2 r2
      ∧ (in_pairs t)[k]? = some (key2, v2) := by
  intro t
  induction t with
  | nil => intro k ht hk; simp [real_size] at hk
  | node key v n c l r ihl ihr =>
    intro k ht hk
    simp only [size_ok, Bool.and_eq_true, beq_iff_eq] at ht
    obtain ⟨⟨hol, hor⟩, hon⟩ := ht
    have hsl : size l = (in_pairs l).length := by
      rw [size_eq_real_of_size_ok hol, length_in_pairs]
    rw [select]
    by_cases hne : size l ≠ k
    · rw [if_pos hne]
      by_cases hklt : k < size l
      · rw [if_pos hklt]
        obtain ⟨key2, v2, n2, c2, l2, r2, hsel, hget⟩ :=
          ihl hol (show k < real_size l by
            rw [← size_eq_real_of_size_ok hol]; omega)
        refine ⟨key2, v2, n2, c2, l2, r2, hsel, ?_⟩
        rw [in_pairs_node,
          List.getElem?_append_left (show k < (in_pairs l).length by omega)]
        exact hget
      · rw [if_neg hklt]
        have hkr : k - size l - 1 < real_size r := by
          have h1 : size l = real_size l := size_eq_real_of_size_ok hol
          simp [real_size] at hk
          omega
        obtain ⟨key2, v2, n2, c2, l2, r2, hsel, hget⟩ := ihr hor hkr
        refine ⟨key2, v2, n2, c2, l2, r2, hsel, ?_⟩
        rw [in_pairs_node, List.getElem?_append_right (by omega)]
        rw [← hsl]
        have : k - size l = (k - size l - 1) + 1 := by omega
        rw [this]
        simpa using hget
    · rw [if_neg hne]
      push_neg at hne
      refine ⟨key, v, n, c, l, r, rfl, ?_⟩
      rw [in_pairs_node, List.getElem?_append_right (by omega), ← hne, hsl]
      simp

theorem rank_filter : ∀ {t : Tree}, size_ok t = true → sorted t →
    ∀ (key : Int),
    rank t key = ((in_keys t).filter (fun x => decide (x < key))).length := by
  intro t
  induction t with
  | nil => intro ht hs key; rfl
  | node k v n c l r ihl ihr =>
    intro ht hs key
    simp only [size_ok, Bool.and_eq_true, beq_iff_eq] at ht
    obtain ⟨⟨hol, hor⟩, hon⟩ := ht
    rw [sorted_node_iff] at hs
    obtain ⟨hsl, hsr, hlk, hkr⟩ := hs
    rw [rank, in_keys_node, List.filter_append]
    by_cases h1 : key < k
    · rw [if_pos h1]
      have hB : List.filter (fun x => decide (x < key)) (k :: in_keys r) = [] := by
        rw [List.filter_eq_nil_iff]
        intro a ha
        rcases List.mem_cons.mp ha with rfl | ha
        · simp; omega
        · have := hkr a ha
          simp; omega
      rw [hB, ihl hol hsl key]
      simp
    · rw [if_neg h1]
      have hA : List.filter (fun x => decide (x < key)) (in_keys l) = in_keys l := by
        rw [List.filter_eq_self]
        intro a ha
        have := hlk a ha
        simp; omega
      by_cases h2 : key > k
      · rw [if_pos h2, hA]
        have hsz : size l = (in_keys l).length := by
          rw [size_eq_real_of_size_ok hol, ← length_in_pairs,
            in_keys_eq_keys_of, length_keys_of]
        rw [List.filter_cons_of_pos (by simp; omega), ihr hor hsr key, hsz]
        simp
        omega
      · have hkey : key = k := by omega
        subst hkey
        rw [if_neg h2, hA]
        have hB : List.filter (fun x => decide (x < key)) (key :: in_keys r) = [] := by
          rw [List.filter_eq_nil_iff]
          intro a ha
          rcases List.mem_cons.mp ha with rfl | ha
          · simp
          · have := hkr a ha
            simp; omega
        rw [hB]
        simp
        rw [size_eq_real_of_size_ok hol, ← length_in_pairs,
          in_keys_eq_keys_of, length_keys_of]

theorem filter_lt_length_of_sorted : ∀ {L : List Int}, L.Pairwise (· < ·) →
    ∀ {i : Nat} {x : Int}, L[i]? = some x →
    (L.filter (fun y => decide (y < x))).length = i := by
  intro L
  induction L with
  | nil => intro hp i x hx; simp at hx
  | cons a rest ih =>
    intro hp i x hx
    rw [List.pairwise_cons] at hp
    cases i with
    | zero =>
      simp at hx
      subst hx
      have : List.filter (fun y => decide (y < a)) (a :: rest) = [] := by
        rw [List.filter_eq_nil_iff]
        intro b hb
        rcases List.mem_cons.mp hb with rfl | hb
        · simp
        · have := hp.1 b hb
          simp; omega
      rw [this]
      rfl
    | succ i =>
      simp at hx
      have hax : a < x := by
        have hmem : x ∈ rest := by
          rcases List.getElem?_eq_some_iff.mp hx with ⟨hlt, hget⟩
          exact hget ▸ List.getElem_mem hlt
        exact hp.1 x hmem
      rw [List.filter_cons_of_pos (by simp; omega)]
      simp [ih hp.2 hx]

/-! ### Floor and ceiling against the search path -/

theorem root_entry_eq_none {t : Tree} : root_entry t = none ↔ t = nil := by
  cases t <;> simp [root_entry]

theorem floor_search (t : Tree) (key : Int) :
    root_entry (floor t key)
      = ((search_nodes t key).filter (fun p => decide (p.1 < key))).getLast? := by
  induction t with
  | nil => rfl
  | node k v n c l r ihl ihr =>
    rw [floor, search_nodes]
    by_cases h1 : key < k
    · rw [if_pos h1, if_pos h1, List.filter_cons_of_neg (by simp; omega)]
      exact ihl
    · rw [if_neg h1, if_neg h1]
      by_cases h2 : key > k
      · rw [if_pos h2, if_pos h2, List.filter_cons_of_pos (by simp; omega)]
        have h3 := ihr
        cases hfr : floor r key with
        | nil =>
          rw [hfr] at h3
          dsimp only []
          have hemp : List.filter (fun p => decide (p.1 < key))
              (search_nodes r key) = [] := by
            apply List.getLast?_eq_none_iff.mp
            rw [← h3]
            rfl
          rw [hemp]
          rfl
        | node fk fv fn fc fl fr =>
          rw [hfr] at h3
          dsimp only []
          cases hh : List.filter (fun p => decide (p.1 < key))
              (search_nodes r key) with
          | nil =>
            rw [hh] at h3
            simp [root_entry] at h3
          | cons q qs =>
            rw [List.getLast?_cons_cons, ← hh]
            exact h3
      · have hkey : key = k := by omega
        rw [if_neg h2, if_neg h2]
        have hemp : List.filter (fun p => decide (p.1 < key)) [(k, v)] = [] := by
          simp
          omega
        rw [hemp]
        rfl

theorem ceiling_search (t : Tree) (key : Int) :
    root_entry (ceiling t key)
      = ((search_nodes t key).filter (fun p => decide (key < p.1))).getLast? := by
  induction t with
  | nil => rfl
  | node k v n c l r ihl ihr =>
    rw [ceiling, search_nodes]
    by_cases h1 : key < k
    · rw [if_pos h1, if_pos h1, List.filter_cons_of_pos (by simp; omega)]
      have h3 := ihl
      cases hfl : ceiling l key with
      | nil =>
        rw [hfl] at h3
        dsimp only []
        have hemp : List.filter (fun p => decide (key < p.1))
            (search_nodes l key) = [] := by
          apply List.getLast?_eq_none_iff.mp
          rw [← h3]
          rfl
        rw [hemp]
        rfl
      | node fk fv fn fc fl2 fr2 =>
        rw [hfl] at h3
        dsimp only []
        cases hh : List.filter (fun p => decide (key < p.1))
            (search_nodes l key) with
        | nil =>
          rw [hh] at h3
          simp [root_entry] at h3
        | cons q qs =>
          rw [List.getLast?_cons_cons, ← hh]
          exact h3
    · rw [if_neg h1, if_neg h1]
      by_cases h2 : key > k
      · rw [if_pos h2, if_pos h2, List.filter_cons_of_neg (by simp; omega)]
        exact ihr
      · have hkey : key = k := by omega
        rw [if_neg h2, if_neg h2]
        have hemp : List.filter (fun p => decide (key < p.1)) [(k, v)] = [] := by
          simp
          omega
        rw [hemp]
        rfl

/-! ### Facade helpers -/

theorem sorted_recolor_red (k v : Int) (n : Nat) (c : Color) (l r : Tree) :
    sorted (node k v n .red l r) ↔ sorted (node k v n c l r) :=
  sorted_congr rfl

theorem size_ok_recolor (k v : Int) (n : Nat) (c c2 : Color) (l r : Tree) :
    size_ok (node k v n c2 l r) = size_ok (node k v n c l r) := by
  simp [size_ok]

theorem in_pairs_recolor (k v : Int) (n : Nat) (c c2 : Color) (l r : Tree) :
    in_pairs (node k v n c2 l r) = in_pairs (node k v n c l r) := rfl

theorem recolor_root_black (root2 : Tree)
    (h : 0 < size (if size root2 > 0 then set_color root2 .black else root2)) :
    root_black ⟨if size root2 > 0 then set_color root2 .black else root2⟩ = true := by
  by_cases hs : size root2 > 0
  · rw [if_pos hs] at h ⊢
    cases root2 with
    | nil => simp [size] at hs
    | node k v n c l r => rfl
  · rw [if_neg hs] at h
    exact absurd h hs

/-! ### The claims -/

/-- C1: the spec demands that delete on an absent key be a safe no-op that
returns normally, even on the empty tree.  The code panics instead: the
facade dereferences root.left() through Option::unwrap on the empty tree,
and on a one-node tree an absent key drives the recursion into
left().left() or right().left() on an absent link.  The three conjuncts
evaluate the code at these failing inputs; none records the panic. -/
theorem C1_delete_absent_panics :
    Facade.new.delete 0 = none
      ∧ (Facade.mk (node 1 10 1 .red nil nil)).delete 2 = none
      ∧ (Facade.mk (node 1 10 1 .red nil nil)).delete 0 = none :=
  ⟨rfl, rfl, rfl⟩

/-- C2: the spec demands that delete_min and delete_max not fail on the
empty tree; the facade instead calls root.left() (Option::unwrap on None)
before recursing, and panics.  none records the panic. -/
theorem C2_delete_min_max_empty_panics :
    Facade.new.delete_min = none ∧ Facade.new.delete_max = none :=
  ⟨rfl, rfl⟩

/-- C3 counterexample: the facade put performs no root recoloring, so
putting into the empty tree leaves the fresh RED leaf as the root: the tree
is non-empty and its root is not BLACK, refuting the claim for put. -/
theorem C3_put_root_red_counterexample :
    Facade.new.put 0 0 = some (Facade.mk (node 0 0 1 .red nil nil))
      ∧ 0 < (Facade.mk (node 0 0 1 .red nil nil)).size
      ∧ root_black (Facade.mk (node 0 0 1 .red nil nil)) = false :=
  ⟨rfl, by decide, rfl⟩

/-- C3 amended: delete, delete_min and delete_max do force a non-empty root
BLACK on return (the facade recolors whenever the resulting size is
positive); put performs no such recoloring and can leave a RED root. -/
theorem C3_delete_family_root_black (t t2 : Facade) (key : Int)
    (h : t.delete key = some t2 ∨ t.delete_min = some t2 ∨ t.delete_max = some t2)
    (hpos : 0 < t2.size) : root_black t2 = true := by
  rcases h with h | h | h
  · rw [Facade.delete] at h
    split at h
    · exact absurd h (by simp)
    · split at h
      · exact absurd h (by simp)
      · rename_i root2 heq
        simp at h
        subst h
        exact recolor_root_black root2 hpos
  · rw [Facade.delete_min] at h
    split at h
    · exact absurd h (by simp)
    · split at h
      · exact absurd h (by simp)
      · rename_i root2 heq
        simp at h
        subst h
        exact recolor_root_black root2 hpos
  · rw [Facade.delete_max] at h
    split at h
    · exact absurd h (by simp)
    · split at h
      · exact absurd h (by simp)
      · rename_i root2 heq
        simp at h
        subst h
        exact recolor_root_black root2 hpos

/-- C3 witness: deleting key 1 from the two-node tree 2(black) with left
child 1(red) returns the one-node tree 2(black); the amended theorem applied
at this input confirms the BLACK root. -/
theorem C3_root_black_witness :
    (Facade.mk (node 2 20 2 .black (node 1 10 1 .red nil nil) nil)).delete 1
        = some (Facade.mk (node 2 20 1 .black nil nil))
      ∧ root_black (Facade.mk (node 2 20 1 .black nil nil)) = true :=
  ⟨rfl, C3_delete_family_root_black
    (Facade.mk (node 2 20 2 .black (node 1 10 1 .red nil nil) nil))
    (Facade.mk (node 2 20 1 .black nil nil)) 1 (Or.inl rfl) (by decide)⟩

/-- C4 counterexample: on the one-node tree holding key 1, the key is
present (get returns its value) yet floor(1) and ceiling(1) are both absent,
because the source's Equal arm returns None rather than the current node. -/
theorem C4_floor_equal_counterexample :
    (Facade.mk (node 1 10 1 .red nil nil)).get 1 = some 10
      ∧ (Facade.mk (node 1 10 1 .red nil nil)).floor 1 = nil
      ∧ (Facade.mk (node 1 10 1 .red nil nil)).ceiling 1 = nil :=
  ⟨rfl, rfl, rfl⟩

/-- C4 amended: floor(key) returns the deepest node on the comparison
search path whose key is strictly below the queried key (absent when there
is none), and ceiling mirrors it with strictly above; on an equal comparison
the current node itself is never returned.  Stated for every tree and every
key through the search-path characterization. -/
theorem C4_floor_ceiling_search_path (t : Facade) (key : Int) :
    root_entry (t.floor key)
        = ((search_nodes t.root key).filter (fun p => decide (p.1 < key))).getLast?
      ∧ root_entry (t.ceiling key)
        = ((search_nodes t.root key).filter (fun p => decide (key < p.1))).getLast? :=
  ⟨floor_search t.root key, ceiling_search t.root key⟩

/-- C6: on a tree satisfying the BST invariant, put(k, v) followed by
get(k) returns v, and a delete(k) that returns normally followed by get(k)
returns absent.  The some-hypotheses record that the call completed without
panicking (absent-key deletes panic; that defect is C1). -/
theorem C6_put_get_delete_get (t : Facade) (key val : Int)
    (hs : sorted t.root) :
    (∀ t2, t.put key val = some t2 → t2.get key = some val)
      ∧ (∀ t2, t.delete key = some t2 → t2.get key = none) := by
  constructor
  · intro t2 h
    rw [Facade.put] at h
    split at h
    · exact absurd h (by simp)
    · rename_i r hr
      simp at h
      subst h
      rw [Facade.get, get_eq_lookup (sorted_put hs hr), put_in_pairs hs hr]
      exact lookup_insert_self key val _
  · intro t2 h
    rw [Facade.delete] at h
    split at h
    · exact absurd h (by simp)
    · rename_i k v n c l r hroot
      split at h
      · exact absurd h (by simp)
      · rename_i root2 heq
        simp at h
        subst h
        have hs1 : sorted (if !(is_red l) && !(is_red r)
            then node k v n .red l r else node k v n c l r) := by
          rw [hroot] at hs
          split
          · exact (sorted_recolor_red k v n c l r).mpr hs
          · exact hs
        have hnot := (delete_props hs1 heq).2
        rw [Facade.get]
        apply get_absent
        intro hmem
        apply hnot
        have hkeq : in_keys (if size root2 > 0
            then set_color root2 .black else root2) = in_keys root2 := by
          split
          · rw [in_keys_eq_keys_of, in_pairs_set_color, ← in_keys_eq_keys_of]
          · rfl
        rw [show (Facade.mk (if size root2 > 0
            then set_color root2 .black else root2)).root
          = (if size root2 > 0 then set_color root2 .black else root2) from rfl,
          hkeq] at hmem
        exact hmem

/-- C6 witness: on the one-node sorted tree holding key 1, put(2, 7) then
get(2) yields 7, and delete(1) then get(1) yields absent. -/
theorem C6_put_get_delete_get_witness :
    (Facade.mk (node 1 10 1 .red nil nil)).put 2 7
        = some (Facade.mk (node 2 7 2 .red (node 1 10 1 .red nil nil) nil))
      ∧ (Facade.mk (node 2 7 2 .red (node 1 10 1 .red nil nil) nil)).get 2 = some 7
      ∧ (Facade.mk (node 1 10 1 .red nil nil)).delete 1 = some (Facade.mk nil)
      ∧ (Facade.mk nil).get 1 = none :=
  ⟨rfl,
   (C6_put_get_delete_get (Facade.mk (node 1 10 1 .red nil nil)) 2 7
      (by simp [sorted, in_keys, in_pairs])).1
     (Facade.mk (node 2 7 2 .red (node 1 10 1 .red nil nil) nil)) rfl,
   rfl,
   (C6_put_get_delete_get (Facade.mk (node 1 10 1 .red nil nil)) 1 0
      (by simp [sorted, in_keys, in_pairs])).2
     (Facade.mk nil) rfl⟩

theorem sorted_apply_puts : ∀ (ops : List (Int × Int)) (t t2 : Facade),
    sorted t.root →
    apply_ops t (ops.map (fun p => Op.put p.1 p.2)) = some t2 →
    sorted t2.root := by
  intro ops
  induction ops with
  | nil =>
    intro t t2 hs h
    simp [apply_ops] at h
    rw [← h]
    exact hs
  | cons p rest ih =>
    intro t t2 hs h
    simp only [List.map_cons] at h
    rw [apply_ops] at h
    split at h
    · exact absurd h (by simp)
    · rename_i t3 heq
      simp only [apply_op, Facade.put] at heq
      apply ih t3 t2 _ h
      split at heq
      · exact absurd heq (by simp)
      · rename_i r hr
        simp at heq
        rw [← heq]
        exact sorted_put hs hr

/-- C7: every sequence of put calls starting from the empty facade yields a
tree whose in_order entries carry strictly ascending keys. -/
theorem C7_put_sequence_ascending (ops : List (Int × Int)) (t : Facade)
    (h : apply_ops Facade.new (ops.map (fun p => Op.put p.1 p.2)) = some t) :
    List.Chain' (· < ·) (t.in_order.map Prod.fst) := by
  have hs := sorted_apply_puts ops Facade.new t
    (by simp [Facade.new, sorted, in_keys, in_pairs]) h
  rw [in_order_eq_in_pairs]
  exact hs

/-- C7 witness: putting 1 then 0 into the empty facade yields the two-node
tree whose in_order keys 0, 1 are strictly ascending. -/
theorem C7_put_sequence_ascending_witness :
    apply_ops Facade.new ([(1, 2), (0, 5)].map (fun p => Op.put p.1 p.2))
        = some (Facade.mk (node 1 2 2 .red (node 0 5 1 .red nil nil) nil))
      ∧ List.Chain' (· < ·)
          ((Facade.mk (node 1 2 2 .red (node 0 5 1 .red nil nil) nil)).in_order.map
            Prod.fst) :=
  ⟨rfl, C7_put_sequence_ascending [(1, 2), (0, 5)]
    (Facade.mk (node 1 2 2 .red (node 0 5 1 .red nil nil) nil)) rfl⟩

theorem size_ok_apply_ops : ∀ (ops : List Op) (t t2 : Facade),
    size_ok t.root = true → apply_ops t ops = some t2 →
    size_ok t2.root = true := by
  intro ops
  induction ops with
  | nil =>
    intro t t2 hs h
    simp [apply_ops] at h
    rw [← h]
    exact hs
  | cons op rest ih =>
    intro t t2 hs h
    rw [apply_ops] at h
    split at h
    · exact absurd h (by simp)
    · rename_i t3 heq
      apply ih t3 t2 _ h
      cases op with
      | put a b =>
        simp only [apply_op, Facade.put] at heq
        split at heq
        · exact absurd heq (by simp)
        · rename_i r hr
          simp at heq
          rw [← heq]
          exact put_size_ok hs hr
      | delete a =>
        simp only [apply_op, Facade.delete] at heq
        split at heq
        · exact absurd heq (by simp)
        · rename_i k v n c l r hroot
          split at heq
          · exact absurd heq (by simp)
          · rename_i root2 hdel
            simp at heq
            rw [← heq]
            have h1 : size_ok (if !(is_red l) && !(is_red r)
                then node k v n .red l r else node k v n c l r) = true := by
              rw [hroot] at hs
              split
              · rw [size_ok_recolor k v n c .red l r]
                exact hs
              · exact hs
            have h2 := delete_size_ok h1 hdel
            split
            · rw [size_ok_set_color]
              exact h2
            · exact h2
      | delete_min =>
        simp only [apply_op, Facade.delete_min] at heq
        split at heq
        · exact absurd heq (by simp)
        · rename_i k v n c l r hroot
          split at heq
          · exact absurd heq (by simp)
          · rename_i root2 hdel
            simp at heq
            rw [← heq]
            have h1 : size_ok (if !(is_red l) && !(is_red r)
                then node k v n .red l r else node k v n c l r) = true := by
              rw [hroot] at hs
              split
              · rw [size_ok_recolor k v n c .red l r]
                exact hs
              · exact hs
            have h2 := delete_min_size_ok h1 hdel
            split
            · rw [size_ok_set_color]
              exact h2
            · exact h2
      | delete_max =>
        simp only [apply_op, Facade.delete_max] at heq
        split at heq
        · exact absurd heq (by simp)
        · rename_i k v n c l r hroot
          split at heq
          · exact absurd heq (by simp)
          · rename_i root2 hdel
            simp at heq
            rw [← heq]
            have h1 : size_ok (if !(is_red l) && !(is_red r)
                then node k v n .red l r else node k v n c l r) = true := by
              rw [hroot] at hs
              split
              · rw [size_ok_recolor k v n c .red l r]
                exact hs
              · exact hs
            have h2 := delete_max_size_ok h1 hdel
            split
            · rw [size_ok_set_color]
              exact h2
            · exact h2

/-- C8: after any sequence of facade mutations that returns normally,
size() equals the length of in_order(), size() is the root's stored n by
definition, and every node satisfies n = size(left) + size(right) + 1. -/
theorem C8_size_consistency (ops : List Op) (t : Facade)
    (h : apply_ops Facade.new ops = some t) :
    t.size = t.in_order.length ∧ t.size = size t.root
      ∧ size_ok t.root = true := by
  have hok := size_ok_apply_ops ops Facade.new t rfl h
  refine ⟨?_, rfl, hok⟩
  rw [in_order_eq_in_pairs, Facade.size, size_eq_real_of_size_ok hok,
    length_in_pairs]

/-- C8 witness: the sequence put(1, 10), put(2, 20), delete(1) returns
the one-node tree for key 2, whose size, in_order length and stored n all
agree. -/
theorem C8_size_consistency_witness :
    apply_ops Facade.new [Op.put 1 10, Op.put 2 20, Op.delete 1]
        = some (Facade.mk (node 2 20 1 .black nil nil))
      ∧ (Facade.mk (node 2 20 1 .black nil nil)).size
          = (Facade.mk (node 2 20 1 .black nil nil)).in_order.length
      ∧ size_ok (Facade.mk (node 2 20 1 .black nil nil)).root = true :=
  ⟨rfl,
   (C8_size_consistency [Op.put 1 10, Op.put 2 20, Op.delete 1]
     (Facade.mk (node 2 20 1 .black nil nil)) rfl).1,
   (C8_size_consistency [Op.put 1 10, Op.put 2 20, Op.delete 1]
     (Facade.mk (node 2 20 1 .black nil nil)) rfl).2.2⟩

/-- C9: on a tree with the BST and size invariants, select(k) for k below
size() returns a node, and rank applied to that node's key gives back k. -/
theorem C9_select_rank (t : Facade) (k : Nat) (hs : sorted t.root)
    (hok : size_ok t.root = true) (hk : k < t.size) :
    ∃ key2 v2 n2 c2 l2 r2, t.select k = node key2 v2 n2 c2 l2 r2
      ∧ t.rank key2 = k := by
  have hk2 : k < real_size t.root := by
    rw [← size_eq_real_of_size_ok hok]
    exact hk
  obtain ⟨key2, v2, n2, c2, l2, r2, hsel, hget⟩ := select_entry hok hk2
  refine ⟨key2, v2, n2, c2, l2, r2, hsel, ?_⟩
  rw [Facade.rank, rank_filter hok hs key2]
  apply filter_lt_length_of_sorted ((sorted_iff_pairwise t.root).mp hs)
  rw [in_keys, List.getElem?_map, hget]
  rfl

/-- C9 witness: on the sorted two-node tree with keys 0 and 1, rank of the
key selected at index 1 is 1. -/
theorem C9_select_rank_witness :
    ∃ key2 v2 n2 c2 l2 r2,
      (Facade.mk (node 1 2 2 .red (node 0 5 1 .red nil nil) nil)).select 1
          = node key2 v2 n2 c2 l2 r2
        ∧ (Facade.mk (node 1 2 2 .red (node 0 5 1 .red nil nil) nil)).rank key2
          = 1 :=
  C9_select_rank (Facade.mk (node 1 2 2 .red (node 0 5 1 .red nil nil) nil)) 1
    (by simp [sorted, in_keys, in_pairs]) (by decide) (by decide)

/-- C10: put on a key already present only overwrites that key's value:
size() is unchanged, get on every other key is unchanged, and the in_order
key sequence is unchanged. -/
theorem C10_put_existing_key (t : Facade) (key val : Int) (t2 : Facade)
    (hs : sorted t.root) (hok : size_ok t.root = true)
    (hmem : key ∈ in_keys t.root) (h : t.put key val = some t2) :
    t2.size = t.size
      ∧ (∀ k2, k2 ≠ key → t2.get k2 = t.get k2)
      ∧ t2.in_order.map Prod.fst = t.in_order.map Prod.fst := by
  rw [Facade.put] at h
  split at h
  · exact absurd h (by simp)
  · rename_i r hr
    simp at h
    subst h
    have hpairs : in_pairs r = insert_pair key val (in_pairs t.root) :=
      put_in_pairs hs hr
    have hkeys : in_keys r = in_keys t.root := by
      rw [in_keys_eq_keys_of, hpairs, keys_of_insert_pair, ← in_keys_eq_keys_of,
        insert_key_mem ((sorted_iff_pairwise _).mp hs) hmem]
    refine ⟨?_, ?_, ?_⟩
    · have h1 := put_size_ok hok hr
      rw [Facade.size, Facade.size]
      rw [show (Facade.mk r).root = r from rfl, size_eq_real_of_size_ok h1,
        size_eq_real_of_size_ok hok, ← length_in_pairs, ← length_in_pairs,
        ← length_keys_of, ← length_keys_of, ← in_keys_eq_keys_of,
        ← in_keys_eq_keys_of, hkeys]
    · intro k2 hk2
      rw [Facade.get, Facade.get,
        show (Facade.mk r).root = r from rfl,
        get_eq_lookup (sorted_put hs hr), get_eq_lookup hs, hpairs,
        lookup_insert_other hk2]
    · rw [in_order_eq_in_pairs, in_order_eq_in_pairs]
      show in_keys (Facade.mk r).root = in_keys t.root
      exact hkeys

/-- C10 witness: overwriting the value at the present key 1 in the sorted
two-node tree keeps the size, the other key's value, and the key sequence. -/
theorem C10_put_existing_key_witness :
    (Facade.mk (node 2 20 2 .black (node 1 10 1 .red nil nil) nil)).put 1 99
        = some (Facade.mk (node 2 20 2 .black (node 1 99 1 .red nil nil) nil))
      ∧ (Facade.mk (node 2 20 2 .black (node 1 99 1 .red nil nil) nil)).size
          = (Facade.mk (node 2 20 2 .black (node 1 10 1 .red nil nil) nil)).size :=
  ⟨rfl,
   (C10_put_existing_key
     (Facade.mk (node 2 20 2 .black (node 1 10 1 .red nil nil) nil)) 1 99
     (Facade.mk (node 2 20 2 .black (node 1 99 1 .red nil nil) nil))
     (by simp [sorted, in_keys, in_pairs]) (by decide) (by decide) rfl).1⟩

/-! ### The color-invariant development: balance, put and the delete family
preserve black balance and the left-leaning shape -/

set_option maxHeartbeats 4000000

@[simp] theorem is_red_node (k v : Int) (n : Nat) (c : Color) (l r : Tree) :
    is_red (node k v n c l r) = (c == Color.red) := by
  cases c <;> rfl

@[simp] theorem is_red_nil : is_red nil = false := rfl

@[simp] theorem no_red_red_nil : no_red_red nil = true := rfl

@[simp] theorem no_red_red_node (k v : Int) (n : Nat) (c : Color) (l r : Tree) :
    no_red_red (node k v n c l r)
      = ((c == Color.black || (!(is_red l) && !(is_red r)))
          && no_red_red l && no_red_red r) := rfl

@[simp] theorem no_red_red_below_nil : no_red_red_below nil = true := rfl

@[simp] theorem no_red_red_below_node (k v : Int) (n : Nat) (c : Color) (l r : Tree) :
    no_red_red_below (node k v n c l r) = (no_red_red l && no_red_red r) := rfl

@[simp] theorem no_red_right_nil : no_red_right nil = true := rfl

@[simp] theorem no_red_right_node (k v : Int) (n : Nat) (c : Color) (l r : Tree) :
    no_red_right (node k v n c l r)
      = (!(is_red r) && no_red_right l && no_red_right r) := rfl

@[simp] theorem nrr_children_nil : nrr_children nil = true := rfl

@[simp] theorem nrr_children_node (k v : Int) (n : Nat) (c : Color) (l r : Tree) :
    nrr_children (node k v n c l r) = (no_red_right l && no_red_right r) := rfl

@[simp] theorem left_of_nil : left_of nil = nil := rfl

@[simp] theorem left_of_node (k v : Int) (n : Nat) (c : Color) (l r : Tree) :
    left_of (node k v n c l r) = l := rfl

@[simp] theorem right_of_nil : right_of nil = nil := rfl

@[simp] theorem right_of_node (k v : Int) (n : Nat) (c : Color) (l r : Tree) :
    right_of (node k v n c l r) = r := rfl

@[simp] theorem bh_nil : bh nil = some 0 := rfl

theorem no_red_red_of_below {t : Tree} (h : no_red_red t = true) :
    no_red_red_below t = true := by
  cases t with
  | nil => rfl
  | node k v n c l r =>
    simp only [no_red_red_node, Bool.and_eq_true] at h
    simp only [no_red_red_below_node, Bool.and_eq_true]
    exact ⟨h.1.2, h.2⟩

theorem left_lean_of_no_red_right : ∀ {t : Tree}, no_red_right t = true →
    left_lean_ok t = true := by
  intro t
  induction t with
  | nil => intro h; rfl
  | node k v n c l r ihl ihr =>
    intro h
    simp only [no_red_right_node, Bool.and_eq_true] at h
    obtain ⟨⟨h1, h2⟩, h3⟩ := h
    simp [left_lean_ok, h1, ihl h2, ihr h3]

theorem bh_node_some {k v : Int} {n : Nat} {c : Color} {l r : Tree} {m : Nat}
    (h : bh (node k v n c l r) = some m) :
    ∃ a, bh l = some a ∧ bh r = some a
      ∧ m = a + (if c == Color.black then 1 else 0) := by
  rw [bh] at h
  cases hl : bh l with
  | none => rw [hl] at h; simp at h
  | some a =>
    cases hr : bh r with
    | none => rw [hl, hr] at h; simp at h
    | some b =>
      rw [hl, hr] at h
      dsimp only [] at h
      split at h
      · rename_i hab
        subst hab
        injection h with h2
        exact ⟨a, rfl, rfl, h2.symm⟩
      · simp at h

theorem bh_node_intro {a : Nat} (k v : Int) (n : Nat) (c : Color) {l r : Tree}
    (hl : bh l = some a) (hr : bh r = some a) :
    bh (node k v n c l r) = some (a + (if c == Color.black then 1 else 0)) := by
  rw [bh, hl, hr]
  simp

theorem eq_nil_of_bh_zero : ∀ {t : Tree}, bh t = some 0 → is_red t = false →
    t = nil := by
  intro t hb hr
  cases t with
  | nil => rfl
  | node k v n c l r =>
    obtain ⟨a, hl, hr2, hm⟩ := bh_node_some hb
    cases c with
    | red => simp at hr
    | black => simp at hm

theorem red_node {t : Tree} (h : is_red t = true) :
    ∃ k v n l r, t = node k v n Color.red l r := by
  cases t with
  | nil => simp at h
  | node k v n c l r =>
    cases c with
    | red => exact ⟨k, v, n, l, r, rfl⟩
    | black => simp at h

theorem bh_set_black {t : Tree} {a : Nat} (h : bh t = some a) :
    bh (set_color t .black) = some (if is_red t then a + 1 else a) := by
  cases t with
  | nil =>
    rw [bh_nil] at h
    injection h with h2
    subst h2
    rfl
  | node k v n c l r =>
    obtain ⟨b, hl, hr, hm⟩ := bh_node_some h
    rw [set_color]
    rw [bh_node_intro k v n .black hl hr]
    cases c with
    | red => simp at hm; simp [hm]
    | black => simp at hm; simp [hm]

theorem bh_set_red {t : Tree} {a : Nat} (h : bh t = some (a + 1))
    (hr : is_red t = false) : bh (set_color t .red) = some a := by
  cases t with
  | nil => rw [bh_nil] at h; injection h with h2; omega
  | node k v n c l r =>
    cases c with
    | red => simp at hr
    | black =>
      obtain ⟨b, hl, hr2, hm⟩ := bh_node_some h
      simp at hm
      rw [set_color, bh_node_intro k v n .red hl hr2]
      simp
      omega

theorem no_red_right_set_color (t : Tree) (c : Color) :
    no_red_right (set_color t c) = no_red_right t := by
  cases t <;> rfl

theorem no_red_red_below_set_color (t : Tree) (c : Color) :
    no_red_red_below (set_color t c) = no_red_red_below t := by
  cases t <;> rfl

theorem no_red_red_set_black {t : Tree} (h : no_red_red_below t = true) :
    no_red_red (set_color t .black) = true := by
  cases t with
  | nil => rfl
  | node k v n c l r =>
    simp only [no_red_red_below_node, Bool.and_eq_true] at h
    simp [set_color, no_red_red_node, h.1, h.2]

theorem no_red_red_intro {t : Tree} (hb : no_red_red_below t = true)
    (hn : no_red_right t = true)
    (hl : is_red t = true → is_red (left_of t) = false) :
    no_red_red t = true := by
  cases t with
  | nil => rfl
  | node k v n c l r =>
    simp only [no_red_red_below_node, Bool.and_eq_true] at hb
    simp only [no_red_right_node, Bool.and_eq_true] at hn
    cases c with
    | black => simp [no_red_red_node, hb.1, hb.2]
    | red =>
      have h2 := hl (by simp)
      simp only [left_of_node] at h2
      simp [no_red_red_node, hb.1, hb.2, h2, hn.1.1]

theorem no_red_red_components {k v : Int} {n : Nat} {c : Color} {l r : Tree}
    (h : no_red_red (node k v n c l r) = true) :
    no_red_red l = true ∧ no_red_red r = true
      ∧ (c = Color.red → is_red l = false ∧ is_red r = false) := by
  simp only [no_red_red_node, Bool.and_eq_true, Bool.or_eq_true] at h
  refine ⟨h.1.2, h.2, ?_⟩
  rintro rfl
  rcases h.1.1 with h3 | h3
  · exact absurd h3 (by simp)
  · simp only [Bool.and_eq_true, Bool.not_eq_true'] at h3
    exact h3

theorem set_color_node (k v : Int) (n : Nat) (c c2 : Color) (l r : Tree) :
    set_color (node k v n c l r) c2 = node k v n c2 l r := rfl

theorem set_color_nil (c : Color) : set_color nil c = nil := rfl

theorem update_size_eq (k v : Int) (n : Nat) (c : Color) (l r : Tree) :
    update_size (node k v n c l r) = node k v (size l + size r + 1) c l r := rfl

theorem is_red_set_black (t : Tree) : is_red (set_color t .black) = false := by
  cases t <;> rfl

theorem balance_spec {k v : Int} {n m : Nat} {c : Color} {l r u : Tree}
    (hbl : bh l = some m) (hbr : bh r = some m)
    (hnl : no_red_right l = true) (hnr : no_red_right r = true)
    (hol : no_red_red_below l = true) (hor : no_red_red r = true)
    (hrl : is_red r = true → no_red_red l = true)
    (hc : c = Color.red → no_red_red l = true
        ∧ (is_red l = false ∨ is_red r = false))
    (h : balance (node k v n c l r) = some u) :
    bh u = some (m + (if c == Color.black then 1 else 0))
      ∧ no_red_right u = true ∧ no_red_red_below u = true
      ∧ (c = Color.black → no_red_red u = true)
      ∧ (c = Color.black → no_red_red l = true →
          is_red l = false ∨ is_red r = false → is_red u = false)
      ∧ (c = Color.red → is_red l = false → is_red r = false →
          no_red_red u = true) := by
  rw [balance] at h
  by_cases hir : is_red r = true
  · obtain ⟨rk, rv, rn, rl, rr, rfl⟩ := red_node hir
    obtain ⟨hcrl, hcrr, hred⟩ := no_red_red_components hor
    obtain ⟨hirl, hirr⟩ := hred rfl
    obtain ⟨a, hbrl, hbrr, hma⟩ := bh_node_some hbr
    simp only [show (Color.red == Color.black) = false from rfl, if_false,
      Nat.add_zero] at hma
    subst hma
    simp only [no_red_right_node, Bool.and_eq_true] at hnr
    obtain ⟨⟨hnr1, hnr2⟩, hnr3⟩ := hnr
    by_cases hil : is_red l = true
    · -- both children red: the color flip fires; c is forced black
      have hcb : c = Color.black := by
        cases c with
        | black => rfl
        | red =>
          rcases (hc rfl).2 with h2 | h2
          · rw [hil] at h2; exact absurd h2 (by simp)
          · exact absurd h2 (by simp)
      subst hcb
      have hnrl : no_red_red l = true := hrl rfl
      obtain ⟨lk, lv, ln, ll, lr, rfl⟩ := red_node hil
      obtain ⟨hcll, hclr, hllc⟩ := no_red_red_components hnrl
      obtain ⟨hill, hilr⟩ := hllc rfl
      obtain ⟨b, hbll, hblr, hmb⟩ := bh_node_some hbl
      simp only [show (Color.red == Color.black) = false from rfl, if_false,
        Nat.add_zero] at hmb
      subst hmb
      simp only [no_red_right_node, Bool.and_eq_true] at hnl
      obtain ⟨⟨hnl1, hnl2⟩, hnl3⟩ := hnl
      simp [hill, flip_colors, set_color_node, update_size] at h
      subst h
      have hsl : bh (node lk lv ln Color.black ll lr) = some (m + 1) := by
        rw [bh_node_intro _ _ _ _ hbll hblr]; simp
      have hsr : bh (node rk rv rn Color.black rl rr) = some (m + 1) := by
        rw [bh_node_intro _ _ _ _ hbrl hbrr]; simp
      refine ⟨?_, ?_, ?_, ?_, ?_, ?_⟩
      · rw [bh_node_intro _ _ _ _ hsl hsr]; simp
      · simp [no_red_right_node, hnl1, hnl2, hnl3, hnr1, hnr2, hnr3]
      · simp [no_red_red_below_node, no_red_red_node, hcll, hclr, hcrl, hcrr]
      · intro _
        simp [no_red_red_node, hcll, hclr, hcrl, hcrr]
      · intro _ _ h3
        rcases h3 with h3 | h3 <;> simp at h3
      · intro h2
        exact absurd h2 (by simp)
    · -- left not red, right red: single left rotation
      have hil2 : is_red l = false := Bool.eq_false_iff.mpr hil
      have hnrl : no_red_red l = true := hrl rfl
      simp [hil2, rotate_left, hirr, update_size] at h
      subst h
      have h1 : bh (node k v (size l + size rl + 1) Color.red l rl) = some m := by
        rw [bh_node_intro _ _ _ _ hbl hbrl]; simp
      refine ⟨?_, ?_, ?_, ?_, ?_, ?_⟩
      · exact bh_node_intro _ _ _ _ h1 hbrr
      · simp [no_red_right_node, hnr1, hnr2, hnr3, hirl, hnl]
      · simp [no_red_red_below_node, no_red_red_node, hil2, hirl, hnrl, hcrl, hcrr]
      · intro hcb
        subst hcb
        simp [no_red_red_node, hil2, hirl, hnrl, hcrl, hcrr]
      · intro hcb _ _
        subst hcb
        simp
      · intro _ _ h3
        exact absurd h3 (by simp)
  · -- right link not red: no left rotation, no flip
    have hir2 : is_red r = false := Bool.eq_false_iff.mpr hir
    cases l with
    | nil =>
      rw [bh_nil] at hbl
      injection hbl with hm0
      subst hm0
      simp [hir2, update_size] at h
      subst h
      refine ⟨?_, ?_, ?_, ?_, ?_, ?_⟩
      · exact bh_node_intro _ _ _ _ bh_nil hbr
      · simp [no_red_right_node, hir2, hnr]
      · simp [no_red_red_below_node, hor]
      · intro hcb
        subst hcb
        simp [no_red_red_node, hor]
      · intro hcb _ _
        subst hcb
        simp
      · intro hcr _ _
        subst hcr
        simp [no_red_red_node, hir2, hor]
    | node lk lv ln lc ll lr =>
      cases lc with
      | black =>
        have hnrl : no_red_red (node lk lv ln Color.black ll lr) = true :=
          no_red_red_intro hol hnl (by simp)
        simp [hir2, update_size] at h
        subst h
        refine ⟨?_, ?_, ?_, ?_, ?_, ?_⟩
        · exact bh_node_intro _ _ _ _ hbl hbr
        · simp [no_red_right_node, hir2, hnl, hnr]
        · simp [no_red_red_below_node, hnrl, hor]
        · intro hcb
          subst hcb
          simp [no_red_red_node, hnrl, hor]
        · intro hcb _ _
          subst hcb
          simp
        · intro hcr _ _
          subst hcr
          simp [no_red_red_node, hir2, hnrl, hor]
      | red =>
        by_cases hll : is_red ll = true
        · -- left and left-left red: right rotation then flip; c forced black
          have hcb : c = Color.black := by
            cases c with
            | black => rfl
            | red =>
              obtain ⟨_, _, hc3⟩ := no_red_red_components (hc rfl).1
              exact absurd (hc3 rfl).1 (by simp [hll])
          subst hcb
          obtain ⟨b, hbll, hblr, hmb⟩ := bh_node_some hbl
          simp only [show (Color.red == Color.black) = false from rfl, if_false,
            Nat.add_zero] at hmb
          subst hmb
          simp only [no_red_right_node, Bool.and_eq_true] at hnl
          obtain ⟨⟨hnl1, hnl2⟩, hnl3⟩ := hnl
          simp only [no_red_red_below_node, Bool.and_eq_true] at hol
          obtain ⟨hol1, hol2⟩ := hol
          simp [hir2, hll, rotate_right, flip_colors, set_color_node, update_size] at h
          subst h
          have hsll : bh (set_color ll .black) = some (m + 1) := by
            rw [bh_set_black hbll, hll]; simp
          have hsr : bh (node k v (size lr + size r + 1) Color.black lr r)
              = some (m + 1) := by
            rw [bh_node_intro _ _ _ _ hblr hbr]; simp
          refine ⟨?_, ?_, ?_, ?_, ?_, ?_⟩
          · rw [bh_node_intro _ _ _ _ hsll hsr]; simp
          · simp only [no_red_right_node, Bool.and_eq_true]
            refine ⟨⟨by simp, by rw [no_red_right_set_color]; exact hnl2⟩, ?_⟩
            simp [no_red_right_node, hir2, hnl3, hnr]
          · simp only [no_red_red_below_node, Bool.and_eq_true]
            refine ⟨no_red_red_set_black (no_red_red_of_below hol1), ?_⟩
            simp [no_red_red_node, hol2, hor]
          · intro _
            simp only [no_red_red_node, Bool.and_eq_true, Bool.or_eq_true]
            refine ⟨⟨Or.inr ⟨by simp [is_red_set_black], by simp⟩,
              no_red_red_set_black (no_red_red_of_below hol1)⟩, ?_⟩
            simp [no_red_red_node, hol2, hor]
          · intro _ h2 _
            obtain ⟨_, _, hc3⟩ := no_red_red_components h2
            exact absurd (hc3 rfl).1 (by simp [hll])
          · intro h2
            exact absurd h2 (by simp)
        · -- left red but left-left black: nothing to do
          have hll2 : is_red ll = false := Bool.eq_false_iff.mpr hll
          have hnrl : no_red_red (node lk lv ln Color.red ll lr) = true :=
            no_red_red_intro hol hnl (by simp [hll2])
          simp [hir2, hll2, update_size] at h
          subst h
          refine ⟨?_, ?_, ?_, ?_, ?_, ?_⟩
          · exact bh_node_intro _ _ _ _ hbl hbr
          · simp [no_red_right_node, hir2, hnl, hnr]
          · simp [no_red_red_below_node, hnrl, hor]
          · intro hcb
            subst hcb
            simp [no_red_red_node, hnrl, hor]
          · intro hcb _ _
            subst hcb
            simp
          · intro _ h2 _
            exact absurd h2 (by simp)

theorem balance_spec_red {k v : Int} {n m : Nat} {l r u : Tree}
    (hbl : bh l = some m) (hbr : bh r = some m)
    (hnl : no_red_right l = true) (hnr : no_red_right r = true)
    (hol : no_red_red_below l = true) (hor : no_red_red r = true)
    (hrl : is_red r = true → no_red_red l = true)
    (h : balance (node k v n Color.red l r) = some u) :
    (∃ m2, bh u = some m2) ∧ no_red_right u = true
      ∧ no_red_red_below u = true := by
  by_cases hil : is_red l = true
  · by_cases hir : is_red r = true
    · -- both children red at a red root: the flip fires
      have hnrl := hrl hir
      obtain ⟨lk, lv, ln, ll, lr, rfl⟩ := red_node hil
      obtain ⟨rk, rv, rn, rl, rr, rfl⟩ := red_node hir
      obtain ⟨hcll, hclr, hllc⟩ := no_red_red_components hnrl
      obtain ⟨hill, hilr⟩ := hllc rfl
      obtain ⟨hcrl, hcrr, hrrc⟩ := no_red_red_components hor
      obtain ⟨hirl, hirr⟩ := hrrc rfl
      obtain ⟨a, hbll, hblr, hma⟩ := bh_node_some hbl
      simp only [show (Color.red == Color.black) = false from rfl, if_false,
        Nat.add_zero] at hma
      subst hma
      obtain ⟨b, hbrl, hbrr, hmb⟩ := bh_node_some hbr
      simp only [show (Color.red == Color.black) = false from rfl, if_false,
        Nat.add_zero] at hmb
      subst hmb
      simp only [no_red_right_node, Bool.and_eq_true] at hnl hnr
      obtain ⟨⟨hnl1, hnl2⟩, hnl3⟩ := hnl
      obtain ⟨⟨hnr1, hnr2⟩, hnr3⟩ := hnr
      rw [balance] at h
      simp [hill, flip_colors, set_color_node, update_size] at h
      subst h
      refine ⟨⟨m + 1, ?_⟩, ?_, ?_⟩
      · have hsl : bh (node lk lv ln Color.black ll lr) = some (m + 1) := by
          rw [bh_node_intro _ _ _ _ hbll hblr]; simp
        have hsr : bh (node rk rv rn Color.black rl rr) = some (m + 1) := by
          rw [bh_node_intro _ _ _ _ hbrl hbrr]; simp
        rw [bh_node_intro _ _ _ _ hsl hsr]; simp
      · simp [no_red_right_node, hnl1, hnl2, hnl3, hnr1, hnr2, hnr3]
      · simp [no_red_red_below_node, no_red_red_node, hcll, hclr, hcrl, hcrr]
    · -- left red, right not red
      have hir2 : is_red r = false := Bool.eq_false_iff.mpr hir
      obtain ⟨lk, lv, ln, ll, lr, rfl⟩ := red_node hil
      simp only [no_red_right_node, Bool.and_eq_true] at hnl
      obtain ⟨⟨hnl1, hnl2⟩, hnl3⟩ := hnl
      simp only [no_red_red_below_node, Bool.and_eq_true] at hol
      obtain ⟨hol1, hol2⟩ := hol
      obtain ⟨a, hbll, hblr, hma⟩ := bh_node_some hbl
      simp only [show (Color.red == Color.black) = false from rfl, if_false,
        Nat.add_zero] at hma
      subst hma
      by_cases hll : is_red ll = true
      · -- red-red on the left of a red root: rotation plus flip
        rw [balance] at h
        simp [hir2, hll, rotate_right, flip_colors, set_color_node,
          update_size] at h
        subst h
        refine ⟨⟨m + 1, ?_⟩, ?_, ?_⟩
        · have hsll : bh (set_color ll .black) = some (m + 1) := by
            rw [bh_set_black hbll, hll]; simp
          have hsr : bh (node k v (size lr + size r + 1) Color.black lr r)
              = some (m + 1) := by
            rw [bh_node_intro _ _ _ _ hblr hbr]; simp
          rw [bh_node_intro _ _ _ _ hsll hsr]; simp
        · simp only [no_red_right_node, Bool.and_eq_true]
          refine ⟨⟨by simp, by rw [no_red_right_set_color]; exact hnl2⟩, ?_⟩
          simp [no_red_right_node, hir2, hnl3, hnr]
        · simp only [no_red_red_below_node, Bool.and_eq_true]
          refine ⟨no_red_red_set_black (no_red_red_of_below hol1), ?_⟩
          simp [no_red_red_node, hol2, hor]
      · -- plain red left child: nothing to do
        have hll2 : is_red ll = false := Bool.eq_false_iff.mpr hll
        have hnrl : no_red_red (node lk lv ln Color.red ll lr) = true := by
          refine no_red_red_intro ?_ ?_ (by simp [hll2])
          · simp [no_red_red_below_node, hol1, hol2]
          · simp [no_red_right_node, hnl1, hnl2, hnl3]
        rw [balance] at h
        simp [hir2, hll2, update_size] at h
        subst h
        refine ⟨⟨m, ?_⟩, ?_, ?_⟩
        · rw [bh_node_intro _ _ _ _ hbl hbr]; simp
        · simp [no_red_right_node, hir2, hnl1, hnl2, hnl3, hnr]
        · simp [no_red_red_below_node, hnrl, hor]
  · -- left not red: balance_spec applies
    have hil2 : is_red l = false := Bool.eq_false_iff.mpr hil
    have hnrl : no_red_red l = true := no_red_red_intro hol hnl (by simp [hil2])
    obtain ⟨hb, hn, ho, _, _, _⟩ := balance_spec hbl hbr hnl hnr hol hor hrl
      (fun _ => ⟨hnrl, Or.inl hil2⟩) h
    exact ⟨⟨m, hb⟩, hn, ho⟩

theorem put_spec : ∀ (t : Tree) (key val : Int) (m : Nat) (u : Tree),
    no_red_red t = true → no_red_right t = true → bh t = some m →
    put t key val = some u →
    bh u = some m ∧ no_red_right u = true ∧ no_red_red_below u = true
      ∧ (is_red t = false → no_red_red u = true) := by
  intro t
  induction t with
  | nil =>
    intro key val m u h1 h2 h3 h4
    rw [bh_nil] at h3
    injection h3 with hm
    subst hm
    rw [put, new_link] at h4
    obtain ⟨hb, hn, ho, _, _, h6⟩ := balance_spec bh_nil bh_nil rfl rfl rfl rfl
      (fun h => absurd h (by simp)) (fun _ => ⟨rfl, Or.inl rfl⟩) h4
    exact ⟨hb, hn, ho, fun _ => h6 rfl rfl rfl⟩
  | node k v n c l r ihl ihr =>
    intro key val m u h1 h2 h3 h4
    rw [put] at h4
    obtain ⟨a, hbl, hbr, hma⟩ := bh_node_some h3
    obtain ⟨hcl, hcr, hcc⟩ := no_red_red_components h1
    simp only [no_red_right_node, Bool.and_eq_true] at h2
    obtain ⟨⟨h21, h22⟩, h23⟩ := h2
    have hr2 : is_red r = false := by
      simpa using h21
    by_cases hlt : key < k
    · rw [if_pos hlt] at h4
      cases hput : put l key val with
      | none => rw [hput] at h4; simp at h4
      | some l2 =>
        rw [hput] at h4
        dsimp only [] at h4
        obtain ⟨ihb, ihn, iho, ihc⟩ := ihl key val a l2 hcl h22 hbl hput
        have hc2 : c = Color.red → no_red_red l2 = true := by
          intro hcr2
          exact ihc (hcc hcr2).1
        obtain ⟨hb, hn, ho, hcb, _, hcr3⟩ := balance_spec ihb hbr ihn h23 iho hcr
          (fun hred => absurd hred (by simp [hr2]))
          (fun hcr2 => ⟨hc2 hcr2, Or.inr hr2⟩) h4
        subst hma
        refine ⟨hb, hn, ho, ?_⟩
        intro hred
        cases c with
        | black => exact hcb rfl
        | red => simp at hred
    · rw [if_neg hlt] at h4
      by_cases hgt : key > k
      · rw [if_pos hgt] at h4
        cases hput : put r key val with
        | none => rw [hput] at h4; simp at h4
        | some r2 =>
          rw [hput] at h4
          dsimp only [] at h4
          obtain ⟨ihb, ihn, iho, ihc⟩ := ihr key val a r2 hcr h23 hbr hput
          have hcr4 : no_red_red r2 = true := ihc hr2
          obtain ⟨hb, hn, ho, hcb, _, _⟩ := balance_spec hbl ihb h22 ihn
            (no_red_red_of_below hcl) hcr4
            (fun _ => hcl)
            (fun hcr2 => ⟨hcl, Or.inl (hcc hcr2).1⟩) h4
          subst hma
          refine ⟨hb, hn, ho, ?_⟩
          intro hred
          cases c with
          | black => exact hcb rfl
          | red => simp at hred
      · rw [if_neg hgt] at h4
        obtain ⟨hb, hn, ho, hcb, _, _⟩ := balance_spec hbl hbr h22 h23
          (no_red_red_of_below hcl) hcr
          (fun hred => absurd hred (by simp [hr2]))
          (fun hcr2 => ⟨hcl, Or.inl (hcc hcr2).1⟩) h4
        subst hma
        refine ⟨hb, hn, ho, ?_⟩
        intro hred
        cases c with
        | black => exact hcb rfl
        | red => simp at hred

theorem move_red_left_spec {k v k1 v1 : Int} {n m n1 : Nat} {c1 : Color}
    {l r l1 r1 : Tree}
    (hbl : bh l = some m) (hbr : bh r = some m)
    (hil : is_red l = false) (hir : is_red r = false)
    (hcl : no_red_red l = true) (hcr : no_red_red r = true)
    (hnl : no_red_right l = true) (hnr : no_red_right r = true)
    (hll : is_red (left_of l) = false)
    (h : move_red_left (node k v n .red l r) = some (node k1 v1 n1 c1 l1 r1)) :
    ∃ a, bh l1 = some a ∧ bh r1 = some a
      ∧ a + (if c1 == Color.black then 1 else 0) = m
      ∧ no_red_red l1 = true ∧ no_red_red r1 = true
      ∧ no_red_right l1 = true ∧ no_red_right r1 = true
      ∧ (is_red l1 = true ∨ is_red (left_of l1) = true)
      ∧ (c1 = Color.red → is_red l1 = false ∧ is_red r1 = false) := by
  cases r with
  | nil =>
    rw [move_red_left] at h
    simp [flip_colors, set_color_nil] at h
  | node rk rv rn rc rl rr =>
    cases rc with
    | red => simp at hir
    | black =>
      obtain ⟨a, hbrl, hbrr, hma⟩ := bh_node_some hbr
      simp only [show (Color.black == Color.black) = true from rfl, if_true] at hma
      subst hma
      cases l with
      | nil =>
        rw [bh_nil] at hbl
        injection hbl with h0
        omega
      | node lk lv ln lc ll lr =>
        cases lc with
        | red => simp at hil
        | black =>
          obtain ⟨b, hbll, hblr, hmb⟩ := bh_node_some hbl
          simp only [show (Color.black == Color.black) = true from rfl,
            if_true] at hmb
          have hab : a = b := by omega
          subst hab
          simp only [left_of_node] at hll
          obtain ⟨hcll, hclr, _⟩ := no_red_red_components hcl
          obtain ⟨hcrl, hcrr, _⟩ := no_red_red_components hcr
          simp only [no_red_right_node, Bool.and_eq_true] at hnl hnr
          obtain ⟨⟨hnl1, hnl2⟩, hnl3⟩ := hnl
          obtain ⟨⟨hnr1, hnr2⟩, hnr3⟩ := hnr
          have hnl1' : is_red lr = false := by simpa using hnl1
          have hnr1' : is_red rr = false := by simpa using hnr1
          by_cases hrl2 : is_red rl = true
          · -- borrow from the sibling
            obtain ⟨qk, qv, qn, ql, qr, rfl⟩ := red_node hrl2
            obtain ⟨hcql, hcqr, hq⟩ := no_red_red_components hcrl
            obtain ⟨hiql, hiqr⟩ := hq rfl
            obtain ⟨d, hbql, hbqr, hmd⟩ := bh_node_some hbrl
            simp only [show (Color.red == Color.black) = false from rfl, if_false,
              Nat.add_zero] at hmd
            subst hmd
            simp only [no_red_right_node, Bool.and_eq_true] at hnr2
            obtain ⟨⟨hq1, hq2⟩, hq3⟩ := hnr2
            rw [move_red_left] at h
            simp [flip_colors, set_color_node, rotate_right, rotate_left] at h
            obtain ⟨rfl, rfl, rfl, rfl, rfl, rfl⟩ := h
            refine ⟨a + 1, ?_, ?_, ?_, ?_, ?_, ?_, ?_, ?_, ?_⟩
            · have h1 : bh (node lk lv ln Color.red ll lr) = some a := by
                rw [bh_node_intro _ _ _ _ hbll hblr]; simp
              rw [bh_node_intro _ _ _ _ h1 hbql]; simp
            · rw [bh_node_intro _ _ _ _ hbqr hbrr]; simp
            · simp
            · simp [no_red_red_node, hll, hnl1', hcll, hclr, hcql]
            · simp [no_red_red_node, hcqr, hcrr]
            · simp [no_red_right_node, hiql, hnl1', hnl2, hnl3, hq2]
            · simp [no_red_right_node, hnr1', hq3, hnr3]
            · right; simp
            · intro _; exact ⟨by simp, by simp⟩
          · -- plain flip down
            have hrl2' : is_red rl = false := Bool.eq_false_iff.mpr hrl2
            rw [move_red_left] at h
            simp [flip_colors, set_color_node, hrl2'] at h
            obtain ⟨rfl, rfl, rfl, rfl, rfl, rfl⟩ := h
            refine ⟨a, ?_, ?_, ?_, ?_, ?_, ?_, ?_, ?_, ?_⟩
            · rw [bh_node_intro _ _ _ _ hbll hblr]; simp
            · rw [bh_node_intro _ _ _ _ hbrl hbrr]; simp
            · simp
            · simp [no_red_red_node, hll, hnl1', hcll, hclr]
            · simp [no_red_red_node, hrl2', hnr1', hcrl, hcrr]
            · simp [no_red_right_node, hnl1', hnl2, hnl3]
            · simp [no_red_right_node, hnr1', hnr2, hnr3]
            · left; simp
            · intro hc1; simp at hc1

theorem move_red_right_spec {k v k1 v1 : Int} {n m n1 : Nat} {c1 : Color}
    {l r l1 r1 : Tree}
    (hbl : bh l = some m) (hbr : bh r = some m)
    (hil : is_red l = false) (hir : is_red r = false)
    (hcl : no_red_red l = true) (hcr : no_red_red r = true)
    (hnl : no_red_right l = true) (hnr : no_red_right r = true)
    (hrl : is_red (left_of r) = false)
    (h : move_red_right (node k v n .red l r) = some (node k1 v1 n1 c1 l1 r1)) :
    ∃ a, bh l1 = some a ∧ bh r1 = some a
      ∧ a + (if c1 == Color.black then 1 else 0) = m
      ∧ no_red_red l1 = true ∧ no_red_red r1 = true
      ∧ no_red_right l1 = true ∧ nrr_children r1 = true
      ∧ (is_red r1 = true ∨ is_red (right_of r1) = true)
      ∧ (is_red (right_of r1) = true → is_red r1 = false
          ∧ is_red (left_of r1) = false
          ∧ ∀ key2 : Int, k ≤ key2 → root_le r1 key2 = true)
      ∧ (c1 = Color.red → is_red l1 = false ∧ is_red r1 = false)
      ∧ (c1 = Color.black → is_red r1 = true ∧ no_red_right r1 = true)
      ∧ (c1 = Color.red → k1 ∈ in_keys l) := by
  cases l with
  | nil =>
    rw [move_red_right] at h
    simp [flip_colors, set_color_nil] at h
  | node lk lv ln lc ll lr =>
    cases lc with
    | red => simp at hil
    | black =>
      obtain ⟨b, hbll, hblr, hmb⟩ := bh_node_some hbl
      simp only [show (Color.black == Color.black) = true from rfl, if_true] at hmb
      subst hmb
      cases r with
      | nil =>
        rw [bh_nil] at hbr
        injection hbr with h0
        omega
      | node rk rv rn rc rl rr =>
        cases rc with
        | red => simp at hir
        | black =>
          obtain ⟨a, hbrl, hbrr, hma⟩ := bh_node_some hbr
          simp only [show (Color.black == Color.black) = true from rfl,
            if_true] at hma
          have hab : a = b := by omega
          subst hab
          simp only [left_of_node] at hrl
          obtain ⟨hcll, hclr, _⟩ := no_red_red_components hcl
          obtain ⟨hcrl, hcrr, _⟩ := no_red_red_components hcr
          simp only [no_red_right_node, Bool.and_eq_true] at hnl hnr
          obtain ⟨⟨hnl1, hnl2⟩, hnl3⟩ := hnl
          obtain ⟨⟨hnr1, hnr2⟩, hnr3⟩ := hnr
          have hnl1' : is_red lr = false := by simpa using hnl1
          have hnr1' : is_red rr = false := by simpa using hnr1
          by_cases hll2 : is_red ll = true
          · -- borrow: rotate right and flip up
            rw [move_red_right] at h
            simp [flip_colors, set_color_node, hll2, rotate_right] at h
            obtain ⟨rfl, rfl, rfl, rfl, rfl, rfl⟩ := h
            refine ⟨a + 1, ?_, ?_, ?_, ?_, ?_, ?_, ?_, ?_, ?_, ?_, ?_, ?_⟩
            · rw [bh_set_black hbll, hll2]; simp
            · have h1 : bh (node rk rv rn Color.red rl rr) = some a := by
                rw [bh_node_intro _ _ _ _ hbrl hbrr]; simp
              rw [bh_node_intro _ _ _ _ hblr h1]; simp
            · simp
            · exact no_red_red_set_black (no_red_red_of_below hcll)
            · simp [no_red_red_node, hnl1', hrl, hnr1', hclr, hcrl, hcrr]
            · rw [no_red_right_set_color]; exact hnl2
            · simp [no_red_right_node, hnl3, hnr1', hnr2, hnr3]
            · right; simp
            · intro _
              refine ⟨by simp, by simp [hnl1'], ?_⟩
              intro key2 hk2
              simp [root_le, hk2]
            · intro _
              exact ⟨is_red_set_black ll, by simp⟩
            · intro h2
              exact absurd h2 (by simp)
            · intro _
              simp [in_keys_node]
          · -- plain flip down
            have hll2' : is_red ll = false := Bool.eq_false_iff.mpr hll2
            rw [move_red_right] at h
            simp [flip_colors, set_color_node, hll2'] at h
            obtain ⟨rfl, rfl, rfl, rfl, rfl, rfl⟩ := h
            refine ⟨a, ?_, ?_, ?_, ?_, ?_, ?_, ?_, ?_, ?_, ?_, ?_, ?_⟩
            · rw [bh_node_intro _ _ _ _ hbll hblr]; simp
            · rw [bh_node_intro _ _ _ _ hbrl hbrr]; simp
            · simp
            · simp [no_red_red_node, hll2', hnl1', hcll, hclr]
            · simp [no_red_red_node, hrl, hnr1', hcrl, hcrr]
            · simp [no_red_right_node, hnl1', hnl2, hnl3]
            · simp [nrr_children_node, hnr2, hnr3]
            · left; simp
            · intro h2
              simp only [right_of_node] at h2
              rw [h2] at hnr1'
              simp at hnr1'
            · intro hc1; simp at hc1
            · intro _
              exact ⟨by simp, by simp [no_red_right_node, hrl, hnr1', hnr2, hnr3]⟩
            · intro h2
              exact absurd h2 (by simp)

theorem delete_min_spec_aux : ∀ (fuel : Nat) (t : Tree) (m : Nat) (u : Tree),
    real_size t ≤ fuel →
    bh t = some m → no_red_right t = true → no_red_red_below t = true →
    (is_red t = true ∨ is_red (left_of t) = true) →
    delete_min t = some u →
    bh u = some m ∧ no_red_right u = true ∧ no_red_red_below u = true
      ∧ (no_red_red t = true → no_red_red u = true)
      ∧ (is_red t = false → is_red u = false) := by
  intro fuel
  induction fuel with
  | zero =>
    intro t m u hsz hb hn ho hcred h
    cases t with
    | nil => exact absurd h (by simp [delete_min])
    | node k v n0 c l r => simp [real_size] at hsz
  | succ fuel IH =>
    intro t m u hsz hb hn ho hcred h
    cases t with
    | nil => exact absurd h (by simp [delete_min])
    | node k v n0 c l r =>
      obtain ⟨a, hbl, hbr, hma⟩ := bh_node_some hb
      simp only [no_red_right_node, Bool.and_eq_true] at hn
      obtain ⟨⟨hn1, hn2⟩, hn3⟩ := hn
      have hn1' : is_red r = false := by simpa using hn1
      simp only [no_red_red_below_node, Bool.and_eq_true] at ho
      obtain ⟨hol, hor⟩ := ho
      cases l with
      | nil =>
        -- minimum found: the node is replaced by the absent link
        have hcr : c = Color.red := by
          rcases hcred with h2 | h2
          · cases c with
            | red => rfl
            | black => simp at h2
          · simp at h2
        subst hcr
        rw [bh_nil] at hbl
        injection hbl with ha0
        subst ha0
        simp at hma
        subst hma
        rw [delete_min] at h
        simp at h
        subst h
        refine ⟨rfl, rfl, rfl, fun _ => rfl, ?_⟩
        intro h2
        simp at h2
      | node lk lv ln lc ll lr =>
        rw [delete_min] at h
        split at h
        · exact absurd h (by simp)
        · exact absurd h (by simp)
        · rename_i k1 v1 n1 c1 l1 r1 heq
          split at h
          · exact absurd h (by simp)
          · rename_i l2 hl2
            have hfacts : ∃ a1, bh l1 = some a1 ∧ bh r1 = some a1
                ∧ a1 + (if c1 == Color.black then 1 else 0) = m
                ∧ no_red_red l1 = true ∧ no_red_red r1 = true
                ∧ no_red_right l1 = true ∧ no_red_right r1 = true
                ∧ (is_red l1 = true ∨ is_red (left_of l1) = true)
                ∧ (c1 = Color.red → is_red r1 = false)
                ∧ (no_red_red (node k v n0 c (node lk lv ln lc ll lr) r) = true →
                    c1 = Color.red → is_red l1 = false)
                ∧ (is_red (node k v n0 c (node lk lv ln lc ll lr) r) = false →
                    c1 = Color.black ∧ is_red r1 = false)
                ∧ real_size l1
                    < real_size (node k v n0 c (node lk lv ln lc ll lr) r) := by
              split at heq
              · -- move_red_left path: left and left-left both black, so c is red
                rename_i hcond
                simp only [Bool.and_eq_true, Bool.not_eq_true'] at hcond
                have hcr : c = Color.red := by
                  rcases hcred with h2 | h2
                  · cases c with
                    | red => rfl
                    | black => simp at h2
                  · simp only [left_of_node] at h2
                    rw [hcond.1] at h2
                    simp at h2
                subst hcr
                simp only [show (Color.red == Color.black) = false from rfl,
                  if_false, Nat.add_zero] at hma
                subst hma
                have hsz2 := real_size_move_red_left heq
                obtain ⟨a1, h1, h2, h3, h4, h5, h6, h7, h8, h9⟩ :=
                  move_red_left_spec hbl hbr hcond.1 hn1' hol hor
                    (by simp [no_red_right_node, hn2]) hn3
                    (by simp [hcond.2]) heq
                refine ⟨a1, h1, h2, h3, h4, h5, h6, h7, h8,
                  fun hc1 => (h9 hc1).2, fun _ hc1 => (h9 hc1).1, ?_, ?_⟩
                · intro h10; simp at h10
                · simp [real_size] at hsz2 ⊢
                  omega
              · -- no move: the left or the left-left link is already red
                rename_i hcond
                have hcond2 : is_red (node lk lv ln lc ll lr) = true
                    ∨ is_red ll = true := by
                  by_cases h4 : is_red (node lk lv ln lc ll lr) = true
                  · exact Or.inl h4
                  · right
                    by_cases h5 : is_red ll = true
                    · exact h5
                    · exfalso
                      apply hcond
                      simp [Bool.eq_false_iff.mpr h4, Bool.eq_false_iff.mpr h5]
                simp only [Option.some.injEq] at heq
                obtain ⟨rfl, rfl, rfl, rfl, rfl, rfl⟩ := heq
                refine ⟨a, hbl, hbr, by omega, hol, hor,
                  by simp [no_red_right_node, hn2], hn3, ?_, fun _ => hn1', ?_, ?_, ?_⟩
                · simpa using hcond2
                · intro hnrt hc1
                  obtain ⟨hx, _, hy⟩ := no_red_red_components hnrt
                  exact (hy hc1).1
                · intro hred
                  refine ⟨?_, hn1'⟩
                  cases c with
                  | red => simp at hred
                  | black => rfl
                · simp [real_size]
                  omega
            obtain ⟨a1, hf1, hf2, hf3, hf4, hf5, hf6, hf7, hf8, hf9, hf9b, hf9c, hf10⟩ :=
              hfacts
            have hIH := IH l1 a1 l2 (by omega) hf1 hf6
              (no_red_red_of_below hf4) hf8 hl2
            obtain ⟨ih1, ih2, ih3, ih4, ih5⟩ := hIH
            have hcl2 : no_red_red l2 = true := ih4 hf4
            obtain ⟨bb, bn, bo, bcb, bca, bcr⟩ := balance_spec ih1 hf2 ih2 hf7
              ih3 hf5 (fun _ => hcl2)
              (fun hc1 => ⟨hcl2, Or.inr (hf9 hc1)⟩) h
            rw [hf3] at bb
            refine ⟨bb, bn, bo, ?_, ?_⟩
            · intro hnrt
              cases hc1 : c1 with
              | black => exact bcb hc1
              | red => exact bcr hc1 (ih5 (hf9b hnrt hc1)) (hf9 hc1)
            · intro hred
              obtain ⟨hc1b, hr1b⟩ := hf9c hred
              exact bca hc1b hcl2 (Or.inr hr1b)

theorem delete_min_spec {t : Tree} {m : Nat} {u : Tree}
    (hb : bh t = some m) (hn : no_red_right t = true)
    (ho : no_red_red_below t = true)
    (hcred : is_red t = true ∨ is_red (left_of t) = true)
    (h : delete_min t = some u) :
    bh u = some m ∧ no_red_right u = true ∧ no_red_red_below u = true
      ∧ (no_red_red t = true → no_red_red u = true)
      ∧ (is_red t = false → is_red u = false) :=
  delete_min_spec_aux (real_size t) t m u (Nat.le_refl _) hb hn ho hcred h

theorem delete_max_spec_aux : ∀ (fuel : Nat) (t : Tree) (m : Nat) (u : Tree),
    real_size t ≤ fuel →
    bh t = some m → nrr_children t = true → no_red_red_below t = true →
    (is_red t = true ∨ is_red (left_of t) = true ∨ is_red (right_of t) = true) →
    (is_red (right_of t) = true →
      is_red t = false ∧ is_red (left_of t) = false) →
    delete_max t = some u →
    bh u = some m ∧ no_red_right u = true ∧ no_red_red_below u = true
      ∧ (no_red_red t = true → no_red_red u = true)
      ∧ (is_red t = false → is_red u = false) := by
  intro fuel
  induction fuel with
  | zero =>
    intro t m u hsz hb hn ho hcred hrr h
    cases t with
    | nil => exact absurd h (by simp [delete_max])
    | node k v n0 c l r => simp [real_size] at hsz
  | succ fuel IH =>
    intro t m u hsz hb hn ho hcred hrr h
    cases t with
    | nil => exact absurd h (by simp [delete_max])
    | node k v n0 c l r =>
      obtain ⟨a, hbl, hbr, hma⟩ := bh_node_some hb
      simp only [nrr_children_node, Bool.and_eq_true] at hn
      obtain ⟨hn2, hn3⟩ := hn
      simp only [no_red_red_below_node, Bool.and_eq_true] at ho
      obtain ⟨hol, hor⟩ := ho
      simp only [left_of_node, right_of_node, is_red_node] at hcred hrr
      rw [delete_max] at h
      split at h
      · exact absurd h (by simp)
      · exact absurd h (by simp)
      · -- right link of the (possibly rotated) node is absent: drop the node
        rename_i k1 v1 n1 c1 l1 heq
        split at heq
        · -- a rotation cannot produce an absent right link
          rename_i hil
          obtain ⟨lk, lv, ln, ll, lr, rfl⟩ := red_node hil
          rw [rotate_right] at heq
          simp at heq
        · rename_i hil
          have hil2 : is_red l = false := Bool.eq_false_iff.mpr hil
          simp only [Option.some.injEq, node.injEq] at heq
          obtain ⟨rfl, rfl, rfl, rfl, rfl, hrnil⟩ := heq
          subst hrnil
          rw [bh_nil] at hbr
          injection hbr with ha0
          subst ha0
          have hcr : c = Color.red := by
            rcases hcred with h2 | h2 | h2
            · cases c with
              | red => rfl
              | black => simp at h2
            · rw [hil2] at h2; simp at h2
            · simp at h2
          subst hcr
          have hlnil : l = nil := eq_nil_of_bh_zero hbl hil2
          subst hlnil
          simp at hma
          subst hma
          simp only [Option.some.injEq] at h
          subst h
          refine ⟨rfl, rfl, rfl, fun _ => rfl, ?_⟩
          intro h2
          simp at h2
      · -- right link present: descend on the right
        rename_i k1 v1 n1 c1 l1 rk rv rn rc rl rr heq
        split at heq
        · -- Path A: the left link was red and was rotated away
          rename_i hil
          obtain ⟨lk, lv, ln, ll, lr, rfl⟩ := red_node hil
          have hir2 : is_red r = false := by
            by_cases h2 : is_red r = true
            · exact absurd (hrr h2).2 (by simp)
            · exact Bool.eq_false_iff.mpr h2
          obtain ⟨hcll, hclr, hllc⟩ := no_red_red_components hol
          obtain ⟨hill, hilr⟩ := hllc rfl
          obtain ⟨b, hbll, hblr, hmb⟩ := bh_node_some hbl
          simp only [show (Color.red == Color.black) = false from rfl, if_false,
            Nat.add_zero] at hmb
          subst hmb
          simp only [no_red_right_node, Bool.and_eq_true] at hn2
          obtain ⟨⟨hq1, hq2⟩, hq3⟩ := hn2
          rw [rotate_right] at heq
          simp only [Option.some.injEq, node.injEq] at heq
          obtain ⟨rfl, rfl, rfl, rfl, rfl, heq5⟩ := heq
          obtain ⟨rfl, rfl, rfl, rfl, rfl, rfl⟩ := heq5
          -- the new right child is red, so no move happens
          split at h
          · exact absurd h (by simp)
          · exact absurd h (by simp)
          · rename_i k2 v2 n2 c2 l2 r2 heq2
            split at heq2
            · rename_i hcond
              simp at hcond
            · simp only [Option.some.injEq, node.injEq] at heq2
              obtain ⟨rfl, rfl, rfl, rfl, rfl, rfl⟩ := heq2
              split at h
              · exact absurd h (by simp)
              · rename_i r3 hr3
                have hbr2 : bh (node k v (size lr + size r + 1) Color.red lr r)
                    = some a := by
                  rw [bh_node_intro _ _ _ _ hblr hbr]; simp
                have hIH := IH (node k v (size lr + size r + 1) Color.red lr r)
                  a r3 (by simp [real_size] at hsz ⊢; omega) hbr2
                  (by simp [nrr_children_node, hq3, hn3])
                  (by simp [no_red_red_below_node, hclr, hor])
                  (by left; simp)
                  (by simp [hir2]) hr3
                obtain ⟨ih1, ih2, ih3, ih4, ih5⟩ := hIH
                have hcr3 : no_red_red r3 = true := by
                  apply ih4
                  simp [no_red_red_node, hilr, hir2, hclr, hor]
                obtain ⟨bb, bn, bo, bcb, bca, bcr⟩ := balance_spec hbll ih1
                  hq2 ih2 (no_red_red_of_below hcll) hcr3
                  (fun _ => hcll) (fun _ => ⟨hcll, Or.inl hill⟩) h
                refine ⟨?_, bn, bo, ?_, ?_⟩
                · rw [bb, hma]
                · intro hnrt
                  obtain ⟨_, _, hcc⟩ := no_red_red_components hnrt
                  cases c with
                  | black => exact bcb rfl
                  | red => exact absurd (hcc rfl).1 (by simp)
                · intro hred
                  have hcb : c = Color.black := by
                    cases c with
                    | red => simp at hred
                    | black => rfl
                  exact bca hcb hcll (Or.inl hill)
        · -- no rotation: the left link is black
          rename_i hil
          have hil2 : is_red l = false := Bool.eq_false_iff.mpr hil
          simp only [Option.some.injEq, node.injEq] at heq
          obtain ⟨rfl, rfl, rfl, rfl, rfl, hreq⟩ := heq
          subst hreq
          obtain ⟨b, hbrl, hbrr, hmb⟩ := bh_node_some hbr
          simp only [no_red_right_node, Bool.and_eq_true] at hn3
          obtain ⟨⟨hp1, hp2⟩, hp3⟩ := hn3
          have hp1' : is_red rr = false := by simpa using hp1
          split at h
          · exact absurd h (by simp)
          · exact absurd h (by simp)
          · rename_i k2 v2 n2 c2 l2 r2 heq2
            split at heq2
            · -- Path B: move_red_right
              rename_i hcond
              simp only [Bool.and_eq_true, Bool.not_eq_true'] at hcond
              have hcr : c = Color.red := by
                rcases hcred with h2 | h2 | h2
                · cases c with
                  | red => rfl
                  | black => simp at h2
                · rw [hil2] at h2; simp at h2
                · rw [hcond.1] at h2; simp at h2
              subst hcr
              simp at hma
              subst hma
              have hsz2 := real_size_move_red_right heq2
              obtain ⟨a1, g1, g2, g3, g4, g5, g6, g7, g8, g9, g10, g11, g12⟩ :=
                move_red_right_spec hbl hbr hil2 (by simp [hcond.1]) hol hor
                  hn2 (by simp [no_red_right_node, hp1, hp2, hp3])
                  (by simp [hcond.2]) heq2
              split at h
              · exact absurd h (by simp)
              · rename_i r3 hr3
                have hIH := IH r2 a1 r3
                  (by simp [real_size] at hsz hsz2 ⊢; omega) g2 g7
                  (no_red_red_of_below g5)
                  (by rcases g8 with h3 | h3
                      · exact Or.inl h3
                      · exact Or.inr (Or.inr h3))
                  (fun h3 => ⟨(g9 h3).1, (g9 h3).2.1⟩) hr3
                obtain ⟨ih1, ih2, ih3, ih4, ih5⟩ := hIH
                have hcr3 : no_red_red r3 = true := ih4 g5
                obtain ⟨bb, bn, bo, bcb, bca, bcr⟩ := balance_spec g1 ih1
                  g6 ih2 (no_red_red_of_below g4) hcr3
                  (fun _ => g4) (fun hc2 => ⟨g4, Or.inl (g10 hc2).1⟩) h
                refine ⟨?_, bn, bo, ?_, ?_⟩
                · rw [bb, g3]
                · intro _
                  cases hc2 : c2 with
                  | black => exact bcb hc2
                  | red => exact bcr hc2 (g10 hc2).1 (ih5 (g10 hc2).2)
                · intro hred
                  simp at hred
            · -- Path C: the right or right-left link is already red
              rename_i hcond
              have hcond2 : rc = Color.red ∨ is_red rl = true := by
                by_cases h4 : rc = Color.red
                · exact Or.inl h4
                · right
                  by_cases h5 : is_red rl = true
                  · exact h5
                  · exfalso
                    apply hcond
                    have h4b : (rc == Color.red) = false := by
                      cases rc with
                      | red => exact absurd rfl h4
                      | black => rfl
                    simp [h4b, Bool.eq_false_iff.mpr h5]
              simp only [Option.some.injEq, node.injEq] at heq2
              obtain ⟨rfl, rfl, rfl, rfl, rfl, rfl⟩ := heq2
              split at h
              · exact absurd h (by simp)
              · rename_i r3 hr3
                have hIH := IH (node rk rv rn rc rl rr) a r3
                  (by simp [real_size] at hsz ⊢; omega) hbr
                  (by simp [nrr_children_node, hp2, hp3])
                  (no_red_red_of_below hor)
                  (by rcases hcond2 with h3 | h3
                      · left; simp [h3]
                      · right; left; simpa using h3)
                  (by intro h3; simp only [right_of_node] at h3
                      rw [h3] at hp1'; simp at hp1') hr3
                obtain ⟨ih1, ih2, ih3, ih4, ih5⟩ := hIH
                have hcr3 : no_red_red r3 = true := ih4 hor
                obtain ⟨bb, bn, bo, bcb, bca, bcr⟩ := balance_spec hbl ih1
                  hn2 ih2 (no_red_red_of_below hol) hcr3
                  (fun _ => hol) (fun _ => ⟨hol, Or.inl hil2⟩) h
                refine ⟨?_, bn, bo, ?_, ?_⟩
                · rw [bb, hma]
                · intro hnrt
                  obtain ⟨_, _, hcc⟩ := no_red_red_components hnrt
                  cases c with
                  | black => exact bcb rfl
                  | red => exact bcr rfl hil2 (ih5 (hcc rfl).2)
                · intro hred
                  have hcb : c = Color.black := by
                    cases c with
                    | red => simp at hred
                    | black => rfl
                  exact bca hcb hol (Or.inl hil2)

theorem delete_max_spec {t : Tree} {m : Nat} {u : Tree}
    (hb : bh t = some m) (hn : nrr_children t = true)
    (ho : no_red_red_below t = true)
    (hcred : is_red t = true ∨ is_red (left_of t) = true
      ∨ is_red (right_of t) = true)
    (hrr : is_red (right_of t) = true →
      is_red t = false ∧ is_red (left_of t) = false)
    (h : delete_max t = some u) :
    bh u = some m ∧ no_red_right u = true ∧ no_red_red_below u = true
      ∧ (no_red_red t = true → no_red_red u = true)
      ∧ (is_red t = false → is_red u = false) :=
  delete_max_spec_aux (real_size t) t m u (Nat.le_refl _) hb hn ho hcred hrr h

theorem bh_swap_min_kv : ∀ (t : Tree) (a b : Int),
    bh (swap_min_kv t a b) = bh t
  | nil, _, _ => rfl
  | node _ _ _ _ nil _, _, _ => rfl
  | node k v n c (node lk lv ln lc ll lr) r, a, b => by
    rw [swap_min_kv]
    rw [bh, bh, bh_swap_min_kv (node lk lv ln lc ll lr) a b]

theorem is_red_swap_min_kv : ∀ (t : Tree) (a b : Int),
    is_red (swap_min_kv t a b) = is_red t
  | nil, _, _ => rfl
  | node _ _ _ c nil _, _, _ => by rw [swap_min_kv]; cases c <;> rfl
  | node k v n c (node lk lv ln lc ll lr) r, a, b => by
    rw [swap_min_kv]
    simp only [is_red_node]

theorem no_red_right_swap_min_kv : ∀ (t : Tree) (a b : Int),
    no_red_right (swap_min_kv t a b) = no_red_right t
  | nil, _, _ => rfl
  | node _ _ _ _ nil _, _, _ => rfl
  | node k v n c (node lk lv ln lc ll lr) r, a, b => by
    rw [swap_min_kv]
    simp only [no_red_right_node,
      no_red_right_swap_min_kv (node lk lv ln lc ll lr) a b]

theorem no_red_red_swap_min_kv : ∀ (t : Tree) (a b : Int),
    no_red_red (swap_min_kv t a b) = no_red_red t
  | nil, _, _ => rfl
  | node _ _ _ _ nil _, _, _ => rfl
  | node k v n c (node lk lv ln lc ll lr) r, a, b => by
    rw [swap_min_kv]
    simp only [no_red_red_node,
      no_red_red_swap_min_kv (node lk lv ln lc ll lr) a b,
      is_red_swap_min_kv (node lk lv ln lc ll lr) a b]

theorem left_of_is_red_swap_min_kv : ∀ (t : Tree) (a b : Int),
    is_red (left_of (swap_min_kv t a b)) = is_red (left_of t)
  | nil, _, _ => rfl
  | node _ _ _ _ nil _, _, _ => rfl
  | node k v n c (node lk lv ln lc ll lr) r, a, b => by
    rw [swap_min_kv]
    simp only [left_of_node, is_red_swap_min_kv (node lk lv ln lc ll lr) a b]

theorem right_of_not_red {t : Tree} (h : no_red_right t = true) :
    is_red (right_of t) = false := by
  cases t with
  | nil => rfl
  | node k v n c l r =>
    simp only [no_red_right_node, Bool.and_eq_true] at h
    simpa using h.1.1

theorem delete_go_spec : ∀ (fuel : Nat) (t : Tree) (key : Int) (m : Nat) (u : Tree),
    bh t = some m → nrr_children t = true → no_red_red_below t = true →
    sorted t →
    (is_red t = true ∨ is_red (left_of t) = true ∨ is_red (right_of t) = true) →
    (is_red (right_of t) = true → is_red t = false ∧ is_red (left_of t) = false
      ∧ root_le t key = true) →
    delete_go fuel t key = some u →
    bh u = some m ∧ no_red_right u = true ∧ no_red_red_below u = true
      ∧ (no_red_red t = true → no_red_red u = true)
      ∧ (is_red t = false → is_red u = false) := by
  intro fuel
  induction fuel with
  | zero =>
    intro t key m u _ _ _ _ _ _ h
    rw [delete_go] at h
    exact absurd h (by simp)
  | succ fuel IH =>
    intro t key m u hb hn ho hs hcred hrr h
    rw [delete_go] at h
    cases t with
    | nil => exact absurd h (by simp [delete_body])
    | node hk hv hn0 hc hl hr =>
      rw [delete_body.eq_def] at h
      dsimp only [] at h
      obtain ⟨a, hbl, hbr, hma⟩ := bh_node_some hb
      simp only [nrr_children_node, Bool.and_eq_true] at hn
      obtain ⟨hn2, hn3⟩ := hn
      simp only [no_red_red_below_node, Bool.and_eq_true] at ho
      obtain ⟨hol, hor⟩ := ho
      rw [sorted_node_iff] at hs
      obtain ⟨hsl, hsr, hkl, hkr⟩ := hs
      simp only [left_of_node, right_of_node, is_red_node] at hcred hrr
      by_cases hlt : key < hk
      · -- descend left, exactly as delete_min does
        rw [if_pos hlt] at h
        have hir2 : is_red hr = false := by
          by_cases h2 : is_red hr = true
          · exfalso
            have h3 := (hrr h2).2.2
            simp [root_le] at h3
            omega
          · exact Bool.eq_false_iff.mpr h2
        cases hl with
        | nil => exact Option.noConfusion h
        | node lk lv ln lc ll lr =>
          dsimp only [] at h
          split at h
          · exact absurd h (by simp)
          · exact absurd h (by simp)
          · rename_i k1 v1 n1 c1 l1 r1 heq
            split at h
            · exact absurd h (by simp)
            · rename_i l2 hl2
              by_cases hcond : (!(is_red (node lk lv ln lc ll lr))
                  && !(is_red ll)) = true
              · rw [if_pos hcond] at heq
                simp only [Bool.and_eq_true, Bool.not_eq_true'] at hcond
                have hcr : hc = Color.red := by
                  rcases hcred with h2 | h2 | h2
                  · cases hc with
                    | red => rfl
                    | black => simp at h2
                  · rw [hcond.1] at h2; simp at h2
                  · rw [hir2] at h2; simp at h2
                subst hcr
                simp at hma
                subst hma
                obtain ⟨a1, g1, g2, g3, g4, g5, g6, g7, g8, g9⟩ :=
                  move_red_left_spec hbl hbr hcond.1 hir2 hol hor hn2 hn3
                    (by simp [hcond.2]) heq
                obtain ⟨ih1, ih2, ih3, ih4, ih5⟩ := IH l1 key a1 l2 g1
                  (by cases l1 with
                      | nil => rfl
                      | node q1 q2 q3 q4 q5 q6 =>
                        simp only [no_red_right_node, Bool.and_eq_true] at g6
                        simp [nrr_children_node, g6.1.2, g6.2])
                  (no_red_red_of_below g4)
                  (by have hsort1 : sorted (node k1 v1 n1 c1 l1 r1) :=
                        (sorted_congr (in_pairs_move_red_left heq)).mpr
                          ((sorted_node_iff _ _ _ _ _ _).mpr ⟨hsl, hsr, hkl, hkr⟩)
                      rw [sorted_node_iff] at hsort1
                      exact hsort1.1)
                  (by rcases g8 with h3 | h3
                      · exact Or.inl h3
                      · exact Or.inr (Or.inl h3))
                  (fun h3 => absurd h3 (by simp [right_of_not_red g6])) hl2
                have hcl2 : no_red_red l2 = true := ih4 g4
                obtain ⟨bb, bn, bo, bcb, bca, bcr⟩ := balance_spec ih1 g2 ih2 g7
                  ih3 g5 (fun _ => hcl2)
                  (fun hc1 => ⟨hcl2, Or.inr (g9 hc1).2⟩) h
                rw [g3] at bb
                refine ⟨bb, bn, bo, fun _ => ?_, ?_⟩
                · cases hc1 : c1 with
                  | black => exact bcb hc1
                  | red => exact bcr hc1 (ih5 (g9 hc1).1) (g9 hc1).2
                · intro hred
                  simp at hred
              · rw [if_neg hcond] at heq
                have hcond2 : is_red (node lk lv ln lc ll lr) = true
                    ∨ is_red ll = true := by
                  by_cases h4 : is_red (node lk lv ln lc ll lr) = true
                  · exact Or.inl h4
                  · right
                    by_cases h5 : is_red ll = true
                    · exact h5
                    · exfalso
                      apply hcond
                      simp [Bool.eq_false_iff.mpr h4, Bool.eq_false_iff.mpr h5]
                simp only [Option.some.injEq, node.injEq] at heq
                obtain ⟨rfl, rfl, rfl, rfl, rfl, rfl⟩ := heq
                obtain ⟨ih1, ih2, ih3, ih4, ih5⟩ := IH (node lk lv ln lc ll lr)
                  key a l2 hbl
                  (by simp only [no_red_right_node, Bool.and_eq_true] at hn2
                      simp [nrr_children_node, hn2.1.2, hn2.2])
                  (no_red_red_of_below hol) hsl
                  (by rcases hcond2 with h3 | h3
                      · exact Or.inl h3
                      · right; left; simpa using h3)
                  (by intro h3
                      have h4 := right_of_not_red hn2
                      simp only [right_of_node] at h3 h4
                      rw [h3] at h4
                      exact Bool.noConfusion h4) hl2
                have hcl2 : no_red_red l2 = true := ih4 hol
                obtain ⟨bb, bn, bo, bcb, bca, bcr⟩ := balance_spec ih1 hbr ih2 hn3
                  ih3 hor (fun _ => hcl2)
                  (fun hc1 => ⟨hcl2, Or.inr hir2⟩) h
                rw [← hma] at bb
                refine ⟨bb, bn, bo, fun hnrt => ?_, ?_⟩
                · cases hc1 : hc with
                  | black => exact bcb hc1
                  | red =>
                    obtain ⟨_, _, hy⟩ := no_red_red_components hnrt
                    exact bcr hc1 (ih5 (hy hc1).1) hir2
                · intro hred
                  have hcb : hc = Color.black := by
                    cases hc with
                    | red => simp at hred
                    | black => rfl
                  exact bca hcb hcl2 (Or.inr hir2)
      · -- key not less: rotate a red left link away, then equal or greater
        rw [if_neg hlt] at h
        have hklow : hk ≤ key := by omega
        split at h
        · exact absurd h (by simp)
        · exact absurd h (by simp)
        · rename_i k1 v1 n1 c1 l1 r1 heq
          split at heq
          · -- Path A: red left link rotated to the right
            rename_i hil
            obtain ⟨lk, lv, ln, ll, lr, rfl⟩ := red_node hil
            have hir2 : is_red hr = false := by
              by_cases h2 : is_red hr = true
              · exact absurd (hrr h2).2 (by simp)
              · exact Bool.eq_false_iff.mpr h2
            obtain ⟨hcll, hclr, hllc⟩ := no_red_red_components hol
            obtain ⟨hill, hilr⟩ := hllc rfl
            obtain ⟨b, hbll, hblr, hmb⟩ := bh_node_some hbl
            simp at hmb
            subst hmb
            simp only [no_red_right_node, Bool.and_eq_true] at hn2
            obtain ⟨⟨hq1, hq2⟩, hq3⟩ := hn2
            have hq1' : is_red lr = false := by simpa using hq1
            rw [rotate_right] at heq
            simp only [Option.some.injEq, node.injEq] at heq
            obtain ⟨rfl, rfl, rfl, rfl, rfl, rfl⟩ := heq
            have hbr2 : bh (node hk hv (size lr + size hr + 1) Color.red lr hr)
                = some a := by
              rw [bh_node_intro _ _ _ _ hblr hbr]; simp
            have hnr2full : no_red_right
                (node hk hv (size lr + size hr + 1) Color.red lr hr) = true := by
              simp [no_red_right_node, hir2, hq3, hn3]
            have hcr2full : no_red_red
                (node hk hv (size lr + size hr + 1) Color.red lr hr) = true := by
              simp [no_red_red_node, hq1', hir2, hclr, hor]
            simp only [show ∀ (x1 x2 : ℤ) (x3 : Nat) (x4 : Color) (x5 x6 : Tree),
              ((node x1 x2 x3 x4 x5 x6 : Tree) == nil) = false
              from fun _ _ _ _ _ _ => rfl, Bool.and_false, Bool.false_eq_true,
              if_false, is_red_node,
              show (Color.red == Color.red) = true from rfl,
              Bool.not_true, Bool.false_and] at h
            have hasm : ∀ (k3 v3 : Int) (r3 : Tree), bh r3 = some a →
                no_red_right r3 = true → no_red_red r3 = true →
                balance (node k3 v3 hn0 hc ll r3) = some u →
                bh u = some m ∧ no_red_right u = true
                  ∧ no_red_red_below u = true
                  ∧ (no_red_red (node hk hv hn0 hc
                      (node lk lv ln Color.red ll lr) hr) = true →
                      no_red_red u = true)
                  ∧ (is_red (node hk hv hn0 hc
                      (node lk lv ln Color.red ll lr) hr) = false →
                      is_red u = false) := by
              intro k3 v3 r3 hbr3 hnr3 hcr3 hbal
              obtain ⟨bb, bn, bo, bcb, bca, bcr⟩ := balance_spec hbll hbr3
                hq2 hnr3 (no_red_red_of_below hcll) hcr3
                (fun _ => hcll) (fun _ => ⟨hcll, Or.inl hill⟩) hbal
              refine ⟨?_, bn, bo, fun hnrt => ?_, fun hred => ?_⟩
              · rw [bb, hma]
              · obtain ⟨hx, _, hy⟩ := no_red_red_components hnrt
                cases hc with
                | black => exact bcb rfl
                | red => exact absurd (hy rfl).1 (by simp)
              · have hcb : hc = Color.black := by
                  cases hc with
                  | red => simp at hred
                  | black => rfl
                subst hcb
                exact bca rfl hcll (Or.inl hill)
            by_cases hkeq : (key == lk) = true
            · rw [if_pos hkeq] at h
              split at h
              · exact absurd h (by simp)
              · rename_i mk mv x1 x2 x3 x4 heq3
                split at h
                · exact absurd h (by simp)
                · rename_i r3 hr3
                  obtain ⟨d1, d2, d3, d4, d5⟩ := delete_min_spec
                    (t := swap_min_kv (node hk hv (size lr + size hr + 1)
                      Color.red lr hr) lk lv)
                    (by rw [bh_swap_min_kv]; exact hbr2)
                    (by rw [no_red_right_swap_min_kv]; exact hnr2full)
                    (no_red_red_of_below
                      (by rw [no_red_red_swap_min_kv]; exact hcr2full))
                    (by left; rw [is_red_swap_min_kv]; simp) hr3
                  have hcr3 : no_red_red r3 = true := by
                    apply d4
                    rw [no_red_red_swap_min_kv]
                    exact hcr2full
                  exact hasm mk mv r3 d1 d2 hcr3 h
            · rw [if_neg hkeq] at h
              split at h
              · exact absurd h (by simp)
              · rename_i r3 hr3
                obtain ⟨ih1, ih2, ih3, ih4, ih5⟩ := IH
                  (node hk hv (size lr + size hr + 1) Color.red lr hr) key
                  a r3 hbr2 (by simp [nrr_children_node, hq3, hn3])
                  (no_red_red_of_below hcr2full)
                  (by rw [sorted_node_iff] at hsl ⊢
                      refine ⟨hsl.2.1, hsr, ?_, hkr⟩
                      intro x hx
                      exact hkl x (by simp only [in_keys_node]
                                      simp
                                      right; right; exact hx))
                  (by left; simp)
                  (by rw [right_of_node]
                      intro h3
                      rw [h3] at hir2
                      exact Bool.noConfusion hir2) hr3
                exact hasm lk lv r3 ih1 ih2 (ih4 hcr2full) h
          · -- no rotation: the left link is not red
            rename_i hil
            have hil2 : is_red hl = false := Bool.eq_false_iff.mpr hil
            simp only [Option.some.injEq, node.injEq] at heq
            obtain ⟨rfl, rfl, rfl, rfl, rfl, rfl⟩ := heq
            by_cases hdrop : (key == hk && (hr == nil)) = true
            · -- equal key with an absent right link: drop the node
              rw [if_pos hdrop] at h
              simp only [Bool.and_eq_true, beq_iff_eq] at hdrop
              obtain ⟨hdk, hdr⟩ := hdrop
              subst hdr
              rw [bh_nil] at hbr
              injection hbr with ha0
              subst ha0
              have hcr : hc = Color.red := by
                rcases hcred with h2 | h2 | h2
                · cases hc with
                  | red => rfl
                  | black => simp at h2
                · rw [hil2] at h2; simp at h2
                · simp at h2
              subst hcr
              simp at hma
              subst hma
              simp only [Option.some.injEq] at h
              subst h
              refine ⟨rfl, rfl, rfl, fun _ => rfl, ?_⟩
              intro h2
              simp at h2
            · rw [if_neg hdrop] at h
              cases hr with
              | nil => exact Option.noConfusion h
              | node rk rv rn rc rl rr =>
                dsimp only [] at h
                obtain ⟨b, hbrl, hbrr, hmb⟩ := bh_node_some hbr
                simp only [no_red_right_node, Bool.and_eq_true] at hn3
                obtain ⟨⟨hp1, hp2⟩, hp3⟩ := hn3
                have hp1' : is_red rr = false := by simpa using hp1
                split at h
                · exact absurd h (by simp)
                · exact absurd h (by simp)
                · rename_i k2 v2 n2 c2 l2 r2 heq2
                  by_cases hcond : (!(is_red (node rk rv rn rc rl rr))
                      && !(is_red rl)) = true
                  · rw [if_pos hcond] at heq2
                    simp only [Bool.and_eq_true, Bool.not_eq_true'] at hcond
                    have hcr : hc = Color.red := by
                      rcases hcred with h2 | h2 | h2
                      · cases hc with
                        | red => rfl
                        | black => simp at h2
                      · rw [hil2] at h2; simp at h2
                      · rw [hcond.1] at h2; simp at h2
                    subst hcr
                    simp at hma
                    subst hma
                    obtain ⟨a1, g1, g2, g3, g4, g5, g6, g7, g8, g9, g10, g11, g12⟩ :=
                      move_red_right_spec hbl hbr hil2 (by simp [hcond.1]) hol hor
                        hn2 (by simp [no_red_right_node, hp1, hp2, hp3])
                        (by simp [hcond.2]) heq2
                    by_cases hkeq : (key == k2) = true
                    · rw [if_pos hkeq] at h
                      cases hc2 : c2 with
                      | red =>
                        exfalso
                        have hmem := g12 hc2
                        have hklt := hkl k2 hmem
                        simp only [beq_iff_eq] at hkeq
                        omega
                      | black =>
                        obtain ⟨gr1, gr2⟩ := g11 hc2
                        split at h
                        · exact absurd h (by simp)
                        · rename_i mk mv x1 x2 x3 x4 heq3
                          split at h
                          · exact absurd h (by simp)
                          · rename_i r3 hr3
                            obtain ⟨d1, d2, d3, d4, d5⟩ := delete_min_spec
                              (t := swap_min_kv r2 k2 v2)
                              (by rw [bh_swap_min_kv]; exact g2)
                              (by rw [no_red_right_swap_min_kv]; exact gr2)
                              (no_red_red_of_below
                                (by rw [no_red_red_swap_min_kv]; exact g5))
                              (by left; rw [is_red_swap_min_kv]; exact gr1) hr3
                            have hcr3 : no_red_red r3 = true := by
                              apply d4
                              rw [no_red_red_swap_min_kv]
                              exact g5
                            obtain ⟨bb, bn, bo, bcb, bca, bcr⟩ := balance_spec
                              g1 d1 g6 d2 (no_red_red_of_below g4) hcr3
                              (fun _ => g4)
                              (fun hcc => by rw [hc2] at hcc; simp at hcc) h
                            rw [g3] at bb
                            refine ⟨bb, bn, bo, fun _ => bcb hc2, ?_⟩
                            intro hred
                            simp at hred
                    · rw [if_neg hkeq] at h
                      split at h
                      · exact absurd h (by simp)
                      · rename_i r3 hr3
                        obtain ⟨ih1, ih2, ih3, ih4, ih5⟩ := IH r2 key a1 r3 g2 g7
                          (no_red_red_of_below g5)
                          (by have hsort1 : sorted (node k2 v2 n2 c2 l2 r2) :=
                                (sorted_congr (in_pairs_move_red_right heq2)).mpr
                                  ((sorted_node_iff _ _ _ _ _ _).mpr
                                    ⟨hsl, hsr, hkl, hkr⟩)
                              rw [sorted_node_iff] at hsort1
                              exact hsort1.2.1)
                          (by rcases g8 with h3 | h3
                              · exact Or.inl h3
                              · exact Or.inr (Or.inr h3))
                          (fun h3 => ⟨(g9 h3).1, (g9 h3).2.1,
                            (g9 h3).2.2 key hklow⟩) hr3
                        have hcr3 : no_red_red r3 = true := ih4 g5
                        obtain ⟨bb, bn, bo, bcb, bca, bcr⟩ := balance_spec
                          g1 ih1 g6 ih2 (no_red_red_of_below g4) hcr3
                          (fun _ => g4)
                          (fun hcc => ⟨g4, Or.inl (g10 hcc).1⟩) h
                        rw [g3] at bb
                        refine ⟨bb, bn, bo, fun _ => ?_, ?_⟩
                        · cases hc2 : c2 with
                          | black => exact bcb hc2
                          | red => exact bcr hc2 (g10 hc2).1 (ih5 (g10 hc2).2)
                        · intro hred
                          simp at hred
                  · rw [if_neg hcond] at heq2
                    have hcond2 : is_red (node rk rv rn rc rl rr) = true
                        ∨ is_red rl = true := by
                      by_cases h4 : is_red (node rk rv rn rc rl rr) = true
                      · exact Or.inl h4
                      · right
                        by_cases h5 : is_red rl = true
                        · exact h5
                        · exfalso
                          apply hcond
                          simp [Bool.eq_false_iff.mpr h4, Bool.eq_false_iff.mpr h5]
                    simp only [Option.some.injEq] at heq2
                    obtain ⟨rfl, rfl, rfl, rfl, rfl, rfl⟩ := heq2
                    by_cases hkeq : (key == hk) = true
                    · rw [if_pos hkeq] at h
                      split at h
                      · exact absurd h (by simp)
                      · rename_i mk mv x1 x2 x3 x4 heq3
                        split at h
                        · exact absurd h (by simp)
                        · rename_i r3 hr3
                          obtain ⟨d1, d2, d3, d4, d5⟩ := delete_min_spec
                            (t := swap_min_kv (node rk rv rn rc rl rr) hk hv)
                            (by rw [bh_swap_min_kv]; exact hbr)
                            (by rw [no_red_right_swap_min_kv]
                                simp [no_red_right_node, hp1, hp2, hp3])
                            (no_red_red_of_below
                              (by rw [no_red_red_swap_min_kv]; exact hor))
                            (by rcases hcond2 with h3 | h3
                                · left; rw [is_red_swap_min_kv]; exact h3
                                · right
                                  rw [left_of_is_red_swap_min_kv]
                                  simpa using h3) hr3
                          have hcr3 : no_red_red r3 = true := by
                            apply d4
                            rw [no_red_red_swap_min_kv]
                            exact hor
                          obtain ⟨bb, bn, bo, bcb, bca, bcr⟩ := balance_spec
                            hbl d1 hn2 d2 (no_red_red_of_below hol) hcr3
                            (fun _ => hol)
                            (fun _ => ⟨hol, Or.inl hil2⟩) h
                          rw [← hma] at bb
                          refine ⟨bb, bn, bo, fun hnrt => ?_, ?_⟩
                          · obtain ⟨_, _, hy⟩ := no_red_red_components hnrt
                            cases hc with
                            | black => exact bcb rfl
                            | red =>
                              refine bcr rfl hil2 (d5 ?_)
                              rw [is_red_swap_min_kv]
                              exact (hy rfl).2
                          · intro hred
                            have hcb : hc = Color.black := by
                              cases hc with
                              | red => simp at hred
                              | black => rfl
                            exact bca hcb hol (Or.inl hil2)
                    · rw [if_neg hkeq] at h
                      split at h
                      · exact absurd h (by simp)
                      · rename_i r3 hr3
                        obtain ⟨ih1, ih2, ih3, ih4, ih5⟩ := IH
                          (node rk rv rn rc rl rr) key a r3 hbr
                          (by simp [nrr_children_node, hp2, hp3])
                          (no_red_red_of_below hor) hsr
                          (by rcases hcond2 with h3 | h3
                              · exact Or.inl h3
                              · right; left; simpa using h3)
                          (by intro h3
                              simp only [right_of_node] at h3
                              rw [h3] at hp1'
                              simp at hp1') hr3
                        have hcr3 : no_red_red r3 = true := ih4 hor
                        obtain ⟨bb, bn, bo, bcb, bca, bcr⟩ := balance_spec
                          hbl ih1 hn2 ih2 (no_red_red_of_below hol) hcr3
                          (fun _ => hol)
                          (fun _ => ⟨hol, Or.inl hil2⟩) h
                        rw [← hma] at bb
                        refine ⟨bb, bn, bo, fun hnrt => ?_, ?_⟩
                        · obtain ⟨_, _, hy⟩ := no_red_red_components hnrt
                          cases hc with
                          | black => exact bcb rfl
                          | red => exact bcr rfl hil2 (ih5 (hy rfl).2)
                        · intro hred
                          have hcb : hc = Color.black := by
                            cases hc with
                            | red => simp at hred
                            | black => rfl
                          exact bca hcb hol (Or.inl hil2)

theorem delete_max_sublist_aux : ∀ {n : Nat} {t u : Tree}, real_size t ≤ n →
    delete_max t = some u → List.Sublist (in_pairs u) (in_pairs t) := by
  intro n
  induction n with
  | zero =>
    intro t u hsz h
    cases t with
    | nil => exact absurd h (by simp [delete_max])
    | node k v n0 c l r => simp [real_size] at hsz
  | succ n IH =>
    intro t u hsz h
    cases t with
    | nil => exact absurd h (by simp [delete_max])
    | node k v n0 c l r =>
      rw [delete_max] at h
      split at h
      · exact absurd h (by simp)
      · exact absurd h (by simp)
      · -- the right link is absent: the node itself is dropped
        simp only [Option.some.injEq] at h
        subst h
        simp
      · rename_i k1 v1 n1 c1 l1 rk rv rn rc rl rr heq
        have e0 : in_pairs (node k1 v1 n1 c1 l1 (node rk rv rn rc rl rr))
            = in_pairs (node k v n0 c l r) := by
          split at heq
          · exact in_pairs_rotate_right heq
          · simp at heq; obtain ⟨rfl, rfl, rfl, rfl, rfl, rfl⟩ := heq; rfl
        have esz : real_size (node k1 v1 n1 c1 l1 (node rk rv rn rc rl rr))
            = real_size (node k v n0 c l r) := by
          split at heq
          · exact real_size_rotate_right heq
          · simp at heq; obtain ⟨rfl, rfl, rfl, rfl, rfl, rfl⟩ := heq; rfl
        split at h
        · exact absurd h (by simp)
        · exact absurd h (by simp)
        · rename_i k2 v2 n2 c2 l2 r2 heq2
          have e1 : in_pairs (node k2 v2 n2 c2 l2 r2)
              = in_pairs (node k1 v1 n1 c1 l1 (node rk rv rn rc rl rr)) := by
            split at heq2
            · exact in_pairs_move_red_right heq2
            · simp at heq2; obtain ⟨rfl, rfl, rfl, rfl, rfl, rfl⟩ := heq2; rfl
          have esz1 : real_size (node k2 v2 n2 c2 l2 r2)
              = real_size (node k1 v1 n1 c1 l1 (node rk rv rn rc rl rr)) := by
            split at heq2
            · exact real_size_move_red_right heq2
            · simp at heq2; obtain ⟨rfl, rfl, rfl, rfl, rfl, rfl⟩ := heq2; rfl
          split at h
          · exact absurd h (by simp)
          · rename_i r3 hr3
            have hr2 : real_size r2 ≤ n := by
              simp [real_size] at esz esz1 hsz ⊢
              omega
            have IHr := IH hr2 hr3
            rw [in_pairs_balance h, ← e0, ← e1]
            simp only [in_pairs_node]
            exact List.Sublist.append (List.Sublist.refl _)
              (List.Sublist.cons₂ _ IHr)

theorem delete_max_sublist {t u : Tree} (h : delete_max t = some u) :
    List.Sublist (in_pairs u) (in_pairs t) :=
  delete_max_sublist_aux (Nat.le_refl _) h

theorem sorted_set_color {t : Tree} (c : Color) (hs : sorted t) :
    sorted (set_color t c) :=
  (sorted_congr (in_pairs_set_color t c)).mpr hs

theorem put_preserves_inv {t u : Tree} {key val : Int} {m : Nat}
    (hb : bh t = some m)
    (hn : no_red_right t = true) (ho : no_red_red_below t = true)
    (h : put t key val = some u) :
    (∃ m2, bh u = some m2) ∧ no_red_right u = true
      ∧ no_red_red_below u = true := by
  cases t with
  | nil =>
    obtain ⟨pb, pn, po, _⟩ := put_spec nil key val m u rfl rfl hb h
    exact ⟨⟨m, pb⟩, pn, po⟩
  | node k v n c l r =>
    cases c with
    | black =>
      have hnr : no_red_red (node k v n Color.black l r) = true :=
        no_red_red_intro ho hn (by simp)
      obtain ⟨pb, pn, po, _⟩ := put_spec _ key val m u hnr hn hb h
      exact ⟨⟨m, pb⟩, pn, po⟩
    | red =>
      obtain ⟨a, hbl, hbr, hma⟩ := bh_node_some hb
      simp only [no_red_right_node, Bool.and_eq_true] at hn
      obtain ⟨⟨hn1, hn2⟩, hn3⟩ := hn
      have hn1' : is_red r = false := by simpa using hn1
      simp only [no_red_red_below_node, Bool.and_eq_true] at ho
      obtain ⟨hol, hor⟩ := ho
      rw [put] at h
      by_cases hlt : key < k
      · rw [if_pos hlt] at h
        split at h
        · exact absurd h (by simp)
        · rename_i l2 hl2
          obtain ⟨pb, pn, po, _⟩ := put_spec l key val a l2 hol hn2 hbl hl2
          exact balance_spec_red pb hbr pn hn3 po hor
            (fun h2 => by rw [h2] at hn1'; exact Bool.noConfusion hn1') h
      · rw [if_neg hlt] at h
        by_cases hgt : key > k
        · rw [if_pos hgt] at h
          split at h
          · exact absurd h (by simp)
          · rename_i r2 hr2
            obtain ⟨pb, pn, po, pc⟩ := put_spec r key val a r2 hor hn3 hbr hr2
            exact balance_spec_red hbl pb hn2 pn (no_red_red_of_below hol)
              (pc hn1') (fun _ => hol) h
        · rw [if_neg hgt] at h
          exact balance_spec_red hbl hbr hn2 hn3 (no_red_red_of_below hol) hor
            (fun _ => hol) h

theorem inv_apply_op {t u : Facade} {op : Op}
    (hb : ∃ m, bh t.root = some m) (hn : no_red_right t.root = true)
    (ho : no_red_red_below t.root = true) (hs : sorted t.root)
    (h : apply_op t op = some u) :
    (∃ m2, bh u.root = some m2) ∧ no_red_right u.root = true
      ∧ no_red_red_below u.root = true ∧ sorted u.root := by
  obtain ⟨m, hbm⟩ := hb
  cases op with
  | put key val =>
    rw [apply_op, Facade.put] at h
    split at h
    · exact absurd h (by simp)
    · rename_i r hr
      simp only [Option.some.injEq] at h
      subst h
      obtain ⟨e1, e2, e3⟩ := put_preserves_inv hbm hn ho hr
      exact ⟨e1, e2, e3, sorted_put hs hr⟩
  | delete key =>
    rw [apply_op, Facade.delete] at h
    split at h
    · exact absurd h (by simp)
    · rename_i k v n c l r heq
      rw [heq] at hbm hn ho hs
      obtain ⟨a, hbl, hbr, hma⟩ := bh_node_some hbm
      simp only [no_red_right_node, Bool.and_eq_true] at hn
      obtain ⟨⟨hn1, hn2⟩, hn3⟩ := hn
      have hn1' : is_red r = false := by simpa using hn1
      simp only [no_red_red_below_node, Bool.and_eq_true] at ho
      obtain ⟨hol, hor⟩ := ho
      have htail : ∀ (t1 root2 : Tree) (m1 : Nat), bh t1 = some m1 →
          nrr_children t1 = true → no_red_red_below t1 = true → sorted t1 →
          (is_red t1 = true ∨ is_red (left_of t1) = true
            ∨ is_red (right_of t1) = true) →
          (is_red (right_of t1) = true → is_red t1 = false
            ∧ is_red (left_of t1) = false ∧ root_le t1 key = true) →
          RBT.delete t1 key = some root2 →
          some (Facade.mk (if RBT.size root2 > 0 then set_color root2 .black
            else root2)) = some u →
          (∃ m2, bh u.root = some m2) ∧ no_red_right u.root = true
            ∧ no_red_red_below u.root = true ∧ sorted u.root := by
        intro t1 root2 m1 hb1 hn1x ho1 hs1 hcred hrrc hdel hh
        rw [RBT.delete] at hdel
        obtain ⟨d1, d2, d3, _, _⟩ := delete_go_spec (real_size t1 + 1) t1 key
          m1 root2 hb1 hn1x ho1 hs1 hcred hrrc hdel
        have hs2 : sorted root2 :=
          sorted_of_sublist (delete_props hs1 hdel).1 hs1
        simp only [Option.some.injEq] at hh
        subst hh
        by_cases hszr : RBT.size root2 > 0
        · exact ⟨⟨_, by simp only []; rw [if_pos hszr]; exact bh_set_black d1⟩,
            by simp only []; rw [if_pos hszr, no_red_right_set_color]; exact d2,
            by simp only []
               rw [if_pos hszr, no_red_red_below_set_color]; exact d3,
            by simp only []; rw [if_pos hszr]; exact sorted_set_color _ hs2⟩
        · exact ⟨⟨m1, by simp only []; rw [if_neg hszr]; exact d1⟩,
            by simp only []; rw [if_neg hszr]; exact d2,
            by simp only []; rw [if_neg hszr]; exact d3,
            by simp only []; rw [if_neg hszr]; exact hs2⟩
      by_cases hrc : (!(is_red l) && !(is_red r)) = true
      · rw [if_pos hrc] at h
        simp only [Bool.and_eq_true, Bool.not_eq_true'] at hrc
        split at h
        · exact absurd h (by simp)
        · rename_i root2 hroot2
          exact htail _ root2 a
            (by rw [bh_node_intro _ _ _ _ hbl hbr]; simp)
            (by simp [nrr_children_node, hn2, hn3])
            (by simp [no_red_red_below_node, hol, hor])
            ((sorted_recolor_red k v n c l r).mpr hs)
            (Or.inl (by simp))
            (by rw [right_of_node]
                intro h2
                rw [h2] at hn1'
                exact Bool.noConfusion hn1')
            hroot2 h
      · rw [if_neg hrc] at h
        have hlred : is_red l = true := by
          simp only [Bool.and_eq_true, Bool.not_eq_true'] at hrc
          by_cases h2 : is_red l = true
          · exact h2
          · exact absurd ⟨Bool.eq_false_iff.mpr h2, hn1'⟩ hrc
        split at h
        · exact absurd h (by simp)
        · rename_i root2 hroot2
          exact htail _ root2 m hbm
            (by simp [nrr_children_node, hn2, hn3])
            (by simp [no_red_red_below_node, hol, hor])
            hs
            (Or.inr (Or.inl (by simp [left_of_node, hlred])))
            (by rw [right_of_node]
                intro h2
                rw [h2] at hn1'
                exact Bool.noConfusion hn1')
            hroot2 h
  | delete_min =>
    rw [apply_op, Facade.delete_min] at h
    split at h
    · exact absurd h (by simp)
    · rename_i k v n c l r heq
      rw [heq] at hbm hn ho hs
      obtain ⟨a, hbl, hbr, hma⟩ := bh_node_some hbm
      simp only [no_red_right_node, Bool.and_eq_true] at hn
      obtain ⟨⟨hn1, hn2⟩, hn3⟩ := hn
      have hn1' : is_red r = false := by simpa using hn1
      simp only [no_red_red_below_node, Bool.and_eq_true] at ho
      obtain ⟨hol, hor⟩ := ho
      have htail : ∀ (t1 root2 : Tree) (m1 : Nat), bh t1 = some m1 →
          no_red_right t1 = true → no_red_red_below t1 = true → sorted t1 →
          (is_red t1 = true ∨ is_red (left_of t1) = true) →
          RBT.delete_min t1 = some root2 →
          some (Facade.mk (if RBT.size root2 > 0 then set_color root2 .black
            else root2)) = some u →
          (∃ m2, bh u.root = some m2) ∧ no_red_right u.root = true
            ∧ no_red_red_below u.root = true ∧ sorted u.root := by
        intro t1 root2 m1 hb1 hn1x ho1 hs1 hcred hdel hh
        obtain ⟨d1, d2, d3, _, _⟩ := delete_min_spec hb1 hn1x ho1 hcred hdel
        have hs2 : sorted root2 :=
          sorted_of_sublist
            ((delete_min_sublist hdel).trans (List.tail_sublist _)) hs1
        simp only [Option.some.injEq] at hh
        subst hh
        by_cases hszr : RBT.size root2 > 0
        · exact ⟨⟨_, by simp only []; rw [if_pos hszr]; exact bh_set_black d1⟩,
            by simp only []; rw [if_pos hszr, no_red_right_set_color]; exact d2,
            by simp only []
               rw [if_pos hszr, no_red_red_below_set_color]; exact d3,
            by simp only []; rw [if_pos hszr]; exact sorted_set_color _ hs2⟩
        · exact ⟨⟨m1, by simp only []; rw [if_neg hszr]; exact d1⟩,
            by simp only []; rw [if_neg hszr]; exact d2,
            by simp only []; rw [if_neg hszr]; exact d3,
            by simp only []; rw [if_neg hszr]; exact hs2⟩
      by_cases hrc : (!(is_red l) && !(is_red r)) = true
      · rw [if_pos hrc] at h
        split at h
        · exact absurd h (by simp)
        · rename_i root2 hroot2
          exact htail _ root2 a
            (by rw [bh_node_intro _ _ _ _ hbl hbr]; simp)
            (by simp [no_red_right_node, hn1', hn2, hn3])
            (by simp [no_red_red_below_node, hol, hor])
            ((sorted_recolor_red k v n c l r).mpr hs)
            (Or.inl (by simp))
            hroot2 h
      · rw [if_neg hrc] at h
        have hlred : is_red l = true := by
          simp only [Bool.and_eq_true, Bool.not_eq_true'] at hrc
          by_cases h2 : is_red l = true
          · exact h2
          · exact absurd ⟨Bool.eq_false_iff.mpr h2, hn1'⟩ hrc
        split at h
        · exact absurd h (by simp)
        · rename_i root2 hroot2
          exact htail _ root2 m hbm
            (by simp [no_red_right_node, hn1', hn2, hn3])
            (by simp [no_red_red_below_node, hol, hor])
            hs
            (Or.inr (by simp [left_of_node, hlred]))
            hroot2 h
  | delete_max =>
    rw [apply_op, Facade.delete_max] at h
    split at h
    · exact absurd h (by simp)
    · rename_i k v n c l r heq
      rw [heq] at hbm hn ho hs
      obtain ⟨a, hbl, hbr, hma⟩ := bh_node_some hbm
      simp only [no_red_right_node, Bool.and_eq_true] at hn
      obtain ⟨⟨hn1, hn2⟩, hn3⟩ := hn
      have hn1' : is_red r = false := by simpa using hn1
      simp only [no_red_red_below_node, Bool.and_eq_true] at ho
      obtain ⟨hol, hor⟩ := ho
      have htail : ∀ (t1 root2 : Tree) (m1 : Nat), bh t1 = some m1 →
          nrr_children t1 = true → no_red_red_below t1 = true → sorted t1 →
          (is_red t1 = true ∨ is_red (left_of t1) = true
            ∨ is_red (right_of t1) = true) →
          (is_red (right_of t1) = true → is_red t1 = false
            ∧ is_red (left_of t1) = false) →
          RBT.delete_max t1 = some root2 →
          some (Facade.mk (if RBT.size root2 > 0 then set_color root2 .black
            else root2)) = some u →
          (∃ m2, bh u.root = some m2) ∧ no_red_right u.root = true
            ∧ no_red_red_below u.root = true ∧ sorted u.root := by
        intro t1 root2 m1 hb1 hn1x ho1 hs1 hcred hrrc hdel hh
        obtain ⟨d1, d2, d3, _, _⟩ := delete_max_spec hb1 hn1x ho1 hcred hrrc
          hdel
        have hs2 : sorted root2 :=
          sorted_of_sublist (delete_max_sublist hdel) hs1
        simp only [Option.some.injEq] at hh
        subst hh
        by_cases hszr : RBT.size root2 > 0
        · exact ⟨⟨_, by simp only []; rw [if_pos hszr]; exact bh_set_black d1⟩,
            by simp only []; rw [if_pos hszr, no_red_right_set_color]; exact d2,
            by simp only []
               rw [if_pos hszr, no_red_red_below_set_color]; exact d3,
            by simp only []; rw [if_pos hszr]; exact sorted_set_color _ hs2⟩
        · exact ⟨⟨m1, by simp only []; rw [if_neg hszr]; exact d1⟩,
            by simp only []; rw [if_neg hszr]; exact d2,
            by simp only []; rw [if_neg hszr]; exact d3,
            by simp only []; rw [if_neg hszr]; exact hs2⟩
      by_cases hrc : (!(is_red l) && !(is_red r)) = true
      · rw [if_pos hrc] at h
        split at h
        · exact absurd h (by simp)
        · rename_i root2 hroot2
          exact htail _ root2 a
            (by rw [bh_node_intro _ _ _ _ hbl hbr]; simp)
            (by simp [nrr_children_node, hn2, hn3])
            (by simp [no_red_red_below_node, hol, hor])
            ((sorted_recolor_red k v n c l r).mpr hs)
            (Or.inl (by simp))
            (by rw [right_of_node]
                intro h2
                rw [h2] at hn1'
                exact Bool.noConfusion hn1')
            hroot2 h
      · rw [if_neg hrc] at h
        have hlred : is_red l = true := by
          simp only [Bool.and_eq_true, Bool.not_eq_true'] at hrc
          by_cases h2 : is_red l = true
          · exact h2
          · exact absurd ⟨Bool.eq_false_iff.mpr h2, hn1'⟩ hrc
        split at h
        · exact absurd h (by simp)
        · rename_i root2 hroot2
          exact htail _ root2 m hbm
            (by simp [nrr_children_node, hn2, hn3])
            (by simp [no_red_red_below_node, hol, hor])
            hs
            (Or.inr (Or.inl (by simp [left_of_node, hlred])))
            (by rw [right_of_node]
                intro h2
                rw [h2] at hn1'
                exact Bool.noConfusion hn1')
            hroot2 h

theorem inv_apply_ops : ∀ (ops : List Op) (t u : Facade),
    (∃ m, bh t.root = some m) → no_red_right t.root = true →
    no_red_red_below t.root = true → sorted t.root →
    apply_ops t ops = some u →
    (∃ m2, bh u.root = some m2) ∧ no_red_right u.root = true
      ∧ no_red_red_below u.root = true ∧ sorted u.root := by
  intro ops
  induction ops with
  | nil =>
    intro t u hb hn ho hs h
    simp only [apply_ops, Option.some.injEq] at h
    subst h
    exact ⟨hb, hn, ho, hs⟩
  | cons op ops ih =>
    intro t u hb hn ho hs h
    rw [apply_ops] at h
    split at h
    · exact absurd h (by simp)
    · rename_i t2 ht2
      obtain ⟨b1, n1, o1, s1⟩ := inv_apply_op hb hn ho hs ht2
      exact ih t2 u b1 n1 o1 s1 h

/-- C5: after any sequence of public mutating calls from a fresh tree, every
root-to-null path carries the same number of black links (bh is defined),
and no node carries a red right child above a black left child
(left_lean_ok). -/
theorem C5_color_invariants (ops : List Op) (t : Facade)
    (h : apply_ops Facade.new ops = some t) :
    black_balanced t.root = true ∧ left_lean_ok t.root = true := by
  obtain ⟨⟨m, hb⟩, hn, _, _⟩ := inv_apply_ops ops Facade.new t
    ⟨0, rfl⟩ rfl rfl (by simp [Facade.new, sorted, in_keys, in_pairs]) h
  exact ⟨by simp [black_balanced, hb], left_lean_of_no_red_right hn⟩

theorem C5_color_invariants_witness :
    apply_ops Facade.new [Op.put 5 1, Op.put 3 2, Op.delete 5]
        = some ⟨node 3 2 1 Color.black nil nil⟩
      ∧ black_balanced (Facade.mk (node 3 2 1 Color.black nil nil)).root = true
      ∧ left_lean_ok (Facade.mk (node 3 2 1 Color.black nil nil)).root
          = true :=
  ⟨rfl, C5_color_invariants [Op.put 5 1, Op.put 3 2, Op.delete 5]
    ⟨node 3 2 1 Color.black nil nil⟩ rfl⟩

end RBT
